import Mathlib

/-!
Verification development for the Telegram → signal-converter bridge
(`tg_listener_local_bridge.py`).  The Python source is shallowly embedded:
strings are handled as `List Char` (via `String.data`), the regex-based
rewrite rules are embedded as deterministic character-list matchers that
mirror the backtracking behaviour of the concrete patterns, and the
network-facing functions take their HTTP responses and token state as
explicit parameters.  The `(?im)` patterns of the source are anchored at
`^ … $`, so they are embedded as per-line matchers.
-/

namespace TgBridge

/-! ## Character classes

Python `str.strip()` whitespace (ASCII part), `\s`, `\d`, `\w` (ASCII part). -/

def isPyWs (c : Char) : Bool :=
  c = ' ' || c = '\t' || c = '\n' || c = '\r' || c = '\x0b' || c = '\x0c'

def isLineWs (c : Char) : Bool :=
  isPyWs c && !(c = '\n')

def isDigitCh (c : Char) : Bool :=
  '0' ≤ c && c ≤ '9'

def isAsciiLetter (c : Char) : Bool :=
  ('a' ≤ c && c ≤ 'z') || ('A' ≤ c && c ≤ 'Z')

def isWordCh (c : Char) : Bool :=
  isAsciiLetter c || isDigitCh c || c = '_'

def asciiLower (c : Char) : Char :=
  if 'A' ≤ c && c ≤ 'Z' then Char.ofNat (c.toNat + 32) else c

def asciiUpper (c : Char) : Char :=
  if 'a' ≤ c && c ≤ 'z' then Char.ofNat (c.toNat - 32) else c

/-! ## List-of-characters utilities mirroring Python string methods -/

def dropWsL (s : List Char) : List Char := s.dropWhile isPyWs

def dropWsR (s : List Char) : List Char := (s.reverse.dropWhile isPyWs).reverse

/-- Python `str.strip()` (ASCII whitespace). -/
def stripL (s : List Char) : List Char := dropWsR (dropWsL s)

/-- Split on newline characters, like Python `text.split("\n")`. -/
def splitNl : List Char → List (List Char)
  | [] => [[]]
  | c :: rest =>
    if c = '\n' then [] :: splitNl rest
    else
      match splitNl rest with
      | l :: ls => (c :: l) :: ls
      | [] => [[c]]

/-- Join lines with newlines, like Python `"\n".join(lines)`. -/
def joinNl : List (List Char) → List Char
  | [] => []
  | [l] => l
  | l :: ls => l ++ '\n' :: joinNl ls

/-! ## `clean_text` -/

/-- `text.replace(" ", " ")`. -/
def replaceNbsp (s : List Char) : List Char :=
  s.map (fun c => if c = ' ' then ' ' else c)

def isSpaceTab (c : Char) : Bool := c = ' ' || c = '\t'

/-- `re.sub(r"[ \t]+\n", "\n", t)`: spaces and tabs immediately before a
newline are removed. -/
def subWsNl (s : List Char) : List Char :=
  s.foldr (fun c acc => if isSpaceTab c && acc.head? = some '\n' then acc else c :: acc) []

/-- `re.sub(r"\n{3,}", "\n\n", t)`: runs of three or more newlines collapse
to exactly two. -/
def collapseNl (s : List Char) : List Char :=
  s.foldr (fun c acc => if c = '\n' && acc.take 2 = ['\n', '\n'] then acc else c :: acc) []

/-- Embedding of `clean_text` (source lines 105–109). -/
def clean_text (s : List Char) : List Char :=
  stripL (collapseNl (subWsNl (replaceNbsp s)))

/-! ## `normalize_telegram_signal` -/

/-- `re.fullmatch(r"\d+", last)`: nonempty, all decimal digits. -/
def isAllDigits (s : List Char) : Bool :=
  !s.isEmpty && s.all isDigitCh

/-- `re.fullmatch(r"\d{1,2}:\d{2}", last)`: an `H:MM` or `HH:MM` time. -/
def isTimeL (s : List Char) : Bool :=
  match s with
  | [h1, c, m1, m2] => isDigitCh h1 && c = ':' && isDigitCh m1 && isDigitCh m2
  | [h1, h2, c, m1, m2] => isDigitCh h1 && isDigitCh h2 && c = ':' && isDigitCh m1 && isDigitCh m2
  | _ => false

/-- A noise line of the source normalizer: tested on the stripped line. -/
def isNoiseL (s : List Char) : Bool := isAllDigits s || isTimeL s

/-- `while lines and lines[-1].strip() == "": lines.pop()` on the reversed
line list. -/
def popBlanksRev (ls : List (List Char)) : List (List Char) :=
  ls.dropWhile (fun l => (stripL l).isEmpty)

/-- The trailing-noise loop of `normalize_telegram_signal`, on the reversed
line list.  Fuel bounds the iteration count; each step consumes at least the
noise line itself, so `length` fuel is enough. -/
def popNoiseRevF : Nat → List (List Char) → List (List Char)
  | 0, ls => ls
  | Nat.succ n, ls =>
    match ls with
    | [] => []
    | l :: rest =>
      if isNoiseL (stripL l) then popNoiseRevF n (popBlanksRev rest)
      else l :: rest

/-- Embedding of `normalize_telegram_signal` (source lines 112–126). -/
def normalize_telegram_signal (s : String) : String :=
  let lines0 := (splitNl (clean_text s.data)).map dropWsR
  let linesR := popBlanksRev lines0.reverse
  let linesR2 := popNoiseRevF (linesR.length + 1) linesR
  String.mk (stripL (joinNl linesR2.reverse))

/-- A line that is blank (after stripping) or is a noise line. -/
def noiseOrBlank (l : List Char) : Bool :=
  (stripL l).isEmpty || isNoiseL (stripL l)

/-- Spec-worded normalizer for claim C7 (amended): after whitespace cleanup,
the maximal trailing run of noise lines (purely digits or an `H:MM`/`HH:MM`
time) and blank lines is removed from the bottom, until a non-noise line is
found or the text is empty. -/
def specNormalize (s : String) : String :=
  String.mk (stripL (joinNl
    ((((splitNl (clean_text s.data)).map dropWsR).reverse.dropWhile noiseOrBlank).reverse)))

/-! ## Regex-style matcher combinators

Deterministic character-list matchers replicating the concrete patterns of
the source.  `dropLit` consumes a case-insensitive literal (given in
lowercase), returning the remainder. -/

/-- Consume the case-insensitive literal `w` (given lowercased) from the
front of `s`. -/
def dropLit : List Char → List Char → Option (List Char)
  | [], s => some s
  | _ :: _, [] => none
  | c :: cs, d :: ds => if asciiLower d = c then dropLit cs ds else none

def skipWs (s : List Char) : List Char := s.dropWhile isLineWs

/-- Word boundary between the previous character and the current suffix. -/
def bdryBefore (prev : Option Char) : Bool :=
  match prev with
  | none => true
  | some c => !(isWordCh c)

/-- Word boundary after a word character, i.e. the suffix starts with a
non-word character or is empty. -/
def bdryAfterWord (s : List Char) : Bool :=
  match s with
  | [] => true
  | c :: _ => !(isWordCh c)

/-- Consume a label given as words separated by `\s*` (e.g. `entry\s*price`),
case-insensitively.  Interior whitespace is skipped maximally, which agrees
with the regex because a label word never starts with whitespace. -/
def dropLabel : List (List Char) → List Char → Option (List Char)
  | [], s => some s
  | [w], s => dropLit w s
  | w :: ws, s =>
    match dropLit w s with
    | some r => dropLabel ws (skipWs r)
    | none => none

def isNumCh (c : Char) : Bool := isDigitCh c || c = '.' || c = ','

/-- Backtracking for `([0-9][0-9\.,]*)\b`: given the reversed greedy run and
the character following it, drop characters from the end until a word
boundary holds between the last kept character and the following one. -/
def numBack : List Char → Option Char → Option (List Char)
  | [], _ => none
  | c :: revRest, nxt =>
    let nextWord : Bool := match nxt with | some d => isWordCh d | none => false
    if isWordCh c ≠ nextWord then some (c :: revRest)
    else numBack revRest (some c)

/-- Parse `([0-9][0-9\.,]*)\b` at the head of `s`: the greedy run of
digits/dots/commas starting with a digit, shortened until the trailing word
boundary holds.  Returns the captured characters. -/
def parseNum (s : List Char) : Option (List Char) :=
  match s with
  | c :: _ =>
    if isDigitCh c then
      let run := s.takeWhile isNumCh
      let rest := s.dropWhile isNumCh
      match numBack run.reverse rest.head? with
      | some revCand => some revCand.reverse
      | none => none
    else none
  | [] => none

/-- `\s*[:=]?\s*` (the separator of the rewrite rules), consumed
deterministically. -/
def dropSep (s : List Char) : List Char :=
  let s1 := skipWs s
  match s1 with
  | c :: rest => if c = ':' || c = '=' then skipWs rest else s1
  | [] => s1

/-- Try the label alternatives in order against the line content after
leading whitespace; on a label match require the trailing word boundary,
the separator and a number, falling through to the next alternative on
failure (regex alternation with backtracking). -/
def tryLabels (labels : List (List (List Char))) (s : List Char) : Option (List Char) :=
  match labels with
  | [] => none
  | lab :: moreLabs =>
    match dropLabel lab s with
    | some r =>
      if bdryAfterWord r then
        match parseNum (dropSep r) with
        | some num => some num
        | none => tryLabels moreLabs s
      else tryLabels moreLabs s
    | none => tryLabels moreLabs s

def entryLabels : List (List (List Char)) :=
  [["entry".data], ["entry".data, "price".data], ["e".data]]

def tpLabels : List (List (List Char)) :=
  [["tp".data], ["take".data, "profit".data]]

def slLabels : List (List (List Char)) :=
  [["sl".data], ["stop".data, "loss".data], ["stop".data], ["si".data]]

/-- `^\s*<w>\s+limit\s*$` specialised to a single newline-free line
(proved equal to the whole-text rule on such lines). -/
def matchDirLimitLine (w : List Char) (l : List Char) : Bool :=
  match dropLit w (skipWs l) with
  | some r =>
    match r with
    | c :: rest =>
      if isLineWs c then
        match dropLit "limit".data (skipWs rest) with
        | some r2 => r2.all isLineWs
        | none => false
      else false
    | [] => false
  | none => false

/-- `^\s*<w>!+\s*$` specialised to a single newline-free line. -/
def matchBangLine (w : List Char) (l : List Char) : Bool :=
  match dropLit w (skipWs l) with
  | some r =>
    match r with
    | '!' :: rest => (rest.dropWhile (fun c => c = '!')).all isLineWs
    | _ => false
  | none => false

/-- The seven rewrite rules of `normalize_for_converter` specialised to a
single newline-free line, applied in source order; on such lines this is
proved equal to the whole-text substitution chain. -/
def dirSteps (l : List Char) : List Char :=
  let l1 := if matchDirLimitLine "sell".data l then "Sell".data else l
  let l2 := if matchDirLimitLine "buy".data l1 then "Buy".data else l1
  let l3 := if matchBangLine "sell".data l2 then "Sell".data else l2
  if matchBangLine "buy".data l3 then "Buy".data else l3

def labelSteps (l : List Char) : List Char :=
  let l5 := match tryLabels entryLabels (skipWs l) with
            | some n => "E: ".data ++ n
            | none => l
  let l6 := match tryLabels tpLabels (skipWs l5) with
            | some n => "TP: ".data ++ n
            | none => l5
  match tryLabels slLabels (skipWs l6) with
  | some n => "SL: ".data ++ n
  | none => l6

def rewriteLine (l : List Char) : List Char := labelSteps (dirSteps l)

/-- `^\s*e\s*:\s*([0-9][0-9\.,]*)\s*$` (and likewise for `tp`/`sl`)
specialised to a single newline-free line: the greedy digit run must be
followed only by line whitespace. -/
def strictLineCapture (lab : List Char) (l : List Char) : Option (List Char) :=
  match dropLit lab (skipWs l) with
  | some r =>
    match skipWs r with
    | ':' :: r2 =>
      let r3 := skipWs r2
      match r3 with
      | c :: _ =>
        if isDigitCh c then
          let run := r3.takeWhile isNumCh
          if (r3.dropWhile isNumCh).all isLineWs then some run else none
        else none
      | [] => none
    | _ => none
  | none => none

/-- After `buy`/`sell`: either a word boundary, or `\s+limit\b`
(the regex tries the `limit` branch greedily; the captured group is the
same either way, so presence is the disjunction). -/
def dirAfterOk (s : List Char) : Bool :=
  bdryAfterWord s ||
    (match s with
     | c :: rest =>
       if isPyWs c then
         match dropLit "limit".data (rest.dropWhile isPyWs) with
         | some r2 => bdryAfterWord r2
         | none => false
       else false
     | [] => false)

/-- `re.search(r"(?i)\b(buy|sell)(?:\s+limit)?\b", t)`: scan left to right;
`some true` means the first match captured `buy`, `some false` means `sell`.
The source uses `group(1).capitalize()`, which maps any case variant to
`Buy`/`Sell`, so only which word matched is needed. -/
def dirScan : Option Char → List Char → Option Bool
  | _, [] => none
  | prev, c :: rest =>
    (if bdryBefore prev then
      match dropLit "buy".data (c :: rest) with
      | some r => if dirAfterOk r then some true else none
      | none =>
        match dropLit "sell".data (c :: rest) with
        | some r => if dirAfterOk r then some false else none
        | none => none
     else none).orElse (fun _ => dirScan (some c) rest)

/-- `\b([A-Z]{3})\s*/\s*([A-Z]{3})\b` at the current position (with `(?i)`,
`[A-Z]` means any ASCII letter; `\s` may cross lines in the joined text).
Returns the two groups uppercased, as used by the rebuild step. -/
def pairAt (prev : Option Char) (s : List Char) : Option (List Char × List Char) :=
  if bdryBefore prev then
    match s with
    | a :: b :: c :: rest =>
      if isAsciiLetter a && isAsciiLetter b && isAsciiLetter c then
        match rest.dropWhile isPyWs with
        | '/' :: rest2 =>
          match rest2.dropWhile isPyWs with
          | d :: e :: f :: rest3 =>
            if isAsciiLetter d && isAsciiLetter e && isAsciiLetter f && bdryAfterWord rest3 then
              some ([a, b, c].map asciiUpper, [d, e, f].map asciiUpper)
            else none
          | _ => none
        | _ => none
      else none
    | _ => none
  else none

def pairScan : Option Char → List Char → Option (List Char × List Char)
  | _, [] => none
  | prev, c :: rest =>
    (pairAt prev (c :: rest)).orElse (fun _ => pairScan (some c) rest)

/-- `re.search(r"(?i)@\s*([0-9][0-9\.,]*)", t)`: no boundary requirements,
greedy capture. -/
def atScan : List Char → Option (List Char)
  | [] => none
  | c :: rest =>
    if c = '@' then
      let r := rest.dropWhile isPyWs
      match r with
      | d :: _ => if isDigitCh d then some (r.takeWhile isNumCh) else atScan rest
      | [] => none
    else atScan rest

/-- `re.search(r"(?im)^\s*e\s*:", t)` specialised to one newline-free
line. -/
def eColonLine (l : List Char) : Bool :=
  match dropLit "e".data (skipWs l) with
  | some r => (skipWs r).head? = some ':'
  | none => false

/-- Split a whitespace run at its last newline: when `r = a ++ '\n' :: b`
with `'\n' ∉ b`, returns `some (a, b)`; `none` when `r` has no newline. -/
def splitLastNl (r : List Char) : Option (List Char × List Char) :=
  match r.reverse.dropWhile (fun c => !(c = '\n')) with
  | '\n' :: revBefore =>
    some (revBefore.reverse, (r.reverse.takeWhile (fun c => !(c = '\n'))).reverse)
  | _ => none

/-- Greedy `\s*$` with a `(?m)` dollar over the whole text: consume the
longest whitespace prefix after which the text is empty or starts with a
newline, and return the rest.  `\s` here includes the newline itself, so
the span may swallow interior newlines; the greedy engine backtracks to the
last newline of the run when the run is followed by a non-space. -/
def wsDollar (s : List Char) : Option (List Char) :=
  let rest := s.dropWhile isPyWs
  if rest.isEmpty then some []
  else
    match splitLastNl (s.takeWhile isPyWs) with
    | some (_, after) => some ('\n' :: (after ++ rest))
    | none => none

/-- `^\s*<w>\s+limit\s*$` attempted at one line start of the whole text
(`(?im)`: every `\s` may cross newlines).  Returns the rest of the text
after the match. -/
def dirLimitTextM (w : List Char) (s : List Char) : Option (List Char) :=
  match dropLit w (s.dropWhile isPyWs) with
  | some (c :: r) =>
    if isPyWs c then
      match dropLit "limit".data (r.dropWhile isPyWs) with
      | some r2 => wsDollar r2
      | none => none
    else none
  | _ => none

/-- `^\s*<w>!+\s*$` attempted at one line start of the whole text. -/
def bangTextM (w : List Char) (s : List Char) : Option (List Char) :=
  match dropLit w (s.dropWhile isPyWs) with
  | some ('!' :: r) => wsDollar (r.dropWhile (fun c => c = '!'))
  | _ => none

/-- `skipWs` with the full `\s` class (newline included). -/
def skipWsP (s : List Char) : List Char := s.dropWhile isPyWs

/-- `dropLabel` with multiline interior `\s*`. -/
def dropLabelP : List (List Char) → List Char → Option (List Char)
  | [], s => some s
  | [w], s => dropLit w s
  | w :: ws, s =>
    match dropLit w s with
    | some r => dropLabelP ws (skipWsP r)
    | none => none

/-- `\s*[:=]?\s*` with the full `\s` class. -/
def dropSepP (s : List Char) : List Char :=
  let s1 := skipWsP s
  match s1 with
  | c :: rest => if c = ':' || c = '=' then skipWsP rest else s1
  | [] => s1

/-- One label rewrite rule attempted at a line start of the whole text:
label alternatives tried in order with backtracking, `\b`, separator,
captured number with its trailing `\b`, then `.*$` (which stops at the next
newline).  Returns the capture and the rest of the text after the match. -/
def tryLabelsText (labels : List (List (List Char))) (s : List Char) :
    Option (List Char × List Char) :=
  match labels with
  | [] => none
  | lab :: moreLabs =>
    match dropLabelP lab s with
    | some r =>
      if bdryAfterWord r then
        match parseNum (dropSepP r) with
        | some num =>
          some (num, ((dropSepP r).drop num.length).dropWhile (fun c => !(c = '\n')))
        | none => tryLabelsText moreLabs s
      else tryLabelsText moreLabs s
    | none => tryLabelsText moreLabs s

/-- A label rule as a substitution matcher: leading `^\s*`, then the label
machinery; the replacement is the canonical prefix plus the capture. -/
def labelTextM (labels : List (List (List Char))) (pre : List Char)
    (s : List Char) : Option (List Char × List Char) :=
  (tryLabelsText labels (s.dropWhile isPyWs)).map (fun nr => (pre ++ nr.1, nr.2))

/-- `re.sub` with a `(?m)^`-anchored pattern: scan the text left to right,
attempting the matcher at every line start; on a match emit the replacement
and continue after the matched segment (whose end sits before a newline or
at the end of the text).  `atLS` tracks whether the position is a line
start; the fuel bounds the recursion, every step consuming at least one
character of the text. -/
def subLS (m : List Char → Option (List Char × List Char)) :
    Nat → Bool → List Char → List Char
  | 0, _, s => s
  | Nat.succ fuel, atLS, s =>
    match s with
    | [] => []
    | c :: rest =>
      if atLS then
        match m (c :: rest) with
        | some (rep, rest2) =>
          rep ++ subLS m fuel
            (decide (((c :: rest).take ((c :: rest).length - rest2.length)).getLast?
              = some '\n')) rest2
        | none => c :: subLS m fuel (c = '\n') rest
      else c :: subLS m fuel (c = '\n') rest

def subText (m : List Char → Option (List Char × List Char)) (s : List Char) :
    List Char :=
  subLS m (s.length + 1) true s

/-- `re.search` with a `(?m)^`-anchored pattern: try the matcher at every
line start, left to right. -/
def searchLS (m : List Char → Option (List Char)) :
    Nat → Bool → List Char → Option (List Char)
  | 0, _, _ => none
  | Nat.succ fuel, atLS, s =>
    match s with
    | [] => none
    | c :: rest =>
      match (if atLS then m (c :: rest) else none) with
      | some cap => some cap
      | none => searchLS m fuel (c = '\n') rest

def searchText (m : List Char → Option (List Char)) (s : List Char) :
    Option (List Char) :=
  searchLS m (s.length + 1) true s

/-- `^\s*<lab>\s*:\s*([0-9][0-9\.,]*)\s*$` attempted at one line start of
the whole text (every `\s` may cross newlines, the `$` is multiline). -/
def strictCapText (lab : List Char) (s : List Char) : Option (List Char) :=
  match dropLit lab (s.dropWhile isPyWs) with
  | some r =>
    match r.dropWhile isPyWs with
    | ':' :: r2 =>
      match r2.dropWhile isPyWs with
      | c :: r3x =>
        if isDigitCh c then
          match wsDollar ((c :: r3x).dropWhile isNumCh) with
          | some _ => some ((c :: r3x).takeWhile isNumCh)
          | none => none
        else none
      | [] => none
    | _ => none
  | none => none

/-- `^\s*e\s*:` attempted at one line start of the whole text. -/
def eColonM (s : List Char) : Option (List Char) :=
  match dropLit "e".data (s.dropWhile isPyWs) with
  | some r => if (r.dropWhile isPyWs).head? = some ':' then some [] else none
  | none => none

/-- A direction-limit rule as a substitution matcher with its constant
replacement. -/
def dirRule (w rep : List Char) (u : List Char) : Option (List Char × List Char) :=
  (dirLimitTextM w u).map (fun r => (rep, r))

/-- A bang rule as a substitution matcher with its constant replacement. -/
def bangRule (w rep : List Char) (u : List Char) : Option (List Char × List Char) :=
  (bangTextM w u).map (fun r => (rep, r))

/-- Embedding of `normalize_for_converter` (source lines 129–172).  The
seven `(?im)^…$` substitution rules and the three strict searches run over
the whole text with multiline anchors and a `\s` class that crosses
newlines, exactly as CPython `re` does; the unanchored searches
(`dirScan`, `pairScan`, `atScan`) already work on the whole text. -/
def normalize_for_converter (s : String) : String :=
  let t1 := subText (dirRule "sell".data "Sell".data) s.data
  let t2a := subText (dirRule "buy".data "Buy".data) t1
  let t3a := subText (bangRule "sell".data "Sell".data) t2a
  let t4a := subText (bangRule "buy".data "Buy".data) t3a
  let t5a := subText (labelTextM entryLabels "E: ".data) t4a
  let t6a := subText (labelTextM tpLabels "TP: ".data) t5a
  let t := subText (labelTextM slLabels "SL: ".data) t6a
  let dir := dirScan none t
  let ent := searchText (strictCapText "e".data) t
  let tp := searchText (strictCapText "tp".data) t
  let sl := searchText (strictCapText "sl".data) t
  let pr := pairScan none t
  let t2 :=
    match dir, ent, tp, sl with
    | some isBuy, some e, some p, some q =>
      let dl := if isBuy then "Buy".data else "Sell".data
      joinNl ((match pr with
               | some (a, b) => [a ++ b]
               | none => []) ++
              [dl, "E: ".data ++ e, "TP: ".data ++ p, "SL: ".data ++ q])
    | _, _, _, _ => t
  let t3 :=
    if (searchText eColonM t2).isSome then t2
    else
      match atScan t2 with
      | some n => "E: ".data ++ n ++ '\n' :: t2
      | none => t2
  String.mk (stripL t3)

/-! ## `looks_like_signal` -/

/-- `re.sub(r"\s+", " ", t)`: every maximal whitespace run becomes a single
space. -/
def collapseWsRuns (s : List Char) : List Char :=
  s.foldr
    (fun c acc =>
      if isPyWs c then (if acc.head? = some ' ' then acc else ' ' :: acc)
      else c :: acc) []

/-- Generic `re.search`: try the matcher at every position, tracking the
previous character for word boundaries. -/
def scanHit (m : Option Char → List Char → Bool) : Option Char → List Char → Bool
  | prev, [] => m prev []
  | prev, c :: rest => m prev (c :: rest) || scanHit m (some c) rest

/-- Whether the first character is Python whitespace. -/
def headPyWs (s : List Char) : Bool :=
  match s with
  | c :: _ => isPyWs c
  | [] => false

/-- Whether the first character is an ASCII digit. -/
def headDigit (s : List Char) : Bool :=
  match s with
  | d :: _ => isDigitCh d
  | [] => false

/-- `(?:\s*[:=]\s*|\s+)[0-9]`: a colon/equals with optional surrounding
whitespace, or at least one whitespace character, then a digit. -/
def sepDigit (s : List Char) : Bool :=
  match s.dropWhile isPyWs with
  | c :: rest =>
    if c = ':' || c = '=' then headDigit (rest.dropWhile isPyWs)
    else headPyWs s && isDigitCh c
  | [] => false

/-- One label alternative of a `looks_like_signal` search at one position:
boundary before, the label, boundary after, separator-and-digit. -/
def labelHitAt (lab : List (List Char)) (prev : Option Char) (s : List Char) : Bool :=
  bdryBefore prev &&
    ((dropLabel lab s).map (fun r => bdryAfterWord r && sepDigit r)).getD false

def anyLabelHitAt (labs : List (List (List Char))) (prev : Option Char) (s : List Char) : Bool :=
  labs.any (fun lab => labelHitAt lab prev s)

/-- `\b(buy|sell)(?:\s+limit)?\b` at one position. -/
def dirHitAt (prev : Option Char) (s : List Char) : Bool :=
  bdryBefore prev &&
    ((match dropLit "buy".data s with
      | some r => dirAfterOk r
      | none => false) ||
     (match dropLit "sell".data s with
      | some r => dirAfterOk r
      | none => false))

/-- `@\s*[0-9]` at one position. -/
def atDigitAt (_prev : Option Char) (s : List Char) : Bool :=
  match s with
  | c :: rest => c = '@' && headDigit (rest.dropWhile isPyWs)
  | [] => false

/-- Embedding of `looks_like_signal` (source lines 175–187). -/
def looks_like_signal (s : String) : Bool :=
  let t := s.data.map asciiLower
  let compact := stripL (collapseWsRuns t)
  let hasDirection := scanHit dirHitAt none compact
  let hasEntry := scanHit (anyLabelHitAt entryLabels) none compact ||
                  scanHit atDigitAt none compact
  let hasTp := scanHit (anyLabelHitAt tpLabels) none compact
  let hasSl := scanHit (anyLabelHitAt slLabels) none compact
  hasDirection && hasEntry && hasTp && hasSl

/-! ## Token lifecycle (`ensure_converter_token`)

The HTTP login call is modelled by an explicit `LoginResult`; the module
globals `_converter_token` / `_token_ts` become an explicit `TokenCache`
threaded through the function. -/

structure TokenCache where
  token : String
  ts : Nat
  deriving DecidableEq

inductive LoginResult
  | httpError (status : Nat)  -- `resp.status != 200`
  | exn                       -- the request raised
  | noToken                   -- HTTP 200 but no (or falsy) `token` field
  | ok (tok : String)         -- HTTP 200 with a token value
  deriving DecidableEq

/-- Embedding of `ensure_converter_token` (source lines 190–219).  Returns
the token handed to the caller and the cache state afterwards. -/
def ensure_converter_token (cache : TokenCache) (now ttl : Nat) (pin : String)
    (force : Bool) (login : LoginResult) : String × TokenCache :=
  if !force && cache.token ≠ "" && now - cache.ts < ttl then (cache.token, cache)
  else if pin = "" then ("", cache)
  else
    match login with
    | .httpError _ => ("", cache)
    | .exn => ("", cache)
    | .noToken => ("", cache)
    | .ok tok => if tok = "" then ("", cache) else (tok, { token := tok, ts := now })

/-! ## `candidate_rooms` and `send_to_converter` -/

/-- Consume an exact (case-sensitive) literal. -/
def dropLitE : List Char → List Char → Option (List Char)
  | [], s => some s
  | _ :: _, [] => none
  | c :: cs, d :: ds => if d = c then dropLitE cs ds else none

/-- `re.match(r"^<pre>_?(\d+)$", h)`: the trailing digits, if the whole hint
is the given stem, an optional underscore and a nonempty digit run. -/
def trailNum (pre : List Char) (h : List Char) : Option (List Char) :=
  match dropLitE pre h with
  | some r =>
    let r2 := match r with
              | '_' :: rr => rr
              | _ => r
    if !r2.isEmpty && r2.all isDigitCh then some r2 else none
  | none => none

/-- The `_push` helper: strip, skip empty values and values already seen
(first-seen order preserved). -/
def pushCand (out : List String) (v : String) : List String :=
  let v2 := String.mk (stripL v.data)
  if v2 = "" || v2 ∈ out then out else out ++ [v2]

/-- Embedding of `candidate_rooms` (source lines 227–257). -/
def candidate_rooms (room_hint master_hint : String) : List String :=
  let out0 := pushCand (pushCand [] room_hint) master_hint
  let out1 := match trailNum "room".data room_hint.data with
              | some num => pushCand (pushCand out0 ("room" ++ String.mk num)) ("room_" ++ String.mk num)
              | none => out0
  match trailNum "master".data master_hint.data with
  | some num => pushCand (pushCand out1 ("room" ++ String.mk num)) ("room_" ++ String.mk num)
  | none => out1

def prefixHit : List Char → List Char → Bool
  | [], _ => true
  | _ :: _, [] => false
  | c :: cs, d :: ds => c = d && prefixHit cs ds

/-- Python `pat in body` substring test. -/
def substrHit (pat : List Char) : List Char → Bool
  | [] => prefixHit pat []
  | c :: rest => prefixHit pat (c :: rest) || substrHit pat rest

/-- One HTTP POST to the convert endpoint, as observed by the caller:
either the request (or its body read) raised, or a status with the parsed
`ok` flag and the body text. -/
inductive PostResult
  | exn
  | resp (status : Nat) (okFlag : Bool) (body : String)
  deriving DecidableEq

/-- The HTTP-400 fallback loop over the remaining candidate rooms,
consuming one response per POST.  Returns success and the trace of
`(token, room)` POSTs made.  A raised request aborts (outer `except`). -/
def fallbackLoop (token : String) : List String → List PostResult → Bool × List (String × String)
  | [], _ => (false, [])
  | room :: moreRooms, resps =>
    match resps.headD PostResult.exn with
    | .exn => (false, [(token, room)])
    | .resp st ok _ =>
      if st = 200 then
        if ok then (true, [(token, room)])
        else
          let p := fallbackLoop token moreRooms resps.tail
          (p.1, (token, room) :: p.2)
      else
        let p := fallbackLoop token moreRooms resps.tail
        (p.1, (token, room) :: p.2)

/-- Embedding of `send_to_converter` (source lines 222–307).  `token0` is
the result of the initial (unforced) `ensure_converter_token` call and
`refreshTok` the result of the forced refresh on HTTP 401/403 (empty =
failed).  `resps` is the sequence of responses to successive POSTs.
Returns success, the trace of `(token, room)` POSTs, and the number of
forced token refreshes performed. -/
def send_to_converter (room_hint master_hint : String) (token0 refreshTok : String)
    (resps : List PostResult) : Bool × List (String × String) × Nat :=
  if token0 = "" then (false, [], 0)
  else
    let rooms := candidate_rooms room_hint master_hint
    let room0 := rooms.headD ""
    match resps.headD PostResult.exn with
    | .exn => (false, [(token0, room0)], 0)
    | .resp st ok body =>
      if st = 200 then (ok, [(token0, room0)], 0)
      else if st = 400 then
        if substrHit "Pair non trovato".data body.data && rooms.length > 1 then
          let p := fallbackLoop token0 rooms.tail resps.tail
          (p.1, (token0, room0) :: p.2, 0)
        else (false, [(token0, room0)], 0)
      else if st = 401 || st = 403 then
        if refreshTok = "" then (false, [(token0, room0)], 1)
        else
          let retryRooms := candidate_rooms room_hint master_hint
          let rRoom := retryRooms.headD ""
          match resps.tail.headD PostResult.exn with
          | .exn => (false, [(token0, room0), (refreshTok, rRoom)], 1)
          | .resp st2 ok2 _ =>
            if st2 = 200 then (ok2, [(token0, room0), (refreshTok, rRoom)], 1)
            else (false, [(token0, room0), (refreshTok, rRoom)], 1)
      else (false, [(token0, room0)], 0)

/-! ## DeliveryQueue (spec-modelled) -/

structure QueueEntry where
  key : String
  chat_id : Int
  message_id : Int
  text : String
  deriving DecidableEq

/-- Modelled from the spec: the DeliveryQueue of §4.4 is not present in
`src/` (the single source file delivers immediately and keeps no pending
buffer), so the bounded key-deduplicated FIFO is modelled from the spec's
words: `enqueue` is a no-op if the entry's key is already present;
otherwise the entry is appended at the tail, and if the queue is at
capacity the head (oldest) entry is evicted first. -/
def enqueue (cap : Nat) (q : List QueueEntry) (e : QueueEntry) : List QueueEntry :=
  if q.any (fun x => x.key = e.key) then q
  else if cap ≤ q.length then q.tail ++ [e] else q ++ [e]

/-! ## The event handler `on_new_message` -/

def CHAT_MASTER_MAP : List (Int × String) :=
  [(-1003349817033, "master_2"), (-1001467736193, "master_3")]

def CHAT_ROOM_MAP : List (Int × String) :=
  [(-1003349817033, "room2"), (-1001467736193, "room3")]

def lookupMap (m : List (Int × String)) (k : Int) : Option String :=
  match m.find? (fun p => p.1 = k) with
  | some p => some p.2
  | none => none

/-- `re.sub(r"^master_", "room", master_hint)` (case-sensitive). -/
def masterToRoom (h : String) : String :=
  match dropLitE "master_".data h.data with
  | some r => "room" ++ String.mk r
  | none => h

/-- Stage 3 of the master-header matcher: `\d+\s*$` on the remainder. -/
def masterDigitsEnd (r3 : List Char) : Bool :=
  !(r3.takeWhile isDigitCh).isEmpty && (r3.dropWhile isDigitCh).all isLineWs

/-- Stage 2: `\s*master_\d+\s*$` on the remainder after the colon. -/
def masterAfterColon (r2 : List Char) : Bool :=
  match dropLit "master_".data (skipWs r2) with
  | some r3 => masterDigitsEnd r3
  | none => false

/-- Stage 1: `\s*:\s*master_\d+\s*$` on the remainder after `Master`. -/
def masterAfterWord (r : List Char) : Bool :=
  match skipWs r with
  | ':' :: r2 => masterAfterColon r2
  | _ => false

/-- `^\s*Master\s*:\s*master_\d+\s*$`, case-insensitively, on one line. -/
def isMasterHeaderLine (l : List Char) : Bool :=
  match dropLit "master".data (skipWs l) with
  | some r => masterAfterWord r
  | none => false

/-- Source lines 356–357: remove every `Master : master_<n>` header line
(`re.sub` with trailing `\n?` removes the line and its newline; on the line
level this is a filter, with the final `strip()` as in the source), then
prepend the fresh `Master : <hint>` header. -/
def applyMasterHeaderL (hintD : List Char) (tD : List Char) : List Char :=
  let kept := (splitNl tD).filter (fun l => !isMasterHeaderLine l)
  "Master : ".data ++ hintD ++ '\n' :: stripL (joinNl kept)

def applyMasterHeader (master_hint : String) (t : String) : String :=
  String.mk (applyMasterHeaderL master_hint.data t.data)

structure RawEvent where
  chat_id : Int
  message_id : Int
  raw_text : String

structure Payload where
  chat_id : Int
  message_id : Int
  master_hint : String
  room_hint : String
  text : String
  deriving DecidableEq

def wmGet (st : List (String × Int)) (k : String) : Int :=
  match st.find? (fun p => p.1 = k) with
  | some p => p.2
  | none => 0

def wmSet (st : List (String × Int)) (k : String) (v : Int) : List (String × Int) :=
  match st with
  | [] => [(k, v)]
  | p :: rest => if p.1 = k then (k, v) :: rest else p :: wmSet rest k v

/-- Embedding of the `on_new_message` handler (source lines 331–375).  The
network delivery is abstracted by `sendResult` (what `send_to_converter`
returned).  Returns the watermark state after the handler, the payload
handed to the delivery client (if it was called), and whether a delivery
attempt was made. -/
def on_new_message (allowed : List Int) (state : List (String × Int))
    (ev : RawEvent) (sendResult : Bool) :
    List (String × Int) × Option Payload × Bool :=
  if ev.chat_id ∈ allowed then
    match lookupMap CHAT_MASTER_MAP ev.chat_id with
    | none => (state, none, false)
    | some master_hint =>
      let room_hint := match lookupMap CHAT_ROOM_MAP ev.chat_id with
                       | some r => r
                       | none => masterToRoom master_hint
      let key_state := toString ev.chat_id
      let last_id := wmGet state key_state
      if ev.message_id ≤ last_id then (state, none, false)
      else
        let normalized := normalize_telegram_signal ev.raw_text
        if normalized = "" || !looks_like_signal normalized then (state, none, false)
        else
          let text := applyMasterHeader master_hint (normalize_for_converter normalized)
          let payload : Payload :=
            ⟨ev.chat_id, ev.message_id, master_hint, room_hint, text⟩
          if sendResult then (wmSet state key_state ev.message_id, some payload, true)
          else (state, some payload, true)
  else (state, none, false)

/-- A failed token acquisition, as classified by `ensure_converter_token`:
non-200 login status, a raised request, or a missing/falsy token field. -/
def loginFailed (login : LoginResult) : Bool :=
  match login with
  | .ok tok => tok = ""
  | _ => true

/-- Success of the single 401/403 retry POST: HTTP 200 with `ok` true. -/
def retrySucceeds (r : PostResult) : Bool :=
  match r with
  | .resp st2 ok2 _ => st2 = 200 && ok2
  | .exn => false

/-! ## Shared helper lemmas -/

/-- First-seen-order deduplication: keeps the first occurrence of each
value, appending unseen values to the accumulator. -/
def dedupFS (acc : List String) : List String → List String
  | [] => acc
  | x :: rest => if x ∈ acc then dedupFS acc rest else dedupFS (acc ++ [x]) rest

/-- Spec-worded candidate resolution for claim C4: the room hint itself,
then the master hint, then the `room<N>`/`room_<N>` variants derived by
matching a trailing number off either hint; empty values are dropped (the
`_push` contract) and duplicates are removed with first-seen order
preserved. -/
def specCandidates (rh mh : String) : List String :=
  let variants := fun (pre : List Char) (hint : String) =>
    match trailNum pre hint.data with
    | some n => ["room" ++ String.mk n, "room_" ++ String.mk n]
    | none => []
  dedupFS [] (([String.mk (stripL rh.data), String.mk (stripL mh.data)] ++
    variants "room".data rh ++ variants "master".data mh).filter (fun v => v ≠ ""))

/-- Append a character to the last line of a nonempty line list. -/
def appendLast : List (List Char) → Char → List (List Char)
  | [], c => [[c]]
  | [l], c => [l ++ [c]]
  | l :: ls, c => l :: appendLast ls c

def lastD (p : Option Char) : List Char → Option Char
  | [] => p
  | c :: cs => lastD (some c) cs

def AllPyWs (w : List Char) : Prop := ∀ c ∈ w, isPyWs c = true

def FrontBdry (post : List Char) : Prop :=
  post = [] ∨ ∃ c r, post = c :: r ∧ isWordCh c = false

def PrevBdry (pre : List Char) : Prop :=
  pre = [] ∨ ∃ c, pre.getLast? = some c ∧ isWordCh c = false

def CiIs (u : List Char) (w : String) : Prop := u.map asciiLower = w.data

def SpecHasDirection (s : List Char) : Prop :=
  ∃ pre w post, s = pre ++ w ++ post ∧ (CiIs w "buy" ∨ CiIs w "sell") ∧ PrevBdry pre ∧
    (FrontBdry post ∨ ∃ ws u rest2, post = ws ++ u ++ rest2 ∧ ws ≠ [] ∧ AllPyWs ws ∧
      CiIs u "limit" ∧ FrontBdry rest2)

def LabelWords : List (List Char) → List Char → Prop
  | [], w => w = []
  | [wd], w => w.map asciiLower = wd
  | wd :: wds, w => ∃ u ws rest, w = u ++ ws ++ rest ∧ u.map asciiLower = wd ∧
      (∀ c ∈ ws, isLineWs c = true) ∧ LabelWords wds rest

def wordOk (wd : List Char) : Bool :=
  match wd with
  | [] => false
  | c :: _ => !isPyWs c

def SpecSepDigit (s : List Char) : Prop :=
  (∃ ws1 c ws2 d r2, s = ws1 ++ c :: (ws2 ++ d :: r2) ∧ AllPyWs ws1 ∧
      (c = ':' ∨ c = '=') ∧ AllPyWs ws2 ∧ isDigitCh d = true) ∨
  (∃ ws1 d r2, s = ws1 ++ d :: r2 ∧ ws1 ≠ [] ∧ AllPyWs ws1 ∧ isDigitCh d = true)

def SpecLabelHit (labs : List (List (List Char))) (s : List Char) : Prop :=
  ∃ pre w post, s = pre ++ w ++ post ∧ PrevBdry pre ∧ (∃ lab ∈ labs, LabelWords lab w) ∧
    FrontBdry post ∧ SpecSepDigit post

def SpecAtDigit (s : List Char) : Prop :=
  ∃ pre ws d rest, s = pre ++ '@' :: (ws ++ d :: rest) ∧ AllPyWs ws ∧ isDigitCh d = true

def compactOf (s : String) : List Char :=
  stripL (collapseWsRuns (s.data.map asciiLower))

/-- Well-formed numeric characters: every dot or comma is immediately
followed by a digit, and no numeric character is directly followed by a
letter, digit-run extension or underscore that would move the regex word
boundary inside the run. -/
def goodNums : List Char → Bool
  | [] => true
  | [c] => !(c = '.' || c = ',')
  | a :: b :: rest =>
    (!(a = '.' || a = ',') || isDigitCh b) &&
    (!(isNumCh a && isWordCh b) || isNumCh b) &&
    goodNums (b :: rest)

/-- A well-formed captured number: nonempty, starts with a digit, all
characters are digits, dots or commas, and the runs are well formed. -/
def goodNum (n : List Char) : Bool :=
  !n.isEmpty && headDigit n && n.all isNumCh && goodNums n

theorem dropWhile_absorb {α} (p q : α → Bool) (h : ∀ a, p a = true → q a = true) :
    ∀ ls : List α, (ls.dropWhile p).dropWhile q = ls.dropWhile q := by
  intro ls
  induction ls with
  | nil => rfl
  | cons a ls ih =>
    cases hp : p a
    · rw [List.dropWhile_cons_of_neg (by simp [hp])]
    · rw [List.dropWhile_cons_of_pos hp, ih, List.dropWhile_cons_of_pos (h a hp)]

theorem dropWhile_head_false {α} (p : α → Bool) (ls : List α) (l : α) (rest : List α)
    (h : ls.dropWhile p = l :: rest) : p l = false := by
  induction ls with
  | nil => cases h
  | cons a t ih =>
    cases hp : p a
    · rw [List.dropWhile_cons_of_neg (by simp [hp])] at h
      cases h
      exact hp
    · rw [List.dropWhile_cons_of_pos hp] at h
      exact ih h

theorem blank_imp_noiseOrBlank :
    ∀ l : List Char, (stripL l).isEmpty = true → noiseOrBlank l = true := by
  intro l h; simp [noiseOrBlank, h]

theorem popNoise_popBlanks :
    ∀ (n : Nat) (ls : List (List Char)), ls.length ≤ n →
      popNoiseRevF n (popBlanksRev ls) = ls.dropWhile noiseOrBlank := by
  intro n
  induction n with
  | zero =>
    intro ls h
    have : ls = [] := List.length_eq_zero.mp (Nat.le_zero.mp h)
    subst this; rfl
  | succ n ih =>
    intro ls h
    rcases hd : popBlanksRev ls with _ | ⟨l, rest⟩
    · have hd' : ls.dropWhile (fun x => (stripL x).isEmpty) = [] := hd
      have : ls.dropWhile noiseOrBlank = [] := by
        apply List.dropWhile_eq_nil_iff.mpr
        intro x hx
        exact blank_imp_noiseOrBlank x (List.dropWhile_eq_nil_iff.mp hd' x hx)
      rw [this]; rfl
    · have hd' : ls.dropWhile (fun x => (stripL x).isEmpty) = l :: rest := hd
      have hlnb : ((stripL l).isEmpty : Bool) = false :=
        dropWhile_head_false (fun x => (stripL x).isEmpty) ls l rest hd'
      have hsplit : ls.dropWhile noiseOrBlank = (l :: rest).dropWhile noiseOrBlank := by
        have := dropWhile_absorb (fun x => (stripL x).isEmpty) noiseOrBlank
          (fun a ha => blank_imp_noiseOrBlank a ha) ls
        rw [← this, hd']
      cases hn : isNoiseL (stripL l)
      · have hno : noiseOrBlank l = false := by simp [noiseOrBlank, hlnb, hn]
        rw [hsplit, List.dropWhile_cons_of_neg (by simp [hno])]
        simp [popNoiseRevF, hn]
      · have hrest : rest.length ≤ n := by
          have hlen : (l :: rest).length ≤ ls.length := by
            rw [← hd']
            exact List.Sublist.length_le (List.dropWhile_sublist _)
          simp at hlen
          omega
        have hyes : noiseOrBlank l = true := by simp [noiseOrBlank, hn]
        rw [hsplit, List.dropWhile_cons_of_pos hyes]
        simp only [popNoiseRevF, hn, if_pos]
        exact ih rest hrest

theorem popNoise_popBlanks2 (ls : List (List Char)) :
    popNoiseRevF ((popBlanksRev ls).length + 1) (popBlanksRev ls) = ls.dropWhile noiseOrBlank := by
  have h1 : popBlanksRev (popBlanksRev ls) = popBlanksRev ls :=
    dropWhile_absorb _ _ (fun a ha => ha) ls
  calc popNoiseRevF ((popBlanksRev ls).length + 1) (popBlanksRev ls)
      = popNoiseRevF ((popBlanksRev ls).length + 1) (popBlanksRev (popBlanksRev ls)) := by rw [h1]
    _ = (popBlanksRev ls).dropWhile noiseOrBlank := popNoise_popBlanks _ _ (Nat.le_succ _)
    _ = ls.dropWhile noiseOrBlank := dropWhile_absorb _ _ (fun a ha => blank_imp_noiseOrBlank a ha) ls

theorem enqueue_fill (cap : Nat) :
    ∀ (es q : List QueueEntry), q.length + es.length ≤ cap →
      ((q ++ es).map QueueEntry.key).Nodup →
      List.foldl (enqueue cap) q es = q ++ es := by
  intro es
  induction es with
  | nil => intro q _ _; simp
  | cons e rest ih =>
    intro q hlen hnd
    have hnd2 : (q.map QueueEntry.key ++ e.key :: rest.map QueueEntry.key).Nodup := by
      simpa using hnd
    have hke : e.key ∉ q.map QueueEntry.key := by
      intro hmem
      exact (List.disjoint_of_nodup_append hnd2) hmem (by simp)
    have hstep : enqueue cap q e = q ++ [e] := by
      have hany : q.any (fun x => x.key = e.key) = false := by
        rw [List.any_eq_false]
        intro x hx
        intro hcon
        exact hke (List.mem_map.mpr ⟨x, hx, by simpa using hcon⟩)
      have hlt : ¬ cap ≤ q.length := by
        simp only [List.length_cons] at hlen
        omega
      simp [enqueue, hany, hlt]
    rw [List.foldl_cons, hstep, ih (q ++ [e]) (by simp only [List.length_append,
        List.length_cons, List.length_nil] at hlen ⊢; omega) (by simpa using hnd)]
    simp

theorem enqueue_evict (cap : Nat) (es : List QueueEntry)
    (hlen : es.length = cap + 1) (hnd : (es.map QueueEntry.key).Nodup) (hcap : 0 < cap) :
    List.foldl (enqueue cap) [] es = es.tail := by
  have hne : es ≠ [] := by intro h; subst h; simp at hlen
  have hdecomp : es.dropLast ++ [es.getLast hne] = es := List.dropLast_append_getLast hne
  have hlendl : es.dropLast.length = cap := by
    rw [List.length_dropLast, hlen]; rfl
  have hnddl : ((es.dropLast ++ [es.getLast hne]).map QueueEntry.key).Nodup := by
    rw [hdecomp]; exact hnd
  have hfill : List.foldl (enqueue cap) [] es.dropLast = es.dropLast := by
    have := enqueue_fill cap es.dropLast []
      (by simp [hlendl])
      (by simpa using (List.Nodup.of_append_left (by simpa [List.map_append] using hnddl)))
    simpa using this
  have hlast : enqueue cap es.dropLast (es.getLast hne) = es.dropLast.tail ++ [es.getLast hne] := by
    have hnd3 : (es.dropLast.map QueueEntry.key ++ [(es.getLast hne).key]).Nodup := by
      simpa only [List.map_append, List.map_cons, List.map_nil] using hnddl
    have hany : es.dropLast.any (fun x => x.key = (es.getLast hne).key) = false := by
      rw [List.any_eq_false]
      intro x hx hcon
      have hdisj := List.disjoint_of_nodup_append hnd3
      exact hdisj (List.mem_map.mpr ⟨x, hx, by simpa using hcon⟩) (by simp)
    simp [enqueue, hany, hlendl]
  calc List.foldl (enqueue cap) [] es
      = List.foldl (enqueue cap) [] (es.dropLast ++ [es.getLast hne]) := by rw [hdecomp]
    _ = enqueue cap (List.foldl (enqueue cap) [] es.dropLast) (es.getLast hne) := by
        rw [List.foldl_append]; rfl
    _ = es.dropLast.tail ++ [es.getLast hne] := by rw [hfill, hlast]
    _ = es.tail := by
        conv_rhs => rw [← hdecomp]
        rcases hdl : es.dropLast with _ | ⟨a, t⟩
        · exfalso; rw [hdl] at hlendl; simp at hlendl; omega
        · simp

theorem headD_eq_getD {α : Type} (l : List α) (d : α) : l.headD d = l.head?.getD d := by
  cases l <;> rfl

theorem pushCand_eq_dedup (acc : List String) (v : String) :
    pushCand acc v = dedupFS acc ([String.mk (stripL v.data)].filter (fun x => x ≠ "")) := by
  by_cases h : String.mk (stripL v.data) = ""
  · simp [pushCand, dedupFS, h]
  · by_cases hm : String.mk (stripL v.data) ∈ acc
    · simp [pushCand, dedupFS, h, hm]
    · simp [pushCand, dedupFS, h, hm]

theorem dedupFS_append (xs : List String) :
    ∀ (acc : List String) (ys : List String),
      dedupFS acc (xs ++ ys) = dedupFS (dedupFS acc xs) ys := by
  induction xs with
  | nil => intro acc ys; rfl
  | cons x rest ih =>
    intro acc ys
    by_cases hm : x ∈ acc
    · simp only [List.cons_append, dedupFS, if_pos hm]
      exact ih acc ys
    · simp only [List.cons_append, dedupFS, if_neg hm]
      exact ih (acc ++ [x]) ys

theorem foldl_pushCand (vs : List String) :
    ∀ acc, List.foldl pushCand acc vs
      = dedupFS acc ((vs.map (fun v => String.mk (stripL v.data))).filter (fun x => x ≠ "")) := by
  induction vs with
  | nil => intro acc; rfl
  | cons v rest ih =>
    intro acc
    calc List.foldl pushCand acc (v :: rest)
        = List.foldl pushCand (pushCand acc v) rest := rfl
      _ = dedupFS (pushCand acc v)
            ((rest.map (fun v => String.mk (stripL v.data))).filter (fun x => x ≠ "")) := ih _
      _ = dedupFS (dedupFS acc ([String.mk (stripL v.data)].filter (fun x => x ≠ "")))
            ((rest.map (fun v => String.mk (stripL v.data))).filter (fun x => x ≠ "")) := by
          rw [pushCand_eq_dedup]
      _ = dedupFS acc (([String.mk (stripL v.data)].filter (fun x => x ≠ "")) ++
            ((rest.map (fun v => String.mk (stripL v.data))).filter (fun x => x ≠ ""))) := by
          rw [dedupFS_append]
      _ = dedupFS acc
            (((v :: rest).map (fun v => String.mk (stripL v.data))).filter (fun x => x ≠ "")) := by
          rw [← List.filter_append]
          rfl

theorem digit_not_ws (c : Char) (h : isDigitCh c = true) : isPyWs c = false := by
  simp only [isDigitCh, Bool.and_eq_true, decide_eq_true_eq] at h
  obtain ⟨h1, _⟩ := h
  simp only [isPyWs, Bool.or_eq_false_iff, decide_eq_false_iff_not]
  refine ⟨⟨⟨⟨⟨?_, ?_⟩, ?_⟩, ?_⟩, ?_⟩, ?_⟩ <;>
    · rintro rfl
      revert h1
      decide

theorem stripL_no_ws_edges (l : List Char)
    (h1 : ∀ c, l.head? = some c → isPyWs c = false)
    (h2 : ∀ c, l.getLast? = some c → isPyWs c = false) : stripL l = l := by
  unfold stripL dropWsL dropWsR
  have hL : l.dropWhile isPyWs = l := by
    cases l with
    | nil => rfl
    | cons c t => exact List.dropWhile_cons_of_neg (by simp [h1 c rfl])
  rw [hL]
  cases hrev : l.reverse with
  | nil =>
    have : l = [] := by simpa using congrArg List.reverse hrev
    simp [this]
  | cons c t =>
    have hlast : l.getLast? = some c := by
      rw [← List.head?_reverse, hrev]; rfl
    have hc : isPyWs c = false := h2 c hlast
    have hdw : List.dropWhile isPyWs (c :: t) = c :: t :=
      List.dropWhile_cons_of_neg (by simp [hc])
    rw [hdw]
    conv_rhs => rw [← List.reverse_reverse l, hrev]

theorem trailNum_digits (pre : List Char) (h : List Char) (n : List Char)
    (hp : trailNum pre h = some n) : n ≠ [] ∧ n.all isDigitCh = true := by
  unfold trailNum at hp
  cases hdl : dropLitE pre h with
  | none => rw [hdl] at hp; cases hp
  | some r =>
    rw [hdl] at hp
    simp only [] at hp
    split at hp
    · rename_i hcond
      cases hp
      simp only [Bool.and_eq_true] at hcond
      constructor
      · intro hnil
        rw [hnil] at hcond
        simp at hcond
      · exact hcond.2
    · cases hp

theorem variant_strip (stem : String) (n : List Char) (hne : n ≠ [])
    (hdig : n.all isDigitCh = true) (hstem : stem = "room" ∨ stem = "room_") :
    String.mk (stripL (stem ++ String.mk n).data) = stem ++ String.mk n := by
  have hdata : (stem ++ String.mk n).data = stem.data ++ n := by
    rcases hstem with rfl | rfl <;> rfl
  rw [hdata, stripL_no_ws_edges]
  · rcases hstem with rfl | rfl <;> rfl
  · intro c hc
    rcases hstem with rfl | rfl <;>
      · simp at hc
        subst hc
        decide
  · intro c hc
    rw [List.getLast?_append_of_ne_nil _ hne] at hc
    have hcmem : c ∈ n := by
      rcases n with _ | ⟨a, t⟩
      · cases hc
      · exact List.mem_of_mem_getLast? hc
    exact digit_not_ws c (by
      have := List.all_eq_true.mp hdig c hcmem
      simpa using this)

theorem candidate_rooms_eq_spec (rh mh : String) :
    candidate_rooms rh mh = specCandidates rh mh := by
  unfold candidate_rooms specCandidates
  cases h1 : trailNum "room".data rh.data with
  | none =>
    cases h2 : trailNum "master".data mh.data with
    | none =>
      show List.foldl pushCand [] [rh, mh] = _
      rw [foldl_pushCand]
      simp only [h1, h2]
      simp
    | some n2 =>
      obtain ⟨hne2, hdig2⟩ := trailNum_digits _ _ _ h2
      show List.foldl pushCand []
        [rh, mh, "room" ++ String.mk n2, "room_" ++ String.mk n2] = _
      rw [foldl_pushCand]
      simp only [h1, h2]
      simp only [List.map_cons, List.map_nil]
      rw [variant_strip _ n2 hne2 hdig2 (Or.inl rfl), variant_strip _ n2 hne2 hdig2 (Or.inr rfl)]
      simp
  | some n1 =>
    obtain ⟨hne1, hdig1⟩ := trailNum_digits _ _ _ h1
    cases h2 : trailNum "master".data mh.data with
    | none =>
      show List.foldl pushCand []
        [rh, mh, "room" ++ String.mk n1, "room_" ++ String.mk n1] = _
      rw [foldl_pushCand]
      simp only [h1, h2]
      simp only [List.map_cons, List.map_nil]
      rw [variant_strip _ n1 hne1 hdig1 (Or.inl rfl), variant_strip _ n1 hne1 hdig1 (Or.inr rfl)]
      simp
    | some n2 =>
      obtain ⟨hne2, hdig2⟩ := trailNum_digits _ _ _ h2
      show List.foldl pushCand []
        [rh, mh, "room" ++ String.mk n1, "room_" ++ String.mk n1,
         "room" ++ String.mk n2, "room_" ++ String.mk n2] = _
      rw [foldl_pushCand]
      simp only [h1, h2]
      simp only [List.map_cons, List.map_nil]
      rw [variant_strip _ n1 hne1 hdig1 (Or.inl rfl), variant_strip _ n1 hne1 hdig1 (Or.inr rfl),
          variant_strip _ n2 hne2 hdig2 (Or.inl rfl), variant_strip _ n2 hne2 hdig2 (Or.inr rfl)]
      simp

theorem splitNl_cons_nl (rest : List Char) : splitNl ('\n' :: rest) = [] :: splitNl rest := by
  simp [splitNl]

theorem splitNl_cons_ch (c : Char) (rest : List Char) (h : ¬ c = '\n') :
    splitNl (c :: rest) =
      match splitNl rest with
      | l :: ls => (c :: l) :: ls
      | [] => [[c]] := by
  simp [splitNl, h]

theorem splitNl_ne_nil : ∀ s : List Char, splitNl s ≠ [] := by
  intro s
  cases s with
  | nil => simp [splitNl]
  | cons c rest =>
    by_cases h : c = '\n'
    · subst h; rw [splitNl_cons_nl]; simp
    · rw [splitNl_cons_ch c rest h]
      cases hr : splitNl rest with
      | nil => simp
      | cons l ls => simp

theorem splitNl_no_newline :
    ∀ (s : List Char), ∀ l ∈ splitNl s, '\n' ∉ l := by
  intro s
  induction s with
  | nil =>
    intro l hl
    simp [splitNl] at hl
    simp [hl]
  | cons c rest ih =>
    intro l hl
    by_cases h : c = '\n'
    · subst h
      rw [splitNl_cons_nl] at hl
      rcases List.mem_cons.mp hl with hl | hl
      · simp [hl]
      · exact ih l hl
    · rw [splitNl_cons_ch c rest h] at hl
      cases hr : splitNl rest with
      | nil => exact absurd hr (splitNl_ne_nil rest)
      | cons l0 ls0 =>
        rw [hr] at hl
        rcases List.mem_cons.mp hl with hl | hl
        · subst hl
          intro hmem
          rcases List.mem_cons.mp hmem with hc | hc
          · exact h hc.symm
          · exact ih l0 (by rw [hr]; exact List.mem_cons_self _ _) hc
        · exact ih l (by rw [hr]; exact List.mem_cons_of_mem _ hl)

theorem appendLast_concat (X : List (List Char)) (y : List Char) (c : Char) :
    appendLast (X ++ [y]) c = X ++ [y ++ [c]] := by
  induction X with
  | nil => rfl
  | cons x xs ih =>
    cases xs with
    | nil => rfl
    | cons a b =>
      show x :: appendLast ((a :: b) ++ [y]) c = x :: ((a :: b) ++ [y ++ [c]])
      rw [ih]

theorem splitNl_append_nl (A : List Char) :
    splitNl (A ++ ['\n']) = splitNl A ++ [[]] := by
  induction A with
  | nil => rfl
  | cons a A' ih =>
    by_cases h : a = '\n'
    · subst h
      rw [List.cons_append, splitNl_cons_nl, splitNl_cons_nl, ih]
      rfl
    · rw [List.cons_append, splitNl_cons_ch a _ h, splitNl_cons_ch a _ h, ih]
      cases hr : splitNl A' with
      | nil => exact absurd hr (splitNl_ne_nil A')
      | cons l ls => simp

theorem splitNl_append_ch (A : List Char) (c : Char) (hc : ¬ c = '\n') :
    splitNl (A ++ [c]) = appendLast (splitNl A) c := by
  induction A with
  | nil =>
    show splitNl [c] = appendLast [[]] c
    rw [splitNl_cons_ch c [] hc]
    rfl
  | cons a A' ih =>
    by_cases h : a = '\n'
    · subst h
      rw [List.cons_append, splitNl_cons_nl, splitNl_cons_nl, ih]
      cases hr : splitNl A' with
      | nil => exact absurd hr (splitNl_ne_nil A')
      | cons l ls => rfl
    · rw [List.cons_append, splitNl_cons_ch a _ h, splitNl_cons_ch a _ h, ih]
      cases hr : splitNl A' with
      | nil => exact absurd hr (splitNl_ne_nil A')
      | cons l ls => cases ls <;> rfl

theorem splitNl_reverse (s : List Char) :
    splitNl s.reverse = ((splitNl s).map List.reverse).reverse := by
  induction s with
  | nil => rfl
  | cons c rest ih =>
    by_cases h : c = '\n'
    · subst h
      rw [List.reverse_cons, splitNl_append_nl, ih, splitNl_cons_nl]
      simp
    · rw [List.reverse_cons, splitNl_append_ch _ c h, ih, splitNl_cons_ch c rest h]
      cases hr : splitNl rest with
      | nil => exact absurd hr (splitNl_ne_nil rest)
      | cons l ls =>
        have hstep : (List.map List.reverse (l :: ls)).reverse
            = (List.map List.reverse ls).reverse ++ [l.reverse] := by simp
        rw [hstep, appendLast_concat]
        simp

theorem memL_dropWsL (s : List Char) :
    ∀ l ∈ splitNl (s.dropWhile isPyWs),
      ∃ l0 ∈ splitNl s, ∃ w : List Char, (∀ ch ∈ w, isLineWs ch = true) ∧ l0 = w ++ l := by
  induction s with
  | nil => intro l hl; exact ⟨l, by simpa using hl, [], by simp, rfl⟩
  | cons c rest ih =>
    intro l hl
    by_cases hw : isPyWs c = true
    · rw [List.dropWhile_cons_of_pos hw] at hl
      by_cases hnl : c = '\n'
      · subst hnl
        rcases ih l hl with ⟨l0, hl0, w, hwall, heq⟩
        exact ⟨l0, by rw [splitNl_cons_nl]; exact List.mem_cons_of_mem _ hl0, w, hwall, heq⟩
      · rcases ih l hl with ⟨l0, hl0, w, hwall, heq⟩
        rw [splitNl_cons_ch c rest hnl]
        cases hr : splitNl rest with
        | nil => exact absurd hr (splitNl_ne_nil rest)
        | cons hd tl =>
          rw [hr] at hl0
          rcases List.mem_cons.mp hl0 with h0 | h0
          · subst h0
            refine ⟨c :: l0, List.mem_cons_self _ _, c :: w, ?_, by simp [heq]⟩
            intro ch hch
            rcases List.mem_cons.mp hch with rfl | hch
            · simp [isLineWs, hw, hnl]
            · exact hwall ch hch
          · exact ⟨l0, List.mem_cons_of_mem _ h0, w, hwall, heq⟩
    · rw [List.dropWhile_cons_of_neg (by simp [hw])] at hl
      exact ⟨l, hl, [], by simp, rfl⟩

theorem memR_dropWsR (s : List Char) :
    ∀ l ∈ splitNl (dropWsR s),
      ∃ l0 ∈ splitNl s, ∃ w : List Char, (∀ ch ∈ w, isLineWs ch = true) ∧ l0 = l ++ w := by
  intro l hl
  have h1 : splitNl (dropWsR s)
      = ((splitNl (s.reverse.dropWhile isPyWs)).map List.reverse).reverse := by
    unfold dropWsR
    exact splitNl_reverse _
  rw [h1] at hl
  have hl2 : l.reverse ∈ splitNl (s.reverse.dropWhile isPyWs) := by
    rcases List.mem_map.mp (List.mem_reverse.mp hl) with ⟨y, hy, hyl⟩
    subst hyl
    simpa using hy
  rcases memL_dropWsL s.reverse l.reverse hl2 with ⟨l0r, hl0r, w, hwall, heq⟩
  have hl0r2 : l0r ∈ ((splitNl s).map List.reverse).reverse := by
    rw [← splitNl_reverse]; exact hl0r
  rcases List.mem_map.mp (List.mem_reverse.mp hl0r2) with ⟨y, hy, hyl⟩
  refine ⟨y, hy, w.reverse, fun ch hch => hwall ch (List.mem_reverse.mp hch), ?_⟩
  have hrev : y.reverse = w ++ l.reverse := by rw [hyl, heq]
  have := congrArg List.reverse hrev
  simpa using this

theorem mem_stripL (s : List Char) :
    ∀ l ∈ splitNl (stripL s),
      ∃ l0 ∈ splitNl s, ∃ w1 w2 : List Char,
        (∀ ch ∈ w1, isLineWs ch = true) ∧ (∀ ch ∈ w2, isLineWs ch = true) ∧
        l0 = w1 ++ l ++ w2 := by
  intro l hl
  have hl1 : l ∈ splitNl (dropWsR (dropWsL s)) := hl
  rcases memR_dropWsR (dropWsL s) l hl1 with ⟨l1, hl1m, w2, hw2, heq1⟩
  rcases memL_dropWsL s l1 (by simpa [dropWsL] using hl1m) with ⟨l0, hl0, w1, hw1, heq0⟩
  exact ⟨l0, hl0, w1, w2, hw1, hw2, by rw [heq0, heq1]; simp⟩

theorem dropLit_append (w : List Char) :
    ∀ (x y r : List Char), dropLit w x = some r → dropLit w (x ++ y) = some (r ++ y) := by
  induction w with
  | nil => intro x y r h; cases h; rfl
  | cons c cs ih =>
    intro x y r h
    cases x with
    | nil => cases h
    | cons d ds =>
      by_cases hc : asciiLower d = c
      · rw [show dropLit (c :: cs) (d :: ds) = dropLit cs ds from by simp [dropLit, hc]] at h
        show dropLit (c :: cs) (d :: (ds ++ y)) = some (r ++ y)
        rw [show dropLit (c :: cs) (d :: (ds ++ y)) = dropLit cs (ds ++ y) from by
          simp [dropLit, hc]]
        exact ih ds y r h
      · rw [show dropLit (c :: cs) (d :: ds) = none from by simp [dropLit, hc]] at h
        cases h

theorem dropWhile_append_of_ne_nil {p : Char → Bool} (A : List Char) (B : List Char)
    (h : A.dropWhile p ≠ []) : (A ++ B).dropWhile p = A.dropWhile p ++ B := by
  induction A with
  | nil => simp at h
  | cons a A' ih =>
    by_cases hp : p a = true
    · rw [List.dropWhile_cons_of_pos hp] at h ⊢
      rw [List.cons_append, List.dropWhile_cons_of_pos hp]
      exact ih h
    · rw [List.dropWhile_cons_of_neg (by simp [hp])] at h ⊢
      rw [List.cons_append, List.dropWhile_cons_of_neg (by simp [hp])]

theorem dropWhile_append_of_all {p : Char → Bool} (A : List Char) (B : List Char)
    (h : ∀ ch ∈ A, p ch = true) : (A ++ B).dropWhile p = B.dropWhile p := by
  induction A with
  | nil => rfl
  | cons a A' ih =>
    rw [List.cons_append, List.dropWhile_cons_of_pos (h a (List.mem_cons_self _ _))]
    exact ih (fun ch hch => h ch (List.mem_cons_of_mem _ hch))

theorem takeWhile_append_of_ne_nil {p : Char → Bool} (A : List Char) (B : List Char)
    (h : A.dropWhile p ≠ []) : (A ++ B).takeWhile p = A.takeWhile p := by
  induction A with
  | nil => simp at h
  | cons a A' ih =>
    by_cases hp : p a = true
    · rw [List.dropWhile_cons_of_pos hp] at h
      rw [List.cons_append, List.takeWhile_cons_of_pos hp, List.takeWhile_cons_of_pos hp]
      rw [ih h]
    · rw [List.cons_append, List.takeWhile_cons_of_neg (by simp [hp]),
        List.takeWhile_cons_of_neg (by simp [hp])]

theorem takeWhile_append_of_all {p : Char → Bool} (A : List Char) (B : List Char)
    (h : ∀ ch ∈ A, p ch = true) : (A ++ B).takeWhile p = A ++ B.takeWhile p := by
  induction A with
  | nil => rfl
  | cons a A' ih =>
    rw [List.cons_append, List.takeWhile_cons_of_pos (h a (List.mem_cons_self _ _))]
    rw [ih (fun ch hch => h ch (List.mem_cons_of_mem _ hch))]
    simp

theorem lineWs_not_digit (c : Char) (h : isLineWs c = true) : isDigitCh c = false := by
  cases hd : isDigitCh c
  · rfl
  · have := digit_not_ws c hd
    simp [isLineWs, this] at h

theorem dropLit_ne_nil (w : List Char) (x r : List Char) (hw : w ≠ [])
    (h : dropLit w x = some r) : x ≠ [] := by
  intro hx
  subst hx
  cases w with
  | nil => exact hw rfl
  | cons c cs => cases h

theorem fallback_take (token : String) :
    ∀ (rooms : List String) (resps : List PostResult),
      ∃ k, (fallbackLoop token rooms resps).2 = (rooms.take k).map (fun r => (token, r)) := by
  intro rooms
  induction rooms with
  | nil => intro resps; exact ⟨0, rfl⟩
  | cons room more ih =>
    intro resps
    cases hr : resps.head?.getD PostResult.exn with
    | exn => exact ⟨1, by simp [fallbackLoop, headD_eq_getD, hr]⟩
    | resp st ok body =>
      by_cases h200 : st = 200
      · by_cases hok : ok = true
        · exact ⟨1, by simp [fallbackLoop, headD_eq_getD, hr, h200, hok]⟩
        · rcases ih resps.tail with ⟨k, hk⟩
          refine ⟨k + 1, ?_⟩
          simp [fallbackLoop, headD_eq_getD, hr, h200, hok, hk]
      · rcases ih resps.tail with ⟨k, hk⟩
        refine ⟨k + 1, ?_⟩
        simp [fallbackLoop, headD_eq_getD, hr, h200, hk]

theorem skipWs_append_of_ne_nil (A B : List Char) (h : skipWs A ≠ []) :
    skipWs (A ++ B) = skipWs A ++ B := by
  unfold skipWs at h ⊢
  exact dropWhile_append_of_ne_nil A B h

theorem masterDigitsEnd_append_ws (r3 w : List Char)
    (hw : ∀ ch ∈ w, isLineWs ch = true)
    (hm : masterDigitsEnd r3 = true) : masterDigitsEnd (r3 ++ w) = true := by
  unfold masterDigitsEnd at hm ⊢
  simp only [Bool.and_eq_true] at hm ⊢
  obtain ⟨hne, hall⟩ := hm
  have hr3ne : r3 ≠ [] := by
    intro h
    rw [h] at hne
    simp at hne
  by_cases hd : r3.dropWhile isDigitCh = []
  · have halldig : ∀ ch ∈ r3, isDigitCh ch = true :=
      fun ch hch => List.dropWhile_eq_nil_iff.mp hd ch hch
    constructor
    · rw [takeWhile_append_of_all r3 w halldig]
      simp [hr3ne]
    · rw [dropWhile_append_of_all r3 w halldig]
      cases w with
      | nil => simp
      | cons c0 w' =>
        rw [List.dropWhile_cons_of_neg (by
          simp [lineWs_not_digit c0 (hw c0 (List.mem_cons_self _ _))])]
        exact List.all_eq_true.mpr hw
  · constructor
    · rw [takeWhile_append_of_ne_nil r3 w hd]
      exact hne
    · rw [dropWhile_append_of_ne_nil r3 w hd, List.all_append]
      simp only [hall, Bool.true_and]
      exact List.all_eq_true.mpr hw

theorem masterAfterColon_append_ws (r2 w : List Char)
    (hw : ∀ ch ∈ w, isLineWs ch = true)
    (hm : masterAfterColon r2 = true) : masterAfterColon (r2 ++ w) = true := by
  unfold masterAfterColon at hm ⊢
  cases h3 : dropLit "master_".data (skipWs r2) with
  | none => rw [h3] at hm; cases hm
  | some r3 =>
    rw [h3] at hm
    rw [skipWs_append_of_ne_nil r2 w (dropLit_ne_nil _ _ _ (by decide) h3),
      dropLit_append _ _ _ _ h3]
    exact masterDigitsEnd_append_ws r3 w hw hm

theorem masterAfterWord_append_ws (r w : List Char)
    (hw : ∀ ch ∈ w, isLineWs ch = true)
    (hm : masterAfterWord r = true) : masterAfterWord (r ++ w) = true := by
  unfold masterAfterWord at hm ⊢
  cases h2 : skipWs r with
  | nil => rw [h2] at hm; simp at hm
  | cons c r2 =>
    rw [h2] at hm
    rw [skipWs_append_of_ne_nil r w (by rw [h2]; simp), h2, List.cons_append]
    split at hm
    · rename_i x r2x heq
      injection heq with hc hr2
      subst hc
      subst hr2
      exact masterAfterColon_append_ws r2 w hw hm
    · cases hm

theorem masterLine_append_ws (l w : List Char)
    (hw : ∀ ch ∈ w, isLineWs ch = true)
    (hm : isMasterHeaderLine l = true) : isMasterHeaderLine (l ++ w) = true := by
  unfold isMasterHeaderLine at hm ⊢
  cases h1 : dropLit "master".data (skipWs l) with
  | none => rw [h1] at hm; cases hm
  | some r =>
    rw [h1] at hm
    rw [skipWs_append_of_ne_nil l w (dropLit_ne_nil _ _ _ (by decide) h1),
      dropLit_append _ _ _ _ h1]
    exact masterAfterWord_append_ws r w hw hm

theorem masterLine_prepend_ws (l w : List Char)
    (hw : ∀ ch ∈ w, isLineWs ch = true) :
    isMasterHeaderLine (w ++ l) = isMasterHeaderLine l := by
  unfold isMasterHeaderLine
  have hskip : skipWs (w ++ l) = skipWs l := by
    unfold skipWs
    exact dropWhile_append_of_all w l hw
  rw [hskip]

theorem splitNl_single (l : List Char) (h : '\n' ∉ l) : splitNl l = [l] := by
  induction l with
  | nil => rfl
  | cons c rest ih =>
    have hc : ¬ c = '\n' := fun hcc => h (by rw [hcc]; exact List.mem_cons_self _ _)
    rw [splitNl_cons_ch c rest hc, ih (fun hm => h (List.mem_cons_of_mem _ hm))]

theorem splitNl_header (A B : List Char) (h : '\n' ∉ A) :
    splitNl (A ++ '\n' :: B) = A :: splitNl B := by
  induction A with
  | nil => exact splitNl_cons_nl B
  | cons a A' ih =>
    have ha : ¬ a = '\n' := fun haa => h (by rw [haa]; exact List.mem_cons_self _ _)
    rw [List.cons_append, splitNl_cons_ch a _ ha, ih (fun hm => h (List.mem_cons_of_mem _ hm))]

theorem splitNl_joinNl (ls : List (List Char)) (hne : ls ≠ [])
    (hnl : ∀ l ∈ ls, '\n' ∉ l) : splitNl (joinNl ls) = ls := by
  induction ls with
  | nil => exact absurd rfl hne
  | cons l rest ih =>
    cases rest with
    | nil => exact splitNl_single l (hnl l (List.mem_cons_self _ _))
    | cons l2 rest2 =>
      show splitNl (l ++ '\n' :: joinNl (l2 :: rest2)) = _
      rw [splitNl_header _ _ (hnl l (List.mem_cons_self _ _))]
      rw [ih (by simp) (fun x hx => hnl x (List.mem_cons_of_mem _ hx))]

theorem digit_ne_nl (c : Char) (h : isDigitCh c = true) : ¬ c = '\n' := by
  intro hc
  subst hc
  revert h
  decide

theorem header_is_master (ds : List Char) (hne : ds ≠ []) (hdig : ds.all isDigitCh = true) :
    isMasterHeaderLine ("Master : master_".data ++ ds) = true := by
  have h1 : dropLit "master".data (skipWs ("Master : master_".data ++ ds))
      = some (" : master_".data ++ ds) := rfl
  unfold isMasterHeaderLine
  rw [h1]
  show masterAfterWord (" : master_".data ++ ds) = true
  have h2 : skipWs (" : master_".data ++ ds) = ':' :: (" master_".data ++ ds) := rfl
  unfold masterAfterWord
  rw [h2]
  show masterAfterColon (" master_".data ++ ds) = true
  have h3 : dropLit "master_".data (skipWs (" master_".data ++ ds)) = some ds := rfl
  unfold masterAfterColon
  rw [h3]
  show masterDigitsEnd ds = true
  have halldig : ∀ ch ∈ ds, isDigitCh ch = true := List.all_eq_true.mp hdig
  have hd : ds.dropWhile isDigitCh = [] := List.dropWhile_eq_nil_iff.mpr halldig
  have ht : ds.takeWhile isDigitCh = ds := by
    have h := List.takeWhile_append_dropWhile (p := isDigitCh) (l := ds)
    rw [hd] at h
    simpa using h
  unfold masterDigitsEnd
  rw [ht, hd]
  simp [hne]

/-! ## Claim theorems -/

theorem lastD_nonempty (p q : Option Char) :
    ∀ (pre : List Char), pre ≠ [] → lastD p pre = lastD q pre := by
  intro pre
  induction pre generalizing p q with
  | nil => intro h; exact absurd rfl h
  | cons c cs ih =>
    intro _
    cases cs with
    | nil => rfl
    | cons d ds => exact ih (some c) (some c) (by simp)

theorem lastD_append_char (p : Option Char) :
    ∀ (pre : List Char) (c : Char), lastD p (pre ++ [c]) = some c := by
  intro pre
  induction pre generalizing p with
  | nil => intro c; rfl
  | cons a as ih => intro c; exact ih (some a) c

theorem scanHit_iff (m : Option Char → List Char → Bool) :
    ∀ (s : List Char) (prev : Option Char),
      scanHit m prev s = true ↔
        ∃ pre suf, s = pre ++ suf ∧ m (lastD prev pre) suf = true := by
  intro s
  induction s with
  | nil =>
    intro prev
    constructor
    · intro h
      exact ⟨[], [], rfl, h⟩
    · rintro ⟨pre, suf, heq, hm⟩
      rcases List.append_eq_nil.mp heq.symm with ⟨rfl, rfl⟩
      exact hm
  | cons c rest ih =>
    intro prev
    constructor
    · intro h
      have h' : m prev (c :: rest) = true ∨ scanHit m (some c) rest = true := by
        simpa [scanHit] using h
      rcases h' with h1 | h2
      · exact ⟨[], c :: rest, rfl, h1⟩
      · rcases (ih (some c)).mp h2 with ⟨pre, suf, heq, hm⟩
        exact ⟨c :: pre, suf, by rw [heq]; rfl, hm⟩
    · rintro ⟨pre, suf, heq, hm⟩
      show (m prev (c :: rest) || scanHit m (some c) rest) = true
      cases pre with
      | nil =>
        cases heq
        exact Bool.or_eq_true_iff.mpr (Or.inl hm)
      | cons c' pre' =>
        rw [List.cons_append] at heq
        injection heq with hc hrest
        subst hc
        have hsc : scanHit m (some c) rest = true :=
          (ih (some c)).mpr ⟨pre', suf, hrest, hm⟩
        exact Bool.or_eq_true_iff.mpr (Or.inr hsc)

theorem dropLit_iff (w : List Char) :
    ∀ (s r : List Char), dropLit w s = some r ↔ ∃ u, s = u ++ r ∧ u.map asciiLower = w := by
  induction w with
  | nil =>
    intro s r
    constructor
    · intro h
      cases h
      exact ⟨[], rfl, rfl⟩
    · rintro ⟨u, heq, hu⟩
      have : u = [] := by
        cases u with
        | nil => rfl
        | cons a b => simp at hu
      subst this
      simp at heq
      subst heq
      rfl
  | cons c cs ih =>
    intro s r
    constructor
    · intro h
      cases s with
      | nil => cases h
      | cons d ds =>
        by_cases hc : asciiLower d = c
        · rw [show dropLit (c :: cs) (d :: ds) = dropLit cs ds from by simp [dropLit, hc]] at h
          rcases (ih ds r).mp h with ⟨u, heq, hu⟩
          exact ⟨d :: u, by rw [heq]; rfl, by simp [hu, hc]⟩
        · rw [show dropLit (c :: cs) (d :: ds) = none from by simp [dropLit, hc]] at h
          cases h
    · rintro ⟨u, heq, hu⟩
      cases u with
      | nil => simp at hu
      | cons d u' =>
        simp only [List.map_cons] at hu
        injection hu with h1 h2
        rw [List.cons_append] at heq
        subst heq
        rw [show dropLit (c :: cs) (d :: (u' ++ r)) = dropLit cs (u' ++ r) from by
          simp [dropLit, h1]]
        exact (ih (u' ++ r) r).mpr ⟨u', rfl, h2⟩

theorem lower_not_ws (c tgt : Char) (htgt : isPyWs tgt = false)
    (h : asciiLower c = tgt) : isPyWs c = false := by
  unfold asciiLower at h
  by_cases hr : ('A' ≤ c && c ≤ 'Z') = true
  · simp only [Bool.and_eq_true, decide_eq_true_eq] at hr
    obtain ⟨ha, hb⟩ := hr
    simp only [isPyWs, Bool.or_eq_false_iff, decide_eq_false_iff_not]
    refine ⟨⟨⟨⟨⟨?_, ?_⟩, ?_⟩, ?_⟩, ?_⟩, ?_⟩ <;>
      · rintro rfl
        revert ha hb
        decide
  · rw [if_neg (by simpa using hr)] at h
    subst h
    exact htgt

theorem lastD_some_eq_getLast : ∀ (pre : List Char) (c : Char),
    lastD (some c) pre = (c :: pre).getLast? := by
  intro pre
  induction pre with
  | nil => intro c; rfl
  | cons a as ih =>
    intro c
    show lastD (some a) as = _
    rw [ih a]
    rfl

theorem lastD_none_getLast (pre : List Char) : lastD none pre = pre.getLast? := by
  cases pre with
  | nil => rfl
  | cons a as => exact lastD_some_eq_getLast as a

theorem bdryAfterWord_iff (s : List Char) : bdryAfterWord s = true ↔ FrontBdry s := by
  cases s with
  | nil => simp [bdryAfterWord, FrontBdry]
  | cons c r =>
    simp only [bdryAfterWord, FrontBdry]
    constructor
    · intro h
      exact Or.inr ⟨c, r, rfl, by simpa using h⟩
    · rintro (h | ⟨c', r', heq, hw⟩)
      · cases h
      · injection heq with h1 h2
        subst h1
        simpa using hw

theorem bdryBefore_iff (pre : List Char) :
    bdryBefore (lastD none pre) = true ↔ PrevBdry pre := by
  rw [lastD_none_getLast]
  cases hg : pre.getLast? with
  | none =>
    constructor
    · intro _
      exact Or.inl (List.getLast?_eq_none_iff.mp hg)
    · intro _
      rfl
  | some c =>
    constructor
    · intro h
      exact Or.inr ⟨c, hg, by simpa [bdryBefore] using h⟩
    · rintro (h | ⟨c', hc', hw⟩)
      · rw [h] at hg; cases hg
      · rw [hc'] at hg
        injection hg with h1
        subst h1
        simpa [bdryBefore] using hw

theorem ciIs_head_not_ws (u : List Char) (w : String) (hw : CiIs u w)
    (c0 : Char) (hc0 : w.data.head? = some c0) (hnw : isPyWs c0 = false) :
    ∃ d u2, u = d :: u2 ∧ isPyWs d = false := by
  cases u with
  | nil =>
    exfalso
    unfold CiIs at hw
    rw [← hw] at hc0
    cases hc0
  | cons d u2 =>
    unfold CiIs at hw
    simp only [List.map_cons] at hw
    refine ⟨d, u2, rfl, ?_⟩
    have hd : asciiLower d = c0 := by
      rw [← hw] at hc0
      injection hc0
    exact lower_not_ws d c0 hnw hd

theorem dirAfterOk_cons (c : Char) (rest : List Char) :
    dirAfterOk (c :: rest) = (bdryAfterWord (c :: rest) ||
      (isPyWs c && (match dropLit "limit".data (rest.dropWhile isPyWs) with
                    | some r2 => bdryAfterWord r2
                    | none => false))) := by
  unfold dirAfterOk
  by_cases hw : isPyWs c = true <;> simp [hw]

theorem dirAfterOk_iff (s : List Char) :
    dirAfterOk s = true ↔
      (FrontBdry s ∨ ∃ ws u rest2, s = ws ++ u ++ rest2 ∧ ws ≠ [] ∧ AllPyWs ws ∧
        CiIs u "limit" ∧ FrontBdry rest2) := by
  constructor
  · intro h
    cases s with
    | nil => exact Or.inl (Or.inl rfl)
    | cons c rest =>
      rw [dirAfterOk_cons] at h
      rcases Bool.or_eq_true_iff.mp h with h1 | h2
      · exact Or.inl ((bdryAfterWord_iff _).mp h1)
      · right
        have h2' : isPyWs c = true ∧ (match dropLit "limit".data (rest.dropWhile isPyWs) with
            | some r2 => bdryAfterWord r2
            | none => false) = true := by
          simpa using h2
        obtain ⟨hcw, h3⟩ := h2'
        cases hdl : dropLit "limit".data (rest.dropWhile isPyWs) with
        | none => rw [hdl] at h3; cases h3
        | some r2 =>
          rw [hdl] at h3
          rcases (dropLit_iff _ _ _).mp hdl with ⟨u, hdec, hu⟩
          refine ⟨c :: rest.takeWhile isPyWs, u, r2, ?_, by simp, ?_, hu,
            (bdryAfterWord_iff r2).mp h3⟩
          · conv_lhs => rw [show rest = rest.takeWhile isPyWs ++ (u ++ r2) from by
              rw [← hdec, List.takeWhile_append_dropWhile]]
            simp
          · intro x hx
            rcases List.mem_cons.mp hx with rfl | hx
            · exact hcw
            · exact List.mem_takeWhile_imp hx
  · rintro (h | ⟨ws, u, rest2, heq, hwsne, hws, hu, hfb⟩)
    · cases s with
      | nil => rfl
      | cons c rest =>
        rw [dirAfterOk_cons]
        rw [(bdryAfterWord_iff _).mpr h]
        rfl
    · subst heq
      cases ws with
      | nil => exact absurd rfl hwsne
      | cons c ws2 =>
        have hcw : isPyWs c = true := hws c (List.mem_cons_self _ _)
        rcases ciIs_head_not_ws u "limit" hu 'l' rfl (by decide) with ⟨d, u2, rfl, hdnw⟩
        have hshape : (c :: ws2) ++ (d :: u2) ++ rest2 = c :: (ws2 ++ ((d :: u2) ++ rest2)) := by
          simp
        rw [hshape, dirAfterOk_cons]
        have hdw : (ws2 ++ ((d :: u2) ++ rest2)).dropWhile isPyWs = (d :: u2) ++ rest2 := by
          rw [dropWhile_append_of_all ws2 _ (fun x hx => hws x (List.mem_cons_of_mem _ hx))]
          exact List.dropWhile_cons_of_neg (by simp [hdnw])
        rw [hdw]
        rw [(dropLit_iff _ _ _).mpr ⟨d :: u2, rfl, hu⟩]
        simp [hcw, (bdryAfterWord_iff rest2).mpr hfb]

theorem dirHitAt_iff (prev : List Char) (suf : List Char) :
    dirHitAt (lastD none prev) suf = true ↔
      PrevBdry prev ∧ ∃ w post, suf = w ++ post ∧ (CiIs w "buy" ∨ CiIs w "sell") ∧
        (FrontBdry post ∨ ∃ ws u rest2, post = ws ++ u ++ rest2 ∧ ws ≠ [] ∧ AllPyWs ws ∧
          CiIs u "limit" ∧ FrontBdry rest2) := by
  unfold dirHitAt
  constructor
  · intro h
    obtain ⟨hb, hor⟩ := Bool.and_eq_true_iff.mp h
    refine ⟨(bdryBefore_iff prev).mp hb, ?_⟩
    rcases Bool.or_eq_true_iff.mp hor with h1 | h1
    · cases hdl : dropLit "buy".data suf with
      | none => rw [hdl] at h1; cases h1
      | some r =>
        rw [hdl] at h1
        rcases (dropLit_iff _ _ _).mp hdl with ⟨u, hdec, hu⟩
        exact ⟨u, r, hdec, Or.inl hu, (dirAfterOk_iff r).mp h1⟩
    · cases hdl : dropLit "sell".data suf with
      | none => rw [hdl] at h1; cases h1
      | some r =>
        rw [hdl] at h1
        rcases (dropLit_iff _ _ _).mp hdl with ⟨u, hdec, hu⟩
        exact ⟨u, r, hdec, Or.inr hu, (dirAfterOk_iff r).mp h1⟩
  · rintro ⟨hpb, w, post, rfl, hw, hafter⟩
    rw [Bool.and_eq_true_iff]
    refine ⟨(bdryBefore_iff prev).mpr hpb, ?_⟩
    rw [Bool.or_eq_true_iff]
    rcases hw with hw | hw
    · left
      rw [(dropLit_iff _ _ _).mpr ⟨w, rfl, hw⟩]
      exact (dirAfterOk_iff post).mpr hafter
    · right
      rw [(dropLit_iff _ _ _).mpr ⟨w, rfl, hw⟩]
      exact (dirAfterOk_iff post).mpr hafter

theorem hasDirection_iff (s : List Char) :
    scanHit dirHitAt none s = true ↔ SpecHasDirection s := by
  rw [scanHit_iff]
  constructor
  · rintro ⟨pre, suf, rfl, hm⟩
    rcases (dirHitAt_iff pre suf).mp hm with ⟨hpb, w, post, rfl, hw, hafter⟩
    exact ⟨pre, w, post, (List.append_assoc pre w post).symm, hw, hpb, hafter⟩
  · rintro ⟨pre, w, post, rfl, hw, hpb, hafter⟩
    exact ⟨pre, w ++ post, List.append_assoc pre w post,
      (dirHitAt_iff pre (w ++ post)).mpr ⟨hpb, w, post, rfl, hw, hafter⟩⟩

theorem notPyWs_notLineWs (c : Char) (h : isPyWs c = false) : isLineWs c = false := by
  simp [isLineWs, h]

theorem labelWords_head (wds : List (List Char)) (wd : List Char) (rest : List Char)
    (h : LabelWords (wd :: wds) rest) (hok : wordOk wd = true) :
    ∃ d r2, rest = d :: r2 ∧ isPyWs d = false := by
  cases wd with
  | nil => simp [wordOk] at hok
  | cons c0 wd' =>
    have hnw : isPyWs c0 = false := by simpa [wordOk] using hok
    cases wds with
    | nil =>
      unfold LabelWords at h
      cases rest with
      | nil => simp at h
      | cons d r2 =>
        simp only [List.map_cons] at h
        injection h with h1 h2
        exact ⟨d, r2, rfl, lower_not_ws d c0 hnw h1⟩
    | cons wd2 wds2 =>
      unfold LabelWords at h
      rcases h with ⟨u, ws, r3, heq, hu, hws, hrest⟩
      cases u with
      | nil => simp at hu
      | cons d u' =>
        simp only [List.map_cons] at hu
        injection hu with h1 h2
        exact ⟨d, u' ++ ws ++ r3, by simp [heq], lower_not_ws d c0 hnw h1⟩

theorem dropLabel_cons2_some (wd wd2 : List Char) (wds : List (List Char)) (s r1 : List Char)
    (hdl : dropLit wd s = some r1) :
    dropLabel (wd :: wd2 :: wds) s = dropLabel (wd2 :: wds) (skipWs r1) := by
  show (match dropLit wd s with
    | some r => dropLabel (wd2 :: wds) (skipWs r)
    | none => none) = _
  rw [hdl]

theorem dropLabel_cons2_none (wd wd2 : List Char) (wds : List (List Char)) (s : List Char)
    (hdl : dropLit wd s = none) :
    dropLabel (wd :: wd2 :: wds) s = none := by
  show (match dropLit wd s with
    | some r => dropLabel (wd2 :: wds) (skipWs r)
    | none => none) = _
  rw [hdl]

theorem dropLabel_iff (lab : List (List Char)) (hok : lab.all wordOk = true) :
    ∀ (s r : List Char), dropLabel lab s = some r ↔ ∃ w, s = w ++ r ∧ LabelWords lab w := by
  induction lab with
  | nil =>
    intro s r
    constructor
    · intro h
      cases h
      exact ⟨[], rfl, rfl⟩
    · rintro ⟨w, heq, hw⟩
      unfold LabelWords at hw
      subst hw
      simp at heq
      subst heq
      rfl
  | cons wd wds ih =>
    intro s r
    cases wds with
    | nil =>
      show dropLit wd s = some r ↔ _
      rw [dropLit_iff]
      constructor
      · rintro ⟨u, heq, hu⟩
        exact ⟨u, heq, hu⟩
      · rintro ⟨w, heq, hw⟩
        exact ⟨w, heq, hw⟩
    | cons wd2 wds2 =>
      have hok2 : (wd2 :: wds2).all wordOk = true := by
        simp only [List.all_cons, Bool.and_eq_true] at hok ⊢
        exact ⟨hok.2.1, hok.2.2⟩
      have hok21 : wordOk wd2 = true := by
        simp only [List.all_cons, Bool.and_eq_true] at hok
        exact hok.2.1
      constructor
      · intro h
        cases hdl : dropLit wd s with
        | none =>
          rw [dropLabel_cons2_none wd wd2 wds2 s hdl] at h
          cases h
        | some r1 =>
          rw [dropLabel_cons2_some wd wd2 wds2 s r1 hdl] at h
          rcases (dropLit_iff _ _ _).mp hdl with ⟨u, hdecs, hu⟩
          rcases (ih hok2 (skipWs r1) r).mp h with ⟨w2, hdec2, hw2⟩
          refine ⟨u ++ r1.takeWhile isLineWs ++ w2, ?_, ?_⟩
          · rw [hdecs]
            have hr1 : r1 = r1.takeWhile isLineWs ++ (w2 ++ r) := by
              rw [← hdec2]
              exact (List.takeWhile_append_dropWhile isLineWs r1).symm
            conv_lhs => rw [hr1]
            simp
          · unfold LabelWords
            exact ⟨u, r1.takeWhile isLineWs, w2, by simp, hu,
              fun c hc => List.mem_takeWhile_imp hc, hw2⟩
      · rintro ⟨w, rfl, hw⟩
        unfold LabelWords at hw
        rcases hw with ⟨u, ws, rest, rfl, hu, hws, hrest⟩
        rcases labelWords_head wds2 wd2 rest hrest hok21 with ⟨d, r2, hre, hdnw⟩
        have hform : (u ++ ws ++ rest) ++ r = u ++ (ws ++ (rest ++ r)) := by simp
        rw [hform]
        rw [dropLabel_cons2_some wd wd2 wds2 _ (ws ++ (rest ++ r))
          ((dropLit_iff _ _ _).mpr ⟨u, rfl, hu⟩)]
        have hskip : skipWs (ws ++ (rest ++ r)) = rest ++ r := by
          unfold skipWs
          rw [dropWhile_append_of_all ws _ hws, hre, List.cons_append]
          exact List.dropWhile_cons_of_neg (by simp [notPyWs_notLineWs d hdnw])
        rw [hskip]
        exact (ih hok2 (rest ++ r) r).mpr ⟨rest, rfl, hrest⟩

theorem sepDigit_eq_cons (s : List Char) (c : Char) (rest : List Char)
    (h : s.dropWhile isPyWs = c :: rest) :
    sepDigit s = if c = ':' || c = '=' then headDigit (rest.dropWhile isPyWs)
      else headPyWs s && isDigitCh c := by
  unfold sepDigit
  rw [h]

theorem digit_not_sep (d : Char) (h : isDigitCh d = true) : (d = ':' ∨ d = '=') → False := by
  rintro (rfl | rfl) <;> simp [isDigitCh] at h

theorem sepDigit_iff (s : List Char) : sepDigit s = true ↔ SpecSepDigit s := by
  constructor
  · intro h
    cases hdw : s.dropWhile isPyWs with
    | nil =>
      exfalso
      unfold sepDigit at h
      rw [hdw] at h
      cases h
    | cons c rest =>
      have hcnw : isPyWs c = false := dropWhile_head_false isPyWs s c rest hdw
      have hdecs : s = s.takeWhile isPyWs ++ c :: rest := by
        conv_lhs => rw [← List.takeWhile_append_dropWhile isPyWs s]
        rw [hdw]
      rw [sepDigit_eq_cons s c rest hdw] at h
      by_cases hsep : c = ':' || c = '='
      · rw [if_pos hsep] at h
        cases hdw2 : rest.dropWhile isPyWs with
        | nil =>
          exfalso
          rw [hdw2] at h
          cases h
        | cons d r3 =>
          rw [hdw2] at h
          left
          refine ⟨s.takeWhile isPyWs, c, rest.takeWhile isPyWs, d, r3, ?_, ?_, ?_, ?_,
            by simpa [headDigit] using h⟩
          · have hre : rest = rest.takeWhile isPyWs ++ d :: r3 := by
              conv_lhs => rw [← List.takeWhile_append_dropWhile isPyWs rest]
              rw [hdw2]
            conv_lhs => rw [hdecs]
            rw [← hre]
          · exact fun ch hc => List.mem_takeWhile_imp hc
          · rcases Bool.or_eq_true_iff.mp hsep with h1 | h1
            · exact Or.inl (by simpa using h1)
            · exact Or.inr (by simpa using h1)
          · exact fun ch hc => List.mem_takeWhile_imp hc
      · rw [if_neg hsep] at h
        rcases Bool.and_eq_true_iff.mp h with ⟨hhead, hdig⟩
        right
        refine ⟨s.takeWhile isPyWs, c, rest, hdecs, ?_, fun ch hc => List.mem_takeWhile_imp hc, hdig⟩
        intro htw
        rw [htw] at hdecs
        simp only [List.nil_append] at hdecs
        rw [hdecs] at hhead
        simp only [headPyWs] at hhead
        rw [hhead] at hcnw
        cases hcnw
  · rintro (⟨ws1, c, ws2, d, r2, rfl, hws1, hc, hws2, hd⟩ | ⟨ws1, d, r2, rfl, hne, hws1, hd⟩)
    · have hcnw : isPyWs c = false := by
        rcases hc with rfl | rfl <;> decide
      have hdw : (ws1 ++ c :: (ws2 ++ d :: r2)).dropWhile isPyWs = c :: (ws2 ++ d :: r2) := by
        rw [dropWhile_append_of_all ws1 _ hws1]
        exact List.dropWhile_cons_of_neg (by simp [hcnw])
      rw [sepDigit_eq_cons _ c _ hdw]
      have hsep : (c = ':' || c = '=') = true := by
        rcases hc with rfl | rfl <;> decide
      rw [if_pos hsep]
      have hdw2 : (ws2 ++ d :: r2).dropWhile isPyWs = d :: r2 := by
        rw [dropWhile_append_of_all ws2 _ hws2]
        exact List.dropWhile_cons_of_neg (by simp [digit_not_ws d hd])
      rw [hdw2]
      exact hd
    · have hdw : (ws1 ++ d :: r2).dropWhile isPyWs = d :: r2 := by
        rw [dropWhile_append_of_all ws1 _ hws1]
        exact List.dropWhile_cons_of_neg (by simp [digit_not_ws d hd])
      rw [sepDigit_eq_cons _ d _ hdw]
      have h1 : d ≠ ':' := fun hh => digit_not_sep d hd (Or.inl hh)
      have h2 : d ≠ '=' := fun hh => digit_not_sep d hd (Or.inr hh)
      rw [if_neg (by simp [h1, h2])]
      cases ws1 with
      | nil => cases hne rfl
      | cons w0 ws1x =>
        simp only [List.cons_append]
        have hw0 : isPyWs w0 = true := hws1 w0 (List.mem_cons_self _ _)
        simp [headPyWs, hw0, hd]

theorem labelHitAt_iff (lab : List (List Char)) (hok : lab.all wordOk = true)
    (pre s : List Char) :
    labelHitAt lab (lastD none pre) s = true ↔
      PrevBdry pre ∧ ∃ w post, s = w ++ post ∧ LabelWords lab w ∧
        FrontBdry post ∧ SpecSepDigit post := by
  unfold labelHitAt
  rw [Bool.and_eq_true, bdryBefore_iff]
  constructor
  · rintro ⟨hpb, hrest⟩
    refine ⟨hpb, ?_⟩
    cases hdl : dropLabel lab s with
    | none => rw [hdl] at hrest; cases hrest
    | some r =>
      rw [hdl] at hrest
      simp only [Option.map_some', Option.getD_some, Bool.and_eq_true] at hrest
      rcases (dropLabel_iff lab hok s r).mp hdl with ⟨w, rfl, hw⟩
      exact ⟨w, r, rfl, hw, (bdryAfterWord_iff r).mp hrest.1, (sepDigit_iff r).mp hrest.2⟩
  · rintro ⟨hpb, w, post, rfl, hw, hfb, hsd⟩
    refine ⟨hpb, ?_⟩
    rw [(dropLabel_iff lab hok (w ++ post) post).mpr ⟨w, rfl, hw⟩]
    simp only [Option.map_some', Option.getD_some, Bool.and_eq_true]
    exact ⟨(bdryAfterWord_iff post).mpr hfb, (sepDigit_iff post).mpr hsd⟩

theorem labelScan_iff (labs : List (List (List Char)))
    (hok : ∀ lab ∈ labs, lab.all wordOk = true) (s : List Char) :
    scanHit (anyLabelHitAt labs) none s = true ↔ SpecLabelHit labs s := by
  rw [scanHit_iff]
  constructor
  · rintro ⟨pre, suf, rfl, hm⟩
    unfold anyLabelHitAt at hm
    rcases List.any_eq_true.mp hm with ⟨lab, hlab, hhit⟩
    rcases (labelHitAt_iff lab (hok lab hlab) pre suf).mp hhit with
      ⟨hpb, w, post, rfl, hw, hfb, hsd⟩
    exact ⟨pre, w, post, (List.append_assoc pre w post).symm, hpb, ⟨lab, hlab, hw⟩, hfb, hsd⟩
  · rintro ⟨pre, w, post, rfl, hpb, ⟨lab, hlab, hw⟩, hfb, hsd⟩
    refine ⟨pre, w ++ post, List.append_assoc pre w post, ?_⟩
    unfold anyLabelHitAt
    refine List.any_eq_true.mpr ⟨lab, hlab, ?_⟩
    exact (labelHitAt_iff lab (hok lab hlab) pre (w ++ post)).mpr
      ⟨hpb, w, post, rfl, hw, hfb, hsd⟩

theorem atDigitAt_point_iff (prev : Option Char) (s : List Char) :
    atDigitAt prev s = true ↔
      ∃ ws d rest, s = '@' :: (ws ++ d :: rest) ∧ AllPyWs ws ∧ isDigitCh d = true := by
  constructor
  · intro h
    cases s with
    | nil => cases h
    | cons c rest =>
      simp only [atDigitAt, Bool.and_eq_true, decide_eq_true_eq] at h
      rcases h with ⟨rfl, hhd⟩
      cases hdw : rest.dropWhile isPyWs with
      | nil => rw [hdw] at hhd; cases hhd
      | cons d r3 =>
        rw [hdw] at hhd
        have hre : rest = rest.takeWhile isPyWs ++ d :: r3 := by
          conv_lhs => rw [← List.takeWhile_append_dropWhile isPyWs rest]
          rw [hdw]
        exact ⟨rest.takeWhile isPyWs, d, r3, by conv_lhs => rw [hre],
          fun ch hc => List.mem_takeWhile_imp hc, by simpa [headDigit] using hhd⟩
  · rintro ⟨ws, d, rest, rfl, hws, hd⟩
    simp only [atDigitAt, Bool.and_eq_true, decide_eq_true_eq]
    refine ⟨by trivial, ?_⟩
    rw [dropWhile_append_of_all ws _ hws,
      List.dropWhile_cons_of_neg (by simp [digit_not_ws d hd])]
    simpa [headDigit] using hd

theorem atScan_iff (s : List Char) :
    scanHit atDigitAt none s = true ↔ SpecAtDigit s := by
  rw [scanHit_iff]
  constructor
  · rintro ⟨pre, suf, rfl, hm⟩
    rcases (atDigitAt_point_iff _ suf).mp hm with ⟨ws, d, rest, rfl, hws, hd⟩
    exact ⟨pre, ws, d, rest, rfl, hws, hd⟩
  · rintro ⟨pre, ws, d, rest, rfl, hws, hd⟩
    exact ⟨pre, '@' :: (ws ++ d :: rest), rfl,
      (atDigitAt_point_iff _ _).mpr ⟨ws, d, rest, rfl, hws, hd⟩⟩

/-- Claim C7 (counterexample): the source normalizer has no eye-icon case
(only pure digit lines and `H:MM`/`HH:MM` times are noise), so a trailing
eye-icon-prefixed counter line is kept, contradicting the claim that it is
removed. -/
theorem C7_counterexample :
    normalize_telegram_signal "abc\n👁 12" = "abc\n👁 12" ∧
    ("abc\n👁 12" : String) ≠ "abc" := by
  constructor
  · decide
  · decide

/-- Claim C7 as amended: the normalizer equals the spec-worded function that,
after whitespace cleanup, removes from the bottom any trailing noise line — a
line that is purely digits or an `H:MM`/`HH:MM` time (no eye-icon case) —
together with blank lines, until a non-noise line is found or the text is
empty; it is a pure function and empty input yields the empty string. -/
theorem C7_normalizer_no_eye_icon :
    (∀ s : String, normalize_telegram_signal s = specNormalize s) ∧
    normalize_telegram_signal "" = "" := by
  constructor
  · intro s
    simp only [normalize_telegram_signal, specNormalize]
    rw [popNoise_popBlanks2]
  · decide

/-- Claim C8: an event whose message id is at or below the stored watermark
for its chat leaves the watermark mapping unchanged, produces no payload and
makes no delivery attempt. -/
theorem C8_watermark_guard (allowed : List Int) (state : List (String × Int))
    (ev : RawEvent) (sendResult : Bool)
    (h : ev.message_id ≤ wmGet state (toString ev.chat_id)) :
    on_new_message allowed state ev sendResult = (state, none, false) := by
  unfold on_new_message
  by_cases hmem : ev.chat_id ∈ allowed
  · rw [if_pos hmem]
    cases hlk : lookupMap CHAT_MASTER_MAP ev.chat_id with
    | none => rfl
    | some mh => simp only [if_pos h]
  · rw [if_neg hmem]

theorem C8_watermark_guard_witness :
    (5 : Int) ≤ wmGet [("-1003349817033", 7)] (toString (-1003349817033 : Int)) ∧
    on_new_message [-1003349817033] [("-1003349817033", 7)]
        ⟨-1003349817033, 5, "sell limit\nentry: 1.25\ntp: 1.26\nsl: 1.24"⟩ true
      = ([("-1003349817033", 7)], none, false) :=
  ⟨by decide,
   C8_watermark_guard [-1003349817033] [("-1003349817033", 7)]
     ⟨-1003349817033, 5, "sell limit\nentry: 1.25\ntp: 1.26\nsl: 1.24"⟩ true (by decide)⟩

/-- Claim C1 (counterexample): for a fresh message (id 5 above the watermark
0) whose text fails classification, the watermark is NOT advanced — the
post-state watermark for the chat is still 0, not 5, contradicting the claim
that the watermark advances when classification rejects the text. -/
theorem C1_counterexample :
    wmGet (on_new_message [-1003349817033] [] ⟨-1003349817033, 5, "hello"⟩ true).1
        "-1003349817033" = 0 ∧ (0 : Int) < 5 := by
  constructor
  · decide
  · decide

/-- Claim C1 as amended: for a processed event above the watermark, the
watermark entry is advanced to the event's message id exactly when the text
passes classification AND the delivery attempt succeeds; on a classification
miss or a failed delivery the watermark mapping is left unchanged. -/
theorem C1_watermark_only_on_success (allowed : List Int) (state : List (String × Int))
    (ev : RawEvent) (sendResult : Bool) (mh : String)
    (hmem : ev.chat_id ∈ allowed)
    (hmh : lookupMap CHAT_MASTER_MAP ev.chat_id = some mh)
    (hgt : wmGet state (toString ev.chat_id) < ev.message_id) :
    ((normalize_telegram_signal ev.raw_text ≠ "" ∧
      looks_like_signal (normalize_telegram_signal ev.raw_text) = true ∧ sendResult = true) →
       (on_new_message allowed state ev sendResult).1
         = wmSet state (toString ev.chat_id) ev.message_id) ∧
    ((normalize_telegram_signal ev.raw_text = "" ∨
      looks_like_signal (normalize_telegram_signal ev.raw_text) = false ∨ sendResult = false) →
       (on_new_message allowed state ev sendResult).1 = state) := by
  unfold on_new_message
  rw [if_pos hmem, hmh]
  simp only [if_neg (not_le.mpr hgt)]
  constructor
  · rintro ⟨hne, hsig, hsend⟩
    simp [hne, hsig, hsend]
  · intro h
    rcases h with hne | hsig | hsend
    · simp [hne]
    · simp [hsig]
    · by_cases hne : normalize_telegram_signal ev.raw_text = ""
      · simp [hne]
      · by_cases hsig : looks_like_signal (normalize_telegram_signal ev.raw_text) = true
        · simp [hne, hsig, hsend]
        · simp [hne, hsig]

theorem C1_watermark_only_on_success_witness :
    ((-1003349817033 : Int) ∈ [(-1003349817033 : Int)]) ∧
    lookupMap CHAT_MASTER_MAP (-1003349817033) = some "master_2" ∧
    wmGet [] (toString (-1003349817033 : Int)) < 5 ∧
    (((normalize_telegram_signal "sell limit\nentry: 1.25\ntp: 1.26\nsl: 1.24" ≠ "" ∧
       looks_like_signal (normalize_telegram_signal
         "sell limit\nentry: 1.25\ntp: 1.26\nsl: 1.24") = true ∧ (true : Bool) = true) →
        (on_new_message [-1003349817033] []
            ⟨-1003349817033, 5, "sell limit\nentry: 1.25\ntp: 1.26\nsl: 1.24"⟩ true).1
          = wmSet [] (toString (-1003349817033 : Int)) 5) ∧
     ((normalize_telegram_signal "sell limit\nentry: 1.25\ntp: 1.26\nsl: 1.24" = "" ∨
       looks_like_signal (normalize_telegram_signal
         "sell limit\nentry: 1.25\ntp: 1.26\nsl: 1.24") = false ∨ (true : Bool) = false) →
        (on_new_message [-1003349817033] []
            ⟨-1003349817033, 5, "sell limit\nentry: 1.25\ntp: 1.26\nsl: 1.24"⟩ true).1 = [])) :=
  ⟨by decide, by decide, by decide,
   C1_watermark_only_on_success [-1003349817033] []
     ⟨-1003349817033, 5, "sell limit\nentry: 1.25\ntp: 1.26\nsl: 1.24"⟩ true "master_2"
     (by decide) (by decide) (by decide)⟩

/-- Claim C9 (counterexample): a forced refresh that fails (login HTTP 500)
returns the empty token but leaves the previously cached token `"t0"` in the
cache — the cache is NOT left empty, contradicting the claim. -/
theorem C9_counterexample :
    ensure_converter_token ⟨"t0", 100⟩ 150 540 "5487" true (.httpError 500)
      = ("", ⟨"t0", 100⟩) ∧ ("t0" : String) ≠ "" := by
  constructor
  · decide
  · decide

/-- Claim C9 as amended: whenever token acquisition fails (empty PIN,
non-200 login status, raised request, or missing token) and the cached-token
fast path does not apply, the operation returns the empty token and leaves
the token cache exactly as it was — in particular a previously cached token
is retained, and an empty cache stays empty so the next attempt retries the
login. -/
theorem C9_failure_empty_cache_unchanged (cache : TokenCache) (now ttl : Nat)
    (pin : String) (force : Bool) (login : LoginResult)
    (hbypass : (!force && cache.token ≠ "" && now - cache.ts < ttl) = false)
    (hfail : pin = "" ∨ loginFailed login = true) :
    ensure_converter_token cache now ttl pin force login = ("", cache) := by
  unfold ensure_converter_token
  rw [if_neg (by simp only [hbypass]; exact Bool.false_ne_true)]
  by_cases hpin : pin = ""
  · rw [if_pos hpin]
  · rw [if_neg hpin]
    have hlf : loginFailed login = true := hfail.resolve_left hpin
    cases login with
    | httpError s => rfl
    | exn => rfl
    | noToken => rfl
    | ok tok =>
      have htok : tok = "" := by simpa [loginFailed] using hlf
      simp [htok]

theorem C9_failure_empty_cache_unchanged_witness :
    ((!true && (⟨"t0", 100⟩ : TokenCache).token ≠ "" && 150 - (⟨"t0", 100⟩ : TokenCache).ts < 540)
        = false) ∧
    loginFailed (.httpError 500) = true ∧
    ensure_converter_token ⟨"t0", 100⟩ 150 540 "5487" true (.httpError 500) = ("", ⟨"t0", 100⟩) :=
  ⟨by decide, by decide,
   C9_failure_empty_cache_unchanged ⟨"t0", 100⟩ 150 540 "5487" true (.httpError 500)
     (by decide) (Or.inr (by decide))⟩

/-- Claim C3: the pending-delivery buffer (modelled from the spec, absent
from `src/`) is a bounded key-deduplicated FIFO — enqueueing an entry whose
key is already present leaves the queue unchanged, and enqueueing
`capacity + 1` entries with distinct keys into an empty queue leaves exactly
`capacity` entries: the first-enqueued entry is evicted and the others keep
their original relative order. -/
theorem C3_queue_dedup_and_eviction (cap : Nat) (q : List QueueEntry) (e : QueueEntry)
    (es : List QueueEntry)
    (hk : e.key ∈ q.map QueueEntry.key)
    (hlen : es.length = cap + 1) (hnd : (es.map QueueEntry.key).Nodup) (hcap : 0 < cap) :
    enqueue cap q e = q ∧ List.foldl (enqueue cap) [] es = es.tail := by
  constructor
  · have : q.any (fun x => x.key = e.key) = true := by
      rw [List.any_eq_true]
      rcases List.mem_map.mp hk with ⟨x, hx, hkey⟩
      exact ⟨x, hx, by simp [hkey]⟩
    simp [enqueue, this]
  · exact enqueue_evict cap es hlen hnd hcap

theorem C3_queue_dedup_and_eviction_witness :
    (("a" : String) ∈ ([⟨"a", 1, 1, "x"⟩] : List QueueEntry).map QueueEntry.key) ∧
    ([⟨"k1", 1, 1, "t1"⟩, ⟨"k2", 1, 2, "t2"⟩, ⟨"k3", 1, 3, "t3"⟩] : List QueueEntry).length = 2 + 1 ∧
    (([⟨"k1", 1, 1, "t1"⟩, ⟨"k2", 1, 2, "t2"⟩, ⟨"k3", 1, 3, "t3"⟩] : List QueueEntry).map
        QueueEntry.key).Nodup ∧
    (enqueue 2 [⟨"a", 1, 1, "x"⟩] ⟨"a", 1, 2, "y"⟩ = [⟨"a", 1, 1, "x"⟩] ∧
     List.foldl (enqueue 2) []
         [⟨"k1", 1, 1, "t1"⟩, ⟨"k2", 1, 2, "t2"⟩, ⟨"k3", 1, 3, "t3"⟩]
       = [⟨"k2", 1, 2, "t2"⟩, ⟨"k3", 1, 3, "t3"⟩]) :=
  ⟨by decide, by decide, by decide,
   C3_queue_dedup_and_eviction 2 [⟨"a", 1, 1, "x"⟩] ⟨"a", 1, 2, "y"⟩
     [⟨"k1", 1, 1, "t1"⟩, ⟨"k2", 1, 2, "t2"⟩, ⟨"k3", 1, 3, "t3"⟩]
     (by decide) (by decide) (by decide) (by decide)⟩

/-- Claim C4: candidate routing keys are resolved as the room hint, then the
master hint, then the `room<N>`/`room_<N>` variants, duplicates removed with
first-seen order preserved (refinement against the spec-worded
`specCandidates`); on an HTTP 400 whose body contains the routing-mismatch
marker, the client retries the remaining candidates sequentially in that
order with the same token (the POST trace is a prefix of the candidate
list, every attempt with `token0`); and in the concrete scenario with hints
`room2`/`master_2` it attempts `room2` first, then `master_2`, succeeding
when the second attempt returns ok. -/
theorem C4_candidates_and_fallback :
    (∀ rh mh : String, candidate_rooms rh mh = specCandidates rh mh) ∧
    (∀ (rh mh token0 refreshTok : String) (ok : Bool) (body : String) (rest : List PostResult),
       token0 ≠ "" →
       substrHit "Pair non trovato".data body.data = true →
       1 < (candidate_rooms rh mh).length →
       ∃ k, (send_to_converter rh mh token0 refreshTok
               (PostResult.resp 400 ok body :: rest)).2.1
          = ((candidate_rooms rh mh).take k).map (fun room => (token0, room))) ∧
    send_to_converter "room2" "master_2" "tok" ""
        [PostResult.resp 400 false "Errore: Pair non trovato", PostResult.resp 200 true ""]
      = (true, [("tok", "room2"), ("tok", "master_2")], 0) := by
  refine ⟨candidate_rooms_eq_spec, ?_, by decide⟩
  intro rh mh token0 refreshTok ok body rest htok hsub hlen
  rcases hrooms : candidate_rooms rh mh with _ | ⟨r0, rtail⟩
  · rw [hrooms] at hlen; simp at hlen
  · obtain ⟨k, hk⟩ := fallback_take token0 rtail rest
    refine ⟨k + 1, ?_⟩
    have hlen2 : (1 : Nat) < (r0 :: rtail).length := by rw [← hrooms]; exact hlen
    simp only [send_to_converter, if_neg htok, List.headD_cons, hrooms]
    norm_num
    simp only [hsub, hlen2, and_true, if_true, if_pos]
    have h0 : 0 < rtail.length := by simp at hlen2; omega
    simp [hk, h0]

theorem C4_candidates_and_fallback_witness :
    ("tok" : String) ≠ "" ∧
    substrHit "Pair non trovato".data "Errore: Pair non trovato".data = true ∧
    1 < (candidate_rooms "room2" "master_2").length ∧
    (∃ k, (send_to_converter "room2" "master_2" "tok" ""
             (PostResult.resp 400 false "Errore: Pair non trovato"
               :: [PostResult.resp 200 true ""])).2.1
        = ((candidate_rooms "room2" "master_2").take k).map (fun room => ("tok", room))) :=
  ⟨by decide, by decide, by decide,
   C4_candidates_and_fallback.2.1 "room2" "master_2" "tok" "" false
     "Errore: Pair non trovato" [PostResult.resp 200 true ""]
     (by decide) (by decide) (by decide)⟩

/-- Claim C5: on a delivery attempt answered with HTTP 401 or 403, the
client performs exactly one forced token refresh; if the refresh yields no
token the delivery fails after the single original POST; otherwise it
retries exactly once against the first candidate routing key with the new
token — the POST trace is exactly the original attempt plus one retry, and
the retry's outcome is decided only by an HTTP-200 ok response (no 400
candidate fallback on the retry) — after which it gives up. -/
theorem C5_auth_retry_once (rh mh token0 refreshTok : String) (st : Nat) (ok : Bool)
    (body : String) (rest : List PostResult)
    (htok : token0 ≠ "") (hst : st = 401 ∨ st = 403) :
    (send_to_converter rh mh token0 refreshTok (PostResult.resp st ok body :: rest)).2.2 = 1 ∧
    (refreshTok = "" →
      send_to_converter rh mh token0 refreshTok (PostResult.resp st ok body :: rest)
        = (false, [(token0, (candidate_rooms rh mh).headD "")], 1)) ∧
    (refreshTok ≠ "" →
      (send_to_converter rh mh token0 refreshTok (PostResult.resp st ok body :: rest)).2.1
         = [(token0, (candidate_rooms rh mh).headD ""),
            (refreshTok, (candidate_rooms rh mh).headD "")] ∧
      (send_to_converter rh mh token0 refreshTok (PostResult.resp st ok body :: rest)).1
         = retrySucceeds (rest.headD PostResult.exn)) := by
  have h200 : ¬ st = 200 := by rcases hst with rfl | rfl <;> decide
  have h400 : ¬ st = 400 := by rcases hst with rfl | rfl <;> decide
  have hrw : send_to_converter rh mh token0 refreshTok (PostResult.resp st ok body :: rest)
      = (if refreshTok = "" then (false, [(token0, (candidate_rooms rh mh).headD "")], 1)
         else
           match rest.headD PostResult.exn with
           | .exn => (false, [(token0, (candidate_rooms rh mh).headD ""),
                              (refreshTok, (candidate_rooms rh mh).headD "")], 1)
           | .resp st2 ok2 _ =>
             if st2 = 200 then
               (ok2, [(token0, (candidate_rooms rh mh).headD ""),
                      (refreshTok, (candidate_rooms rh mh).headD "")], 1)
             else (false, [(token0, (candidate_rooms rh mh).headD ""),
                           (refreshTok, (candidate_rooms rh mh).headD "")], 1)) := by
    rcases hst with rfl | rfl <;>
      simp only [send_to_converter, if_neg htok, List.headD_cons] <;> norm_num
  rw [hrw]
  by_cases hr : refreshTok = ""
  · rw [if_pos hr]
    exact ⟨rfl, fun _ => rfl, fun hcon => absurd hr hcon⟩
  · rw [if_neg hr]
    cases hd : rest.headD PostResult.exn with
    | exn => simp [retrySucceeds, hr]
    | resp st2 ok2 b2 =>
      by_cases h2 : st2 = 200
      · subst h2
        simp [retrySucceeds, hr]
      · simp [retrySucceeds, hr, h2]

theorem C5_auth_retry_once_witness :
    ("tok" : String) ≠ "" ∧ ((401 : Nat) = 401 ∨ (401 : Nat) = 403) ∧
    ((send_to_converter "room2" "master_2" "tok" "newtok"
        (PostResult.resp 401 false "" :: [PostResult.resp 200 true ""])).2.2 = 1 ∧
     (("newtok" : String) = "" →
       send_to_converter "room2" "master_2" "tok" "newtok"
           (PostResult.resp 401 false "" :: [PostResult.resp 200 true ""])
         = (false, [("tok", (candidate_rooms "room2" "master_2").headD "")], 1)) ∧
     (("newtok" : String) ≠ "" →
       (send_to_converter "room2" "master_2" "tok" "newtok"
           (PostResult.resp 401 false "" :: [PostResult.resp 200 true ""])).2.1
          = [("tok", (candidate_rooms "room2" "master_2").headD ""),
             ("newtok", (candidate_rooms "room2" "master_2").headD "")] ∧
       (send_to_converter "room2" "master_2" "tok" "newtok"
           (PostResult.resp 401 false "" :: [PostResult.resp 200 true ""])).1
          = retrySucceeds ([PostResult.resp 200 true ""].headD PostResult.exn))) :=
  ⟨by decide, Or.inl rfl,
   C5_auth_retry_once "room2" "master_2" "tok" "newtok" 401 false ""
     [PostResult.resp 200 true ""] (by decide) (Or.inl rfl)⟩

/-- Claim C10: for a master hint of the form `master_<n>`, the payload text
built before delivery begins with the line `Master : <master_hint>`; that
line matches the master-header pattern, and after the pre-existing
`Master : master_<n>` lines are stripped, no other line of the payload text
matches it — the text carries exactly one such generated header. -/
theorem C10_master_header_once (hint t : String) (ds : List Char)
    (hne : ds ≠ []) (hdig : ds.all isDigitCh = true)
    (hhint : hint.data = "master_".data ++ ds) :
    ∃ rest, splitNl (applyMasterHeader hint t).data
        = ("Master : ".data ++ hint.data) :: rest ∧
      isMasterHeaderLine ("Master : ".data ++ hint.data) = true ∧
      ∀ l ∈ rest, isMasterHeaderLine l = false := by
  have halldig : ∀ ch ∈ ds, isDigitCh ch = true := List.all_eq_true.mp hdig
  have hnlA : '\n' ∉ "Master : ".data ++ hint.data := by
    intro hmem
    rcases List.mem_append.mp hmem with hm | hm
    · revert hm; decide
    · rw [hhint] at hm
      rcases List.mem_append.mp hm with hm2 | hm2
      · revert hm2; decide
      · exact digit_ne_nl '\n' (halldig _ hm2) rfl
  have hdata : (applyMasterHeader hint t).data
      = ("Master : ".data ++ hint.data) ++ '\n'
          :: stripL (joinNl ((splitNl t.data).filter (fun l => !isMasterHeaderLine l))) := by
    show applyMasterHeaderL hint.data t.data = _
    unfold applyMasterHeaderL
    rw [List.append_assoc]
  refine ⟨splitNl (stripL (joinNl ((splitNl t.data).filter (fun l => !isMasterHeaderLine l)))),
    ?_, ?_, ?_⟩
  · rw [hdata, splitNl_header _ _ hnlA]
  · rw [hhint, show "Master : ".data ++ ("master_".data ++ ds)
        = "Master : master_".data ++ ds from by rw [← List.append_assoc]; rfl]
    exact header_is_master ds hne hdig
  · intro l hl
    rcases mem_stripL _ l hl with ⟨l0, hl0, w1, w2, hw1, hw2, heq⟩
    by_cases hk : (splitNl t.data).filter (fun l => !isMasterHeaderLine l) = []
    · rw [hk] at hl0
      have hl0e : l0 = [] := by
        simpa [joinNl, splitNl] using hl0
      rw [hl0e] at heq
      have hle : l = [] := by
        have := congrArg List.length heq
        simp at this
        exact List.length_eq_zero.mp (by omega)
      rw [hle]
      decide
    · have hnlk : ∀ x ∈ (splitNl t.data).filter (fun l => !isMasterHeaderLine l), '\n' ∉ x :=
        fun x hx => splitNl_no_newline t.data x (List.mem_filter.mp hx).1
      rw [splitNl_joinNl _ hk hnlk] at hl0
      have hl0m : isMasterHeaderLine l0 = false := by
        have := (List.mem_filter.mp hl0).2
        simpa using this
      cases hml : isMasterHeaderLine l
      · rfl
      · exfalso
        have h1 : isMasterHeaderLine (l ++ w2) = true := masterLine_append_ws l w2 hw2 hml
        have h2 : isMasterHeaderLine (w1 ++ (l ++ w2)) = true := by
          rw [masterLine_prepend_ws _ _ hw1]
          exact h1
        rw [heq, List.append_assoc] at hl0m
        rw [h2] at hl0m
        cases hl0m

theorem C10_master_header_once_witness :
    (['2'] : List Char) ≠ [] ∧ (['2'] : List Char).all isDigitCh = true ∧
    ("master_2" : String).data = "master_".data ++ ['2'] ∧
    (∃ rest, splitNl (applyMasterHeader "master_2" "Master : master_3\nSell\nE: 1").data
        = ("Master : ".data ++ ("master_2" : String).data) :: rest ∧
      isMasterHeaderLine ("Master : ".data ++ ("master_2" : String).data) = true ∧
      ∀ l ∈ rest, isMasterHeaderLine l = false) :=
  ⟨by decide, by decide, by decide,
   C10_master_header_once "master_2" "Master : master_3\nSell\nE: 1" ['2']
     (by decide) (by decide) (by decide)⟩

/-- C6: the strict classifier accepts exactly when the lower-cased,
whitespace-collapsed, stripped text contains a direction token, an entry
indicator (label-plus-number or `@number`), a take-profit indicator and a
stop-loss indicator. -/
theorem C6_strict_classifier_iff (t : String) :
    looks_like_signal t = true ↔
      (SpecHasDirection (compactOf t) ∧
       (SpecLabelHit entryLabels (compactOf t) ∨ SpecAtDigit (compactOf t)) ∧
       SpecLabelHit tpLabels (compactOf t) ∧
       SpecLabelHit slLabels (compactOf t)) := by
  show (scanHit dirHitAt none (compactOf t) &&
      (scanHit (anyLabelHitAt entryLabels) none (compactOf t) ||
        scanHit atDigitAt none (compactOf t)) &&
      scanHit (anyLabelHitAt tpLabels) none (compactOf t) &&
      scanHit (anyLabelHitAt slLabels) none (compactOf t)) = true ↔ _
  rw [Bool.and_eq_true, Bool.and_eq_true, Bool.and_eq_true, Bool.or_eq_true_iff]
  rw [hasDirection_iff, labelScan_iff entryLabels (by decide), atScan_iff,
    labelScan_iff tpLabels (by decide), labelScan_iff slLabels (by decide)]
  tauto

theorem goodNums_cons2 (a b : Char) (rest : List Char) :
    goodNums (a :: b :: rest) =
      ((!(a = '.' || a = ',') || isDigitCh b) &&
       (!(isNumCh a && isWordCh b) || isNumCh b) &&
       goodNums (b :: rest)) := rfl

theorem goodNums_tail (a : Char) (s : List Char) (h : goodNums (a :: s) = true) :
    goodNums s = true := by
  cases s with
  | nil => rfl
  | cons b r =>
    rw [goodNums_cons2] at h
    exact (Bool.and_eq_true_iff.mp h).2

theorem goodNums_suffix (l2 l1 : List Char) (hs : l2 <:+ l1) (h : goodNums l1 = true) :
    goodNums l2 = true := by
  rcases hs with ⟨t, rfl⟩
  induction t with
  | nil => exact h
  | cons a t' ih => exact ih (goodNums_tail a _ h)

theorem goodNums_dot (a b : Char) (rest : List Char)
    (h : goodNums (a :: b :: rest) = true) (ha : a = '.' ∨ a = ',') :
    isDigitCh b = true := by
  rw [goodNums_cons2] at h
  have h1 := (Bool.and_eq_true_iff.mp (Bool.and_eq_true_iff.mp h).1).1
  rcases Bool.or_eq_true_iff.mp h1 with h2 | h2
  · exfalso
    rcases ha with rfl | rfl <;> simp at h2
  · exact h2

theorem goodNums_word (a b : Char) (rest : List Char)
    (h : goodNums (a :: b :: rest) = true) (ha : isNumCh a = true)
    (hb : isWordCh b = true) : isNumCh b = true := by
  rw [goodNums_cons2] at h
  have h1 := (Bool.and_eq_true_iff.mp (Bool.and_eq_true_iff.mp h).1).2
  rcases Bool.or_eq_true_iff.mp h1 with h2 | h2
  · simp [ha, hb] at h2
  · exact h2

theorem goodNums_single (a : Char) (h : goodNums [a] = true) : ¬(a = '.' ∨ a = ',') := by
  intro hc
  rcases hc with rfl | rfl <;> simp [goodNums] at h

theorem goodNums_cons_skip (a : Char) (s : List Char)
    (ha1 : ¬(a = '.' ∨ a = ',')) (ha2 : isNumCh a = false) :
    goodNums (a :: s) = goodNums s := by
  cases s with
  | nil =>
    show (!(decide (a = '.') || decide (a = ','))) = true
    simp [decide_eq_true_eq]
    exact ⟨fun h1 => ha1 (Or.inl h1), fun h2 => ha1 (Or.inr h2)⟩
  | cons b r =>
    rw [goodNums_cons2]
    have h1 : (!(decide (a = '.') || decide (a = ','))) = true := by
      simp [decide_eq_true_eq]
      exact ⟨fun h1 => ha1 (Or.inl h1), fun h2 => ha1 (Or.inr h2)⟩
    simp [h1, ha2]

theorem goodNums_last (s : List Char) (hg : goodNums s = true) (c : Char)
    (hc : s.getLast? = some c) : ¬(c = '.' ∨ c = ',') := by
  induction s with
  | nil => cases hc
  | cons a s' ih =>
    cases s' with
    | nil =>
      cases hc
      exact goodNums_single a hg
    | cons b r =>
      exact ih (goodNums_tail a _ hg) (by rw [← hc]; rfl)

theorem isNumCh_cases (a : Char) (h : isNumCh a = true) :
    isDigitCh a = true ∨ a = '.' ∨ a = ',' := by
  simp only [isNumCh, Bool.or_eq_true, decide_eq_true_eq] at h
  tauto

theorem digit_isWord (c : Char) (h : isDigitCh c = true) : isWordCh c = true := by
  simp [isWordCh, h]

theorem goodNums_prefix_ok (u v : List Char) (hg : goodNums (u ++ v) = true)
    (hl : ∀ c, u.getLast? = some c → ¬(c = '.' ∨ c = ',')) : goodNums u = true := by
  induction u with
  | nil => rfl
  | cons a u' ih =>
    cases u' with
    | nil =>
      show (!(decide (a = '.') || decide (a = ','))) = true
      have := hl a rfl
      simp [decide_eq_true_eq]
      exact ⟨fun h1 => this (Or.inl h1), fun h2 => this (Or.inr h2)⟩
    | cons b u2 =>
      have hg' : goodNums (a :: b :: (u2 ++ v)) = true := hg
      rw [goodNums_cons2] at hg' ⊢
      have h1 := Bool.and_eq_true_iff.mp hg'
      have h2 := Bool.and_eq_true_iff.mp h1.1
      have htl : goodNums (b :: u2) = true := by
        have : goodNums ((b :: u2) ++ v) = true := h1.2
        exact ih this (fun c hc => hl c (by rw [← hc]; rfl))
      rw [h2.1, h2.2, htl]
      rfl

theorem run_boundary (s : List Char) (hg : goodNums s = true)
    (b : Char) (v : List Char) (hrest : s.dropWhile isNumCh = b :: v)
    (hne : s.takeWhile isNumCh ≠ []) :
    isWordCh b = false ∧
      (∀ a, (s.takeWhile isNumCh).getLast? = some a → isDigitCh a = true) := by
  rcases List.eq_nil_or_concat (s.takeWhile isNumCh) with hnil | ⟨u, a, hua⟩
  · exact absurd hnil hne
  · have hdec : s = u ++ a :: b :: v := by
      conv_lhs => rw [← List.takeWhile_append_dropWhile isNumCh s]
      rw [hua, hrest]
      simp
    have hsuf : goodNums (a :: b :: v) = true :=
      goodNums_suffix _ _ ⟨u, by rw [hdec]⟩ hg
    have hanum : isNumCh a = true := by
      have : a ∈ s.takeWhile isNumCh := by rw [hua]; simp
      exact List.mem_takeWhile_imp this
    have hbnum : isNumCh b = false := dropWhile_head_false isNumCh s b v hrest
    have hbw : isWordCh b = false := by
      cases hw : isWordCh b
      · rfl
      · have := goodNums_word a b v hsuf hanum hw
        rw [this] at hbnum
        cases hbnum
    have hadig : isDigitCh a = true := by
      rcases isNumCh_cases a hanum with h | h
      · exact h
      · have := goodNums_dot a b v hsuf h
        have hb2 : isNumCh b = true := by simp [isNumCh, this]
        rw [hb2] at hbnum
        cases hbnum
    refine ⟨hbw, fun a2 ha2 => ?_⟩
    have : a2 = a := by
      rw [hua, List.concat_eq_append] at ha2
      simp [List.getLast?_append] at ha2
      exact ha2.symm
    rw [this]
    exact hadig

theorem run_last_digit (s : List Char) (hg : goodNums s = true)
    (hne : s.takeWhile isNumCh ≠ []) (a : Char)
    (ha : (s.takeWhile isNumCh).getLast? = some a) : isDigitCh a = true := by
  cases hrest : s.dropWhile isNumCh with
  | nil =>
    have hs : s.takeWhile isNumCh = s := by
      conv_rhs => rw [← List.takeWhile_append_dropWhile isNumCh s]
      rw [hrest]
      simp
    have hanum : isNumCh a = true := by
      rcases List.mem_getLast?_eq_getLast (show a ∈ (s.takeWhile isNumCh).getLast? from ha)
        with ⟨hh, heq⟩
      exact List.mem_takeWhile_imp (heq ▸ List.getLast_mem hh)
    have := goodNums_last s hg a (by rw [← hs]; exact ha)
    rcases isNumCh_cases a hanum with h | h
    · exact h
    · exact absurd h this
  | cons b v => exact (run_boundary s hg b v hrest hne).2 a ha

theorem run_good (s : List Char) (hg : goodNums s = true) (c : Char) (s2 : List Char)
    (hs : s = c :: s2) (hd : isDigitCh c = true) :
    goodNum (s.takeWhile isNumCh) = true ∧
      (∀ b v, s.dropWhile isNumCh = b :: v → isWordCh b = false) := by
  have hcnum : isNumCh c = true := by simp [isNumCh, hd]
  have hne : s.takeWhile isNumCh ≠ [] := by
    rw [hs, List.takeWhile_cons_of_pos hcnum]
    simp
  have hhead : headDigit (s.takeWhile isNumCh) = true := by
    rw [hs, List.takeWhile_cons_of_pos hcnum]
    simpa [headDigit] using hd
  have hall : (s.takeWhile isNumCh).all isNumCh = true :=
    List.all_eq_true.mpr (fun a hmem => List.mem_takeWhile_imp hmem)
  have hgood : goodNums (s.takeWhile isNumCh) = true := by
    refine goodNums_prefix_ok _ (s.dropWhile isNumCh)
      (by rw [List.takeWhile_append_dropWhile]; exact hg) ?_
    intro a ha
    have := run_last_digit s hg hne a ha
    intro hcon
    rcases hcon with rfl | rfl <;> simp [isDigitCh] at this
  refine ⟨?_, fun b v hbv => (run_boundary s hg b v hbv hne).1⟩
  unfold goodNum
  rw [hhead, hall, hgood]
  simp [List.isEmpty_iff, hne]

theorem numBack_word (a : Char) (w : List Char) (nxt : Option Char)
    (ha : isWordCh a = true)
    (hn : (match nxt with | some d => isWordCh d | none => false) = false) :
    numBack (a :: w) nxt = some (a :: w) := by
  cases nxt with
  | none =>
    show (if (isWordCh a ≠ false) then some (a :: w) else numBack w (some a)) = some (a :: w)
    rw [ha]
    simp
  | some d =>
    have hd : isWordCh d = false := by simpa using hn
    show (if (isWordCh a ≠ isWordCh d) then some (a :: w) else numBack w (some a))
      = some (a :: w)
    rw [ha, hd]
    simp

theorem parseNum_run (c : Char) (s2 : List Char) (hd : isDigitCh c = true)
    (hg : goodNums (c :: s2) = true) :
    parseNum (c :: s2) = some ((c :: s2).takeWhile isNumCh) := by
  have hne : (c :: s2).takeWhile isNumCh ≠ [] := by
    rw [List.takeWhile_cons_of_pos (by simp [isNumCh, hd])]
    simp
  obtain ⟨a, w, hrev⟩ : ∃ a w, ((c :: s2).takeWhile isNumCh).reverse = a :: w := by
    cases hr : ((c :: s2).takeWhile isNumCh).reverse with
    | nil =>
      exfalso
      exact hne (by simpa using congrArg List.reverse hr)
    | cons a w => exact ⟨a, w, rfl⟩
  have hlast : ((c :: s2).takeWhile isNumCh).getLast? = some a := by
    rw [← List.head?_reverse, hrev]
    rfl
  have hadig : isDigitCh a = true := run_last_digit _ hg hne a hlast
  have hnext : (match ((c :: s2).dropWhile isNumCh).head? with
      | some d => isWordCh d | none => false) = false := by
    cases hdw : (c :: s2).dropWhile isNumCh with
    | nil => rfl
    | cons b v =>
      have hb := (run_good (c :: s2) hg c s2 rfl hd).2 b v hdw
      simp [hb]
  show (if isDigitCh c then
      match numBack ((c :: s2).takeWhile isNumCh).reverse
          ((c :: s2).dropWhile isNumCh).head? with
      | some revCand => some revCand.reverse
      | none => none
    else none) = some ((c :: s2).takeWhile isNumCh)
  rw [if_pos hd, hrev, numBack_word a w _ (digit_isWord a hadig) hnext]
  show some (a :: w).reverse = _
  rw [← hrev, List.reverse_reverse]

theorem parseNum_good2 (s n : List Char) (hg : goodNums s = true)
    (h : parseNum s = some n) : goodNum n = true := by
  cases s with
  | nil => cases h
  | cons c s2 =>
    by_cases hd : isDigitCh c = true
    · rw [parseNum_run c s2 hd hg] at h
      injection h with h2
      rw [← h2]
      exact (run_good (c :: s2) hg c s2 rfl hd).1
    · exfalso
      revert h
      show (if isDigitCh c then
          match numBack ((c :: s2).takeWhile isNumCh).reverse
              ((c :: s2).dropWhile isNumCh).head? with
          | some revCand => some revCand.reverse
          | none => none
        else none) = some n → False
      rw [if_neg hd]
      intro hc
      cases hc

theorem dropLit_sfx (w : List Char) : ∀ (s r : List Char), dropLit w s = some r → r <:+ s := by
  induction w with
  | nil =>
    intro s r h
    cases h
    exact List.suffix_refl _
  | cons c cs ih =>
    intro s r h
    cases s with
    | nil => cases h
    | cons d ds =>
      revert h
      show (if asciiLower d = c then dropLit cs ds else none) = some r → _
      intro h
      split at h
      · exact (ih ds r h).trans (List.suffix_cons d ds)
      · cases h

theorem dropLabel_sfx (lab : List (List Char)) :
    ∀ (s r : List Char), dropLabel lab s = some r → r <:+ s := by
  induction lab with
  | nil =>
    intro s r h
    cases h
    exact List.suffix_refl _
  | cons wd wds ih =>
    intro s r h
    cases wds with
    | nil => exact dropLit_sfx wd s r h
    | cons wd2 wds2 =>
      cases hdl : dropLit wd s with
      | none =>
        rw [dropLabel_cons2_none wd wd2 wds2 s hdl] at h
        cases h
      | some r1 =>
        rw [dropLabel_cons2_some wd wd2 wds2 s r1 hdl] at h
        exact ((ih _ r h).trans (List.dropWhile_suffix _)).trans (dropLit_sfx wd s r1 hdl)

theorem dropSep_eq_nil (s : List Char) (h : skipWs s = []) : dropSep s = [] := by
  unfold dropSep
  rw [h]

theorem dropSep_eq_cons (s : List Char) (c : Char) (rest : List Char)
    (h : skipWs s = c :: rest) :
    dropSep s = if c = ':' || c = '=' then skipWs rest else c :: rest := by
  unfold dropSep
  rw [h]

theorem dropSep_sfx (s : List Char) : dropSep s <:+ s := by
  cases hs1 : skipWs s with
  | nil =>
    rw [dropSep_eq_nil s hs1]
    exact List.nil_suffix
  | cons c rest =>
    rw [dropSep_eq_cons s c rest hs1]
    have h1 : (c :: rest) <:+ s := hs1 ▸ List.dropWhile_suffix _
    by_cases hc : (c = ':' || c = '=') = true
    · rw [if_pos hc]
      exact (List.dropWhile_suffix _).trans ((List.suffix_cons c rest).trans h1)
    · rw [if_neg hc]
      exact h1

theorem tryLabels_cons_eq (lab : List (List Char)) (more : List (List (List Char)))
    (s : List Char) :
    tryLabels (lab :: more) s =
      match dropLabel lab s with
      | some r =>
        if bdryAfterWord r then
          match parseNum (dropSep r) with
          | some num => some num
          | none => tryLabels more s
        else tryLabels more s
      | none => tryLabels more s := rfl

theorem tryLabels_cons_some (lab : List (List Char)) (more : List (List (List Char)))
    (s r : List Char) (hdl : dropLabel lab s = some r) :
    tryLabels (lab :: more) s =
      if bdryAfterWord r then
        match parseNum (dropSep r) with
        | some num => some num
        | none => tryLabels more s
      else tryLabels more s := by
  rw [tryLabels_cons_eq, hdl]

theorem tryLabels_cons_none (lab : List (List Char)) (more : List (List (List Char)))
    (s : List Char) (hdl : dropLabel lab s = none) :
    tryLabels (lab :: more) s = tryLabels more s := by
  rw [tryLabels_cons_eq, hdl]

theorem tryLabels_good (labs : List (List (List Char))) (s n : List Char)
    (hg : goodNums s = true) (h : tryLabels labs s = some n) : goodNum n = true := by
  induction labs with
  | nil => cases h
  | cons lab more ih =>
    cases hdl : dropLabel lab s with
    | none =>
      rw [tryLabels_cons_none lab more s hdl] at h
      exact ih h
    | some r =>
      rw [tryLabels_cons_some lab more s r hdl] at h
      by_cases hb : bdryAfterWord r = true
      · rw [if_pos hb] at h
        cases hp : parseNum (dropSep r) with
        | none =>
          rw [hp] at h
          exact ih (by simpa using h)
        | some num =>
          rw [hp] at h
          have h2 : num = n := by simpa using h
          rw [← h2]
          have hgr : goodNums (dropSep r) = true :=
            goodNums_suffix _ _ ((dropSep_sfx r).trans (dropLabel_sfx lab s r hdl)) hg
          exact parseNum_good2 _ num hgr hp
      · rw [if_neg hb] at h
        exact ih h

theorem goodNum_parts (n : List Char) (hn : goodNum n = true) :
    ∃ n0 n', n = n0 :: n' ∧ isDigitCh n0 = true ∧ n.all isNumCh = true ∧
      goodNums n = true := by
  unfold goodNum at hn
  simp only [Bool.and_eq_true] at hn
  obtain ⟨⟨⟨hne, hhd⟩, hall⟩, hg⟩ := hn
  cases n with
  | nil => simp at hne
  | cons n0 n' =>
    exact ⟨n0, n', rfl, by simpa [headDigit] using hhd, hall, hg⟩

theorem labelNum_value (n0 : Char) (n' : List Char) (hd0 : isDigitCh n0 = true)
    (hall : (n0 :: n').all isNumCh = true) (hg : goodNums (n0 :: n') = true) :
    (match parseNum (dropSep (':' :: ' ' :: (n0 :: n'))) with
      | some num => some num
      | none => (none : Option (List Char))) = some (n0 :: n') := by
  have hds : dropSep (':' :: ' ' :: (n0 :: n')) = (n0 :: n').dropWhile isLineWs := rfl
  have hdw : (n0 :: n').dropWhile isLineWs = n0 :: n' :=
    List.dropWhile_cons_of_neg (by simp [isLineWs, digit_not_ws n0 hd0])
  have htake : (n0 :: n').takeWhile isNumCh = n0 :: n' :=
    List.takeWhile_eq_self_iff.mpr (by simpa [List.all_eq_true] using hall)
  rw [hds, hdw, parseNum_run n0 n' hd0 hg, htake]

theorem tryLabels_entry_E (n0 : Char) (n' : List Char) (hd0 : isDigitCh n0 = true)
    (hall : (n0 :: n').all isNumCh = true) (hg : goodNums (n0 :: n') = true) :
    tryLabels entryLabels (skipWs ("E: ".data ++ (n0 :: n'))) = some (n0 :: n') := by
  show tryLabels [["entry".data], ["entry".data, "price".data], ["e".data]]
    (skipWs ("E: ".data ++ (n0 :: n'))) = some (n0 :: n')
  rw [tryLabels_cons_none ["entry".data] [["entry".data, "price".data], ["e".data]]
      (skipWs ("E: ".data ++ (n0 :: n'))) rfl,
    tryLabels_cons_none ["entry".data, "price".data] [["e".data]]
      (skipWs ("E: ".data ++ (n0 :: n'))) rfl,
    tryLabels_cons_some ["e".data] [] (skipWs ("E: ".data ++ (n0 :: n')))
      (':' :: ' ' :: (n0 :: n')) rfl,
    if_pos (show bdryAfterWord (':' :: ' ' :: (n0 :: n')) = true from rfl)]
  exact labelNum_value n0 n' hd0 hall hg

theorem tryLabels_tp_TP (n0 : Char) (n' : List Char) (hd0 : isDigitCh n0 = true)
    (hall : (n0 :: n').all isNumCh = true) (hg : goodNums (n0 :: n') = true) :
    tryLabels tpLabels (skipWs ("TP: ".data ++ (n0 :: n'))) = some (n0 :: n') := by
  show tryLabels [["tp".data], ["take".data, "profit".data]]
    (skipWs ("TP: ".data ++ (n0 :: n'))) = some (n0 :: n')
  rw [tryLabels_cons_some ["tp".data] [["take".data, "profit".data]]
      (skipWs ("TP: ".data ++ (n0 :: n'))) (':' :: ' ' :: (n0 :: n')) rfl,
    if_pos (show bdryAfterWord (':' :: ' ' :: (n0 :: n')) = true from rfl)]
  exact labelNum_value n0 n' hd0 hall hg

theorem tryLabels_sl_SL (n0 : Char) (n' : List Char) (hd0 : isDigitCh n0 = true)
    (hall : (n0 :: n').all isNumCh = true) (hg : goodNums (n0 :: n') = true) :
    tryLabels slLabels (skipWs ("SL: ".data ++ (n0 :: n'))) = some (n0 :: n') := by
  show tryLabels [["sl".data], ["stop".data, "loss".data], ["stop".data], ["si".data]]
    (skipWs ("SL: ".data ++ (n0 :: n'))) = some (n0 :: n')
  rw [tryLabels_cons_some ["sl".data]
      [["stop".data, "loss".data], ["stop".data], ["si".data]]
      (skipWs ("SL: ".data ++ (n0 :: n'))) (':' :: ' ' :: (n0 :: n')) rfl,
    if_pos (show bdryAfterWord (':' :: ' ' :: (n0 :: n')) = true from rfl)]
  exact labelNum_value n0 n' hd0 hall hg

theorem rewriteLine_E (n : List Char) (hn : goodNum n = true) :
    rewriteLine ("E: ".data ++ n) = "E: ".data ++ n := by
  obtain ⟨n0, n', rfl, hd0, hall, hg⟩ := goodNum_parts n hn
  have h5 : tryLabels entryLabels (skipWs ("E: ".data ++ (n0 :: n'))) = some (n0 :: n') :=
    tryLabels_entry_E n0 n' hd0 hall hg
  have hfix : dirSteps ("E: ".data ++ (n0 :: n')) = "E: ".data ++ (n0 :: n') := rfl
  show labelSteps (dirSteps ("E: ".data ++ (n0 :: n'))) = "E: ".data ++ (n0 :: n')
  rw [hfix]
  simp only [labelSteps, h5, (show tryLabels tpLabels (skipWs ("E: ".data ++ (n0 :: n'))) = none from rfl), (show tryLabels slLabels (skipWs ("E: ".data ++ (n0 :: n'))) = none from rfl)]

theorem rewriteLine_TP (n : List Char) (hn : goodNum n = true) :
    rewriteLine ("TP: ".data ++ n) = "TP: ".data ++ n := by
  obtain ⟨n0, n', rfl, hd0, hall, hg⟩ := goodNum_parts n hn
  have h6 : tryLabels tpLabels (skipWs ("TP: ".data ++ (n0 :: n'))) = some (n0 :: n') :=
    tryLabels_tp_TP n0 n' hd0 hall hg
  have hfix : dirSteps ("TP: ".data ++ (n0 :: n')) = "TP: ".data ++ (n0 :: n') := rfl
  show labelSteps (dirSteps ("TP: ".data ++ (n0 :: n'))) = "TP: ".data ++ (n0 :: n')
  rw [hfix]
  simp only [labelSteps,
    (show tryLabels entryLabels (skipWs ("TP: ".data ++ (n0 :: n'))) = none from rfl),
    h6,
    (show tryLabels slLabels (skipWs ("TP: ".data ++ (n0 :: n'))) = none from rfl)]

theorem rewriteLine_SL (n : List Char) (hn : goodNum n = true) :
    rewriteLine ("SL: ".data ++ n) = "SL: ".data ++ n := by
  obtain ⟨n0, n', rfl, hd0, hall, hg⟩ := goodNum_parts n hn
  have h7 : tryLabels slLabels (skipWs ("SL: ".data ++ (n0 :: n'))) = some (n0 :: n') :=
    tryLabels_sl_SL n0 n' hd0 hall hg
  have hfix : dirSteps ("SL: ".data ++ (n0 :: n')) = "SL: ".data ++ (n0 :: n') := rfl
  show labelSteps (dirSteps ("SL: ".data ++ (n0 :: n'))) = "SL: ".data ++ (n0 :: n')
  rw [hfix]
  simp only [labelSteps,
    (show tryLabels entryLabels (skipWs ("SL: ".data ++ (n0 :: n'))) = none from rfl),
    (show tryLabels tpLabels (skipWs ("SL: ".data ++ (n0 :: n'))) = none from rfl),
    h7]

theorem rewriteLine_dirFix (w : List Char)
    (hw : w = "Sell".data ∨ w = "Buy".data) : rewriteLine w = w := by
  rcases hw with rfl | rfl <;> decide

theorem dirSteps_cases (l : List Char) :
    dirSteps l = l ∨ dirSteps l = "Sell".data ∨ dirSteps l = "Buy".data := by
  by_cases h1 : matchDirLimitLine "sell".data l = true
  · right; left
    simp only [dirSteps, h1,
      (show matchDirLimitLine "buy".data "Sell".data = false from by decide),
      (show matchBangLine "sell".data "Sell".data = false from by decide),
      (show matchBangLine "buy".data "Sell".data = false from by decide),
      if_true, Bool.false_eq_true, if_false]
  · by_cases h2 : matchDirLimitLine "buy".data l = true
    · right; right
      simp only [dirSteps, h1, h2,
        (show matchBangLine "sell".data "Buy".data = false from by decide),
        (show matchBangLine "buy".data "Buy".data = false from by decide),
        if_true, Bool.false_eq_true, if_false]
    · by_cases h3 : matchBangLine "sell".data l = true
      · right; left
        simp only [dirSteps, h1, h2, h3,
          (show matchBangLine "buy".data "Sell".data = false from by decide),
          if_true, Bool.false_eq_true, if_false]
      · by_cases h4 : matchBangLine "buy".data l = true
        · right; right
          simp only [dirSteps, h1, h2, h3, h4, if_true, Bool.false_eq_true, if_false]
        · left
          simp only [dirSteps, h1, h2, h3, h4, Bool.false_eq_true, if_false]

theorem labelSteps_cases (l : List Char) (hg : goodNums l = true) :
    labelSteps l = l ∨
    ∃ n, goodNum n = true ∧ (labelSteps l = "E: ".data ++ n ∨
      labelSteps l = "TP: ".data ++ n ∨ labelSteps l = "SL: ".data ++ n) := by
  have hgs : goodNums (skipWs l) = true :=
    goodNums_suffix _ _ (List.dropWhile_suffix _) hg
  cases h5 : tryLabels entryLabels (skipWs l) with
  | some n =>
    right
    refine ⟨n, tryLabels_good entryLabels (skipWs l) n hgs h5, Or.inl ?_⟩
    simp only [labelSteps, h5,
      (show tryLabels tpLabels (skipWs ("E: ".data ++ n)) = none from rfl),
      (show tryLabels slLabels (skipWs ("E: ".data ++ n)) = none from rfl)]
  | none =>
    cases h6 : tryLabels tpLabels (skipWs l) with
    | some n =>
      right
      refine ⟨n, tryLabels_good tpLabels (skipWs l) n hgs h6, Or.inr (Or.inl ?_)⟩
      simp only [labelSteps, h5, h6,
        (show tryLabels slLabels (skipWs ("TP: ".data ++ n)) = none from rfl)]
    | none =>
      cases h7 : tryLabels slLabels (skipWs l) with
      | some n =>
        right
        exact ⟨n, tryLabels_good slLabels (skipWs l) n hgs h7,
          Or.inr (Or.inr (by simp only [labelSteps, h5, h6, h7]))⟩
      | none =>
        left
        simp only [labelSteps, h5, h6, h7]

theorem rewriteLine_cases (l : List Char) (hg : goodNums l = true) :
    rewriteLine l = l ∨ rewriteLine l = "Sell".data ∨ rewriteLine l = "Buy".data ∨
    ∃ n, goodNum n = true ∧ (rewriteLine l = "E: ".data ++ n ∨
      rewriteLine l = "TP: ".data ++ n ∨ rewriteLine l = "SL: ".data ++ n) := by
  have hrw : rewriteLine l = labelSteps (dirSteps l) := rfl
  rw [hrw]
  rcases dirSteps_cases l with hd | hd | hd <;> rw [hd]
  · rcases labelSteps_cases l hg with h | ⟨n, hn, h⟩
    · exact Or.inl h
    · exact Or.inr (Or.inr (Or.inr ⟨n, hn, h⟩))
  · exact Or.inr (Or.inl (by decide))
  · exact Or.inr (Or.inr (Or.inl (by decide)))

theorem rewriteLine_idem (l : List Char) (hg : goodNums l = true) :
    rewriteLine (rewriteLine l) = rewriteLine l := by
  rcases rewriteLine_cases l hg with h | h | h | ⟨n, hn, h | h | h⟩ <;> rw [h]
  · rw [h]
  · exact rewriteLine_dirFix _ (Or.inl rfl)
  · exact rewriteLine_dirFix _ (Or.inr rfl)
  · exact rewriteLine_E n hn
  · exact rewriteLine_TP n hn
  · exact rewriteLine_SL n hn

theorem goodNums_head_single (c d : Char) (rest2 : List Char)
    (hg : goodNums (c :: d :: rest2) = true) (hd : isDigitCh d = false) :
    goodNums [c] = true := by
  show (!(decide (c = '.') || decide (c = ','))) = true
  simp only [Bool.not_eq_true', Bool.or_eq_false_iff, decide_eq_false_iff_not]
  constructor
  · intro hc
    rw [goodNums_dot c d rest2 hg (Or.inl hc)] at hd
    cases hd
  · intro hc
    rw [goodNums_dot c d rest2 hg (Or.inr hc)] at hd
    cases hd

theorem goodNums_splitNl (s : List Char) (hg : goodNums s = true) :
    ∀ l ∈ splitNl s, goodNums l = true := by
  induction s with
  | nil =>
    intro l hl
    rw [show splitNl [] = [[]] from rfl] at hl
    simp at hl
    rw [hl]
    rfl
  | cons c rest ih =>
    intro l hl
    by_cases hc : c = '\n'
    · subst hc
      rw [splitNl_cons_nl] at hl
      rcases List.mem_cons.mp hl with rfl | hl2
      · rfl
      · exact ih (goodNums_tail _ _ hg) l hl2
    · rw [splitNl_cons_ch c rest hc] at hl
      cases rest with
      | nil =>
        rw [show splitNl [] = [[]] from rfl] at hl
        simp at hl
        rw [hl]
        exact hg
      | cons d rest2 =>
        by_cases hdnl : d = '\n'
        · subst hdnl
          rw [splitNl_cons_nl] at hl
          rcases List.mem_cons.mp hl with rfl | hl2
          · exact goodNums_head_single c '\n' rest2 hg (by decide)
          · exact ih (goodNums_tail _ _ hg) l (List.mem_cons_of_mem _ hl2)
        · rw [splitNl_cons_ch d rest2 hdnl] at hl
          cases hsp : splitNl rest2 with
          | nil => exact absurd hsp (splitNl_ne_nil rest2)
          | cons l1p lsp =>
            rw [hsp] at hl
            rcases List.mem_cons.mp hl with rfl | hl2
            · have htail : goodNums (d :: l1p) = true := by
                have hmem : (d :: l1p) ∈ splitNl (d :: rest2) := by
                  rw [splitNl_cons_ch d rest2 hdnl, hsp]
                  exact List.mem_cons_self _ _
                exact ih (goodNums_tail _ _ hg) _ hmem
              rw [goodNums_cons2] at hg ⊢
              rcases Bool.and_eq_true_iff.mp hg with ⟨hcl, _⟩
              rw [hcl, htail]
              rfl
            · have hmem : l ∈ splitNl (d :: rest2) := by
                rw [splitNl_cons_ch d rest2 hdnl, hsp]
                exact List.mem_cons_of_mem _ hl2
              exact ih (goodNums_tail _ _ hg) l hmem

theorem goodNum_mem_num (n : List Char) (hn : goodNum n = true) (c : Char)
    (hc : c ∈ n) : isNumCh c = true := by
  unfold goodNum at hn
  simp only [Bool.and_eq_true] at hn
  exact List.all_eq_true.mp hn.1.2 c hc

theorem rewriteLine_excl (l : List Char) (hg : goodNums l = true) (ch : Char)
    (hch : isNumCh ch = false)
    (hS : ch ∉ "Sell".data) (hB : ch ∉ "Buy".data) (hE : ch ∉ "E: ".data)
    (hT : ch ∉ "TP: ".data) (hL : ch ∉ "SL: ".data)
    (hl : ch ∉ l) : ch ∉ rewriteLine l := by
  rcases rewriteLine_cases l hg with h | h | h | ⟨n, hn, h | h | h⟩ <;> rw [h]
  · exact hl
  · exact hS
  · exact hB
  all_goals
    intro hmem
    rcases List.mem_append.mp hmem with hm | hm
  · exact hE hm
  · rw [goodNum_mem_num n hn ch hm] at hch; cases hch
  · exact hT hm
  · rw [goodNum_mem_num n hn ch hm] at hch; cases hch
  · exact hL hm
  · rw [goodNum_mem_num n hn ch hm] at hch; cases hch

theorem joinNl_mem (ls : List (List Char)) (c : Char) (hc : c ∈ joinNl ls) :
    c = '\n' ∨ ∃ l ∈ ls, c ∈ l := by
  induction ls with
  | nil => cases hc
  | cons l rest ih =>
    cases rest with
    | nil => exact Or.inr ⟨l, List.mem_cons_self _ _, hc⟩
    | cons l2 rest2 =>
      have hj : joinNl (l :: l2 :: rest2) = l ++ '\n' :: joinNl (l2 :: rest2) := rfl
      rw [hj] at hc
      rcases List.mem_append.mp hc with hm | hm
      · exact Or.inr ⟨l, List.mem_cons_self _ _, hm⟩
      · rcases List.mem_cons.mp hm with rfl | hm2
        · exact Or.inl rfl
        · rcases ih hm2 with h | ⟨l3, hl3, hcl3⟩
          · exact Or.inl h
          · exact Or.inr ⟨l3, List.mem_cons_of_mem _ hl3, hcl3⟩

theorem atScan_skip (c : Char) (rest : List Char) (hc : ¬ c = '@') :
    atScan (c :: rest) = atScan rest := by
  show (if c = '@' then _ else atScan rest) = atScan rest
  rw [if_neg hc]

theorem atScan_none (s : List Char) (hs : '@' ∉ s) : atScan s = none := by
  induction s with
  | nil => rfl
  | cons c rest ih =>
    have hc : ¬ c = '@' := fun h => hs (by rw [h]; exact List.mem_cons_self _ _)
    rw [atScan_skip c rest hc]
    exact ih (fun hm => hs (List.mem_cons_of_mem _ hm))

theorem pairAt_slash (prev : Option Char) (s : List Char) (a b : List Char)
    (h : pairAt prev s = some (a, b)) : '/' ∈ s := by
  unfold pairAt at h
  split at h
  · split at h
    · rename_i a1 b1 c1 rest
      split at h
      · split at h
        · rename_i rest2 heq
          have : '/' ∈ a1 :: b1 :: c1 :: rest := by
            have h1 : '/' ∈ List.dropWhile isPyWs rest := by rw [heq]; exact List.mem_cons_self _ _
            have h2 : '/' ∈ rest := (List.dropWhile_sublist _).subset h1
            simp [h2]
          exact this
        · cases h
      · cases h
    · cases h
  · cases h

theorem pairScan_none (s : List Char) (hs : '/' ∉ s) : ∀ prev, pairScan prev s = none := by
  induction s with
  | nil => intro prev; rfl
  | cons c rest ih =>
    intro prev
    show ((pairAt prev (c :: rest)).orElse (fun _ => pairScan (some c) rest)) = none
    cases hpa : pairAt prev (c :: rest) with
    | some ab =>
      exfalso
      exact hs (pairAt_slash prev (c :: rest) ab.1 ab.2 (by rw [hpa]))
    | none =>
      show ((none : Option (List Char × List Char)).orElse
        (fun _ => pairScan (some c) rest)) = none
      show pairScan (some c) rest = none
      exact ih (fun hm => hs (List.mem_cons_of_mem _ hm)) (some c)

theorem strict_good (lab l nn : List Char) (hg : goodNums l = true)
    (h : strictLineCapture lab l = some nn) : goodNum nn = true := by
  unfold strictLineCapture at h
  split at h
  · rename_i r hdl
    split at h
    · rename_i r2 hsw
      dsimp only at h
      split at h
      · rename_i c r4 hr3
        split at h
        · rename_i hdig
          split at h
          · injection h with h2
            have hsfx : skipWs r2 <:+ l := by
              refine ((List.dropWhile_suffix _).trans ?_)
              refine (List.suffix_cons ':' r2).trans ?_
              rw [← hsw]
              exact ((List.dropWhile_suffix _).trans (dropLit_sfx lab _ r hdl)).trans
                (List.dropWhile_suffix _)
            have hg3 : goodNums (skipWs r2) = true := goodNums_suffix _ _ hsfx hg
            rw [← h2]
            exact (run_good (skipWs r2) hg3 c r4 hr3 hdig).1
          · cases h
        · cases h
      · cases h
    · cases h
  · cases h

theorem canonNum_facts (n0 : Char) (n' : List Char) (hd0 : isDigitCh n0 = true)
    (hall : (n0 :: n').all isNumCh = true) :
    skipWs (' ' :: (n0 :: n')) = n0 :: n' ∧
      (n0 :: n').takeWhile isNumCh = n0 :: n' ∧
      (n0 :: n').dropWhile isNumCh = [] := by
  have htake : (n0 :: n').takeWhile isNumCh = n0 :: n' :=
    List.takeWhile_eq_self_iff.mpr (by simpa [List.all_eq_true] using hall)
  refine ⟨?_, htake, ?_⟩
  · show List.dropWhile isLineWs (' ' :: (n0 :: n')) = n0 :: n'
    rw [List.dropWhile_cons_of_pos (by decide)]
    exact List.dropWhile_cons_of_neg (by simp [isLineWs, digit_not_ws n0 hd0])
  · rw [List.dropWhile_eq_nil_iff]
    intro x hx
    exact List.all_eq_true.mp hall x hx

theorem strictE_val (n : List Char) (hn : goodNum n = true) :
    strictLineCapture "e".data ("E: ".data ++ n) = some n := by
  obtain ⟨n0, n', rfl, hd0, hall, hg⟩ := goodNum_parts n hn
  obtain ⟨hsk, htake, hdrop⟩ := canonNum_facts n0 n' hd0 hall
  unfold strictLineCapture
  simp only [show dropLit "e".data (skipWs ("E: ".data ++ (n0 :: n')))
      = some (':' :: ' ' :: (n0 :: n')) from rfl,
    show skipWs (':' :: ' ' :: (n0 :: n')) = ':' :: (' ' :: (n0 :: n')) from rfl,
    hsk, hd0, if_true, htake, hdrop, List.all_nil]

theorem strictTP_val (n : List Char) (hn : goodNum n = true) :
    strictLineCapture "tp".data ("TP: ".data ++ n) = some n := by
  obtain ⟨n0, n', rfl, hd0, hall, hg⟩ := goodNum_parts n hn
  obtain ⟨hsk, htake, hdrop⟩ := canonNum_facts n0 n' hd0 hall
  unfold strictLineCapture
  simp only [show dropLit "tp".data (skipWs ("TP: ".data ++ (n0 :: n')))
      = some (':' :: ' ' :: (n0 :: n')) from rfl,
    show skipWs (':' :: ' ' :: (n0 :: n')) = ':' :: (' ' :: (n0 :: n')) from rfl,
    hsk, hd0, if_true, htake, hdrop, List.all_nil]

theorem strictSL_val (n : List Char) (hn : goodNum n = true) :
    strictLineCapture "sl".data ("SL: ".data ++ n) = some n := by
  obtain ⟨n0, n', rfl, hd0, hall, hg⟩ := goodNum_parts n hn
  obtain ⟨hsk, htake, hdrop⟩ := canonNum_facts n0 n' hd0 hall
  unfold strictLineCapture
  simp only [show dropLit "sl".data (skipWs ("SL: ".data ++ (n0 :: n')))
      = some (':' :: ' ' :: (n0 :: n')) from rfl,
    show skipWs (':' :: ' ' :: (n0 :: n')) = ':' :: (' ' :: (n0 :: n')) from rfl,
    hsk, hd0, if_true, htake, hdrop, List.all_nil]

theorem numCh_not_ws (c : Char) (h : isNumCh c = true) : isPyWs c = false := by
  rcases isNumCh_cases c h with hd | rfl | rfl
  · exact digit_not_ws c hd
  · decide
  · decide

theorem joinNl_head2 (l : List Char) (ls : List (List Char)) (hl : l ≠ []) :
    (joinNl (l :: ls)).head? = l.head? := by
  cases ls with
  | nil => rfl
  | cons l2 rest =>
    show (l ++ '\n' :: joinNl (l2 :: rest)).head? = l.head?
    exact List.head?_append_of_ne_nil l hl

theorem joinNl_last2 (q : List Char) (hq : q ≠ []) :
    ∀ ls : List (List Char), (joinNl (ls ++ [q])).getLast? = q.getLast? := by
  intro ls
  induction ls with
  | nil => rfl
  | cons a ls' ih =>
    have hx : ls' ++ [q] ≠ [] := by simp
    have hstep : joinNl (a :: (ls' ++ [q])) = a ++ '\n' :: joinNl (ls' ++ [q]) := by
      cases hls : ls' ++ [q] with
      | nil => exact absurd hls hx
      | cons z zs => rfl
    rw [List.cons_append, hstep,
      List.getLast?_append_of_ne_nil a (by simp),
      show ('\n' :: joinNl (ls' ++ [q])) = ['\n'] ++ joinNl (ls' ++ [q]) from rfl]
    have hjne : joinNl (ls' ++ [q]) ≠ [] := by
      intro hj
      have := ih
      rw [hj] at this
      cases hq2 : q.getLast? with
      | none =>
        rcases List.eq_nil_or_concat q with rfl | ⟨m, b, rfl⟩
        · exact hq rfl
        · rw [List.concat_eq_append, List.getLast?_append_of_ne_nil m (by simp)] at hq2
          cases hq2
      | some b =>
        rw [hq2] at this
        cases this
    rw [List.getLast?_append_of_ne_nil ['\n'] hjne]
    exact ih

theorem appendLast_shape (c : Char) :
    ∀ X : List (List Char), X ≠ [] →
      ∃ Y ln, X = Y ++ [ln] ∧ appendLast X c = Y ++ [ln ++ [c]] := by
  intro X
  induction X with
  | nil => intro h; exact absurd rfl h
  | cons l ls ih =>
    intro _
    cases ls with
    | nil => exact ⟨[], l, rfl, rfl⟩
    | cons l2 ls2 =>
      rcases ih (by simp) with ⟨Y, ln, h1, h2⟩
      refine ⟨l :: Y, ln, by rw [List.cons_append, ← h1], ?_⟩
      show l :: appendLast (l2 :: ls2) c = (l :: Y) ++ [ln ++ [c]]
      rw [h2]
      rfl

theorem rewriteLine_head_ok (l : List Char) (hg : goodNums l = true) (c : Char)
    (l2 : List Char) (hl : l = c :: l2) (hc : isPyWs c = false) :
    ∃ c2 l3, rewriteLine l = c2 :: l3 ∧ isPyWs c2 = false := by
  rcases rewriteLine_cases l hg with h | h | h | ⟨n, hn, h | h | h⟩
  · exact ⟨c, l2, by rw [h, hl], hc⟩
  · exact ⟨'S', "ell".data, by rw [h], by decide⟩
  · exact ⟨'B', "uy".data, by rw [h], by decide⟩
  · exact ⟨'E', ": ".data ++ n, by rw [h]; rfl, by decide⟩
  · exact ⟨'T', "P: ".data ++ n, by rw [h]; rfl, by decide⟩
  · exact ⟨'S', "L: ".data ++ n, by rw [h]; rfl, by decide⟩

theorem goodNum_concat (n : List Char) (hn : goodNum n = true) :
    ∃ m a, n = m ++ [a] ∧ isPyWs a = false := by
  obtain ⟨n0, n', rfl, hd0, hall, hg⟩ := goodNum_parts n hn
  rcases List.eq_nil_or_concat (n0 :: n') with hnil | ⟨m, a, hma⟩
  · cases hnil
  · refine ⟨m, a, by rw [← List.concat_eq_append, hma], ?_⟩
    have hmem : a ∈ n0 :: n' := by rw [hma]; simp
    exact numCh_not_ws a (List.all_eq_true.mp hall a hmem)

theorem rewriteLine_last_ok (l : List Char) (hg : goodNums l = true) (d : Char)
    (ln : List Char) (hl : l = ln ++ [d]) (hd : isPyWs d = false) :
    ∃ m d2, rewriteLine l = m ++ [d2] ∧ isPyWs d2 = false := by
  rcases rewriteLine_cases l hg with h | h | h | ⟨n, hn, h | h | h⟩
  · exact ⟨ln, d, by rw [h, hl], hd⟩
  · exact ⟨"Sel".data, 'l', by rw [h]; rfl, by decide⟩
  · exact ⟨"Bu".data, 'y', by rw [h]; rfl, by decide⟩
  all_goals
    obtain ⟨m, a, hma, ha⟩ := goodNum_concat n hn
  · exact ⟨"E: ".data ++ m, a, by rw [h, hma, ← List.append_assoc], ha⟩
  · exact ⟨"TP: ".data ++ m, a, by rw [h, hma, ← List.append_assoc], ha⟩
  · exact ⟨"SL: ".data ++ m, a, by rw [h, hma, ← List.append_assoc], ha⟩

theorem stripped_head (s : List Char) (h : stripL s = s) (c : Char) (rest : List Char)
    (hs : s = c :: rest) : isPyWs c = false := by
  subst hs
  cases hpc : isPyWs c
  · rfl
  · exfalso
    have hlen1 : (dropWsL (c :: rest)).length ≤ rest.length := by
      unfold dropWsL
      rw [List.dropWhile_cons_of_pos (by simp [hpc])]
      exact (List.dropWhile_sublist _).length_le
    have hlen2 : (stripL (c :: rest)).length ≤ (dropWsL (c :: rest)).length := by
      unfold stripL dropWsR
      rw [List.length_reverse]
      exact le_trans (List.Sublist.length_le (List.dropWhile_sublist _)) (by simp)
    rw [h] at hlen2
    have : rest.length + 1 ≤ rest.length := le_trans (by simpa using hlen2) hlen1
    omega

theorem stripped_last (s : List Char) (h : stripL s = s) (d : Char) (ln : List Char)
    (hs : s = ln ++ [d]) : isPyWs d = false := by
  subst hs
  cases hpd : isPyWs d
  · rfl
  · exfalso
    have hsub : List.Sublist (dropWsL (ln ++ [d])) (ln ++ [d]) := List.dropWhile_sublist _
    have hlen2 : (stripL (ln ++ [d])).length ≤ (dropWsL (ln ++ [d])).length := by
      unfold stripL dropWsR
      rw [List.length_reverse]
      exact le_trans (List.Sublist.length_le (List.dropWhile_sublist _)) (by simp)
    have hdl : dropWsL (ln ++ [d]) = ln ++ [d] := by
      refine List.Sublist.eq_of_length hsub ?_
      have h1 := hsub.length_le
      rw [h] at hlen2
      omega
    have hrev : (ln ++ [d]).reverse = d :: ln.reverse := by simp
    have hlen3 : (stripL (ln ++ [d])).length ≤ ln.length := by
      unfold stripL dropWsR
      rw [hdl, hrev, List.length_reverse,
        List.dropWhile_cons_of_pos (by simp [hpd])]
      calc (List.dropWhile isPyWs ln.reverse).length
          ≤ ln.reverse.length := (List.dropWhile_sublist _).length_le
        _ = ln.length := by simp
    rw [h] at hlen3
    simp at hlen3

theorem splitNl_subset (s : List Char) : ∀ l ∈ splitNl s, ∀ c ∈ l, c ∈ s := by
  induction s with
  | nil =>
    intro l hl c hc
    rw [show splitNl [] = [[]] from rfl] at hl
    simp at hl
    rw [hl] at hc
    cases hc
  | cons a rest ih =>
    intro l hl c hc
    by_cases ha : a = '\n'
    · subst ha
      rw [splitNl_cons_nl] at hl
      rcases List.mem_cons.mp hl with rfl | hl2
      · cases hc
      · exact List.mem_cons_of_mem _ (ih l hl2 c hc)
    · rw [splitNl_cons_ch a rest ha] at hl
      cases hsp : splitNl rest with
      | nil => exact absurd hsp (splitNl_ne_nil rest)
      | cons l1 ls1 =>
        rw [hsp] at hl
        rcases List.mem_cons.mp hl with rfl | hl2
        · rcases List.mem_cons.mp hc with rfl | hc2
          · exact List.mem_cons_self _ _
          · exact List.mem_cons_of_mem _
              (ih l1 (by rw [hsp]; exact List.mem_cons_self _ _) c hc2)
        · exact List.mem_cons_of_mem _
            (ih l (by rw [hsp]; exact List.mem_cons_of_mem _ hl2) c hc)

theorem goodNums_prefix_skip (pre : List Char)
    (hpre : ∀ c ∈ pre, ¬(c = '.' ∨ c = ',') ∧ isNumCh c = false) :
    ∀ n, goodNums (pre ++ n) = goodNums n := by
  induction pre with
  | nil => intro n; rfl
  | cons a pre' ih =>
    intro n
    have ha := hpre a (List.mem_cons_self _ _)
    rw [List.cons_append, goodNums_cons_skip a _ ha.1 ha.2]
    exact ih (fun c hc => hpre c (List.mem_cons_of_mem _ hc)) n

theorem rewriteLine_goodNums (l : List Char) (hg : goodNums l = true) :
    goodNums (rewriteLine l) = true := by
  rcases rewriteLine_cases l hg with h | h | h | ⟨n, hn, h | h | h⟩ <;> rw [h]
  · exact hg
  · decide
  · decide
  · rw [goodNums_prefix_skip "E: ".data (by decide) n]
    exact (goodNum_parts n hn).choose_spec.choose_spec.2.2.2
  · rw [goodNums_prefix_skip "TP: ".data (by decide) n]
    exact (goodNum_parts n hn).choose_spec.choose_spec.2.2.2
  · rw [goodNums_prefix_skip "SL: ".data (by decide) n]
    exact (goodNum_parts n hn).choose_spec.choose_spec.2.2.2

theorem dirScan_buy (w : List Char) :
    dirScan none ('B' :: 'u' :: 'y' :: '\n' :: w) = some true := rfl

theorem dirScan_sell (w : List Char) :
    dirScan none ('S' :: 'e' :: 'l' :: 'l' :: '\n' :: w) = some false := rfl

theorem strictE_tp_none (n : List Char) :
    strictLineCapture "tp".data ("E: ".data ++ n) = none := rfl

theorem strictE_sl_none (n : List Char) :
    strictLineCapture "sl".data ("E: ".data ++ n) = none := rfl

theorem strictTP_e_none (n : List Char) :
    strictLineCapture "e".data ("TP: ".data ++ n) = none := rfl

theorem strictTP_sl_none (n : List Char) :
    strictLineCapture "sl".data ("TP: ".data ++ n) = none := rfl

theorem strictSL_e_none (n : List Char) :
    strictLineCapture "e".data ("SL: ".data ++ n) = none := rfl

theorem eColonLine_E (n : List Char) : eColonLine ("E: ".data ++ n) = true := rfl

theorem match4_fallback {α} (dir : Option Bool) (ent tp sl : Option (List Char))
    (f : Bool → List Char → List Char → List Char → α) (t : α) :
    dir = none ∨ ent = none ∨ tp = none ∨ sl = none →
    (match dir, ent, tp, sl with
     | some b, some e, some p, some q => f b e p q
     | _, _, _, _ => t) = t := by
  intro h
  cases dir <;> cases ent <;> cases tp <;> cases sl <;>
    first
    | rfl
    | (rcases h with h | h | h | h <;> cases h)

theorem pipeline_facts (xd : List Char) (h1 : '/' ∉ xd) (h2 : '@' ∉ xd)
    (h4 : goodNums xd = true) :
    (∀ l ∈ (splitNl xd).map rewriteLine, goodNums l = true ∧ '\n' ∉ l) ∧
    '/' ∉ joinNl ((splitNl xd).map rewriteLine) ∧
    '@' ∉ joinNl ((splitNl xd).map rewriteLine) ∧
    splitNl (joinNl ((splitNl xd).map rewriteLine)) = (splitNl xd).map rewriteLine ∧
    ((splitNl xd).map rewriteLine).map rewriteLine = (splitNl xd).map rewriteLine := by
  have hline : ∀ l ∈ splitNl xd, goodNums l = true := goodNums_splitNl xd h4
  have hlsfacts : ∀ l ∈ (splitNl xd).map rewriteLine,
      goodNums l = true ∧ '\n' ∉ l ∧ '/' ∉ l ∧ '@' ∉ l := by
    intro l hl
    rcases List.mem_map.mp hl with ⟨l0, hl0, rfl⟩
    have hg0 := hline l0 hl0
    refine ⟨rewriteLine_goodNums l0 hg0, ?_, ?_, ?_⟩
    · exact rewriteLine_excl l0 hg0 '\n' (by decide) (by decide) (by decide) (by decide)
        (by decide) (by decide) (splitNl_no_newline xd l0 hl0)
    · exact rewriteLine_excl l0 hg0 '/' (by decide) (by decide) (by decide) (by decide)
        (by decide) (by decide) (fun hm => h1 (splitNl_subset xd l0 hl0 '/' hm))
    · exact rewriteLine_excl l0 hg0 '@' (by decide) (by decide) (by decide) (by decide)
        (by decide) (by decide) (fun hm => h2 (splitNl_subset xd l0 hl0 '@' hm))
  refine ⟨fun l hl => ⟨(hlsfacts l hl).1, (hlsfacts l hl).2.1⟩, ?_, ?_, ?_, ?_⟩
  · intro hm
    rcases joinNl_mem _ '/' hm with h | ⟨l, hl, hcl⟩
    · cases h
    · exact (hlsfacts l hl).2.2.1 hcl
  · intro hm
    rcases joinNl_mem _ '@' hm with h | ⟨l, hl, hcl⟩
    · cases h
    · exact (hlsfacts l hl).2.2.2 hcl
  · refine splitNl_joinNl _ ?_ ?_
    · have := splitNl_ne_nil xd
      intro hmap
      exact this (List.map_eq_nil_iff.mp hmap)
    · exact fun l hl => (hlsfacts l hl).2.1
  · have hfix : ∀ l ∈ (splitNl xd).map rewriteLine, rewriteLine l = l := by
      intro l hl
      rcases List.mem_map.mp hl with ⟨l0, hl0, rfl⟩
      exact rewriteLine_idem l0 (hline l0 hl0)
    calc ((splitNl xd).map rewriteLine).map rewriteLine
        = ((splitNl xd).map rewriteLine).map id := List.map_congr_left hfix
      _ = (splitNl xd).map rewriteLine := List.map_id _

set_option maxHeartbeats 1600000 in
theorem pipeline_strip (xd : List Char) (hne : xd ≠ []) (h3 : stripL xd = xd)
    (h4 : goodNums xd = true) :
    stripL (joinNl ((splitNl xd).map rewriteLine))
      = joinNl ((splitNl xd).map rewriteLine) := by
  have hline : ∀ l ∈ splitNl xd, goodNums l = true := goodNums_splitNl xd h4
  obtain ⟨c, rest, hcr⟩ : ∃ c rest, xd = c :: rest := by
    cases xd with
    | nil => exact absurd rfl hne
    | cons c rest => exact ⟨c, rest, rfl⟩
  have hcw : isPyWs c = false := stripped_head xd h3 c rest hcr
  have hcnl : ¬ c = '\n' := by
    intro hcc
    rw [hcc] at hcw
    cases hcw
  obtain ⟨A, d, hAd⟩ : ∃ A d, xd = A ++ [d] := by
    rcases List.eq_nil_or_concat xd with h | ⟨A, d, h⟩
    · exact absurd h hne
    · exact ⟨A, d, by rw [h, List.concat_eq_append]⟩
  have hdw : isPyWs d = false := stripped_last xd h3 d A hAd
  have hdnl : ¬ d = '\n' := by
    intro hdd
    rw [hdd] at hdw
    cases hdw
  obtain ⟨l1, L1, hsplit1⟩ : ∃ l1 L1, splitNl xd = (c :: l1) :: L1 := by
    rw [hcr, splitNl_cons_ch c rest hcnl]
    cases hsp : splitNl rest with
    | nil => exact absurd hsp (splitNl_ne_nil rest)
    | cons a as => exact ⟨a, as, rfl⟩
  obtain ⟨Y, ln, hsY, hsplit2⟩ : ∃ Y ln, splitNl A = Y ++ [ln] ∧
      splitNl xd = Y ++ [ln ++ [d]] := by
    rcases appendLast_shape d (splitNl A) (splitNl_ne_nil A) with ⟨Y, ln, hY1, hY2⟩
    exact ⟨Y, ln, hY1, by rw [hAd, splitNl_append_ch A d hdnl, hY2]⟩
  obtain ⟨c2, l3, hrw1, hc2⟩ :=
    rewriteLine_head_ok (c :: l1) (hline _ (by rw [hsplit1]; exact List.mem_cons_self _ _))
      c l1 rfl hcw
  obtain ⟨m, d2, hrw2, hd2⟩ :=
    rewriteLine_last_ok (ln ++ [d])
      (hline _ (by rw [hsplit2]; exact List.mem_append_right _ (List.mem_cons_self _ _)))
      d ln rfl hdw
  refine stripL_no_ws_edges _ ?_ ?_
  · intro ch hch
    rw [hsplit1] at hch
    rw [show ((c :: l1) :: L1).map rewriteLine
        = rewriteLine (c :: l1) :: L1.map rewriteLine from rfl] at hch
    rw [joinNl_head2 (rewriteLine (c :: l1)) (L1.map rewriteLine)
      (by rw [hrw1]; simp), hrw1] at hch
    have hcc : c2 = ch := by
      have h9 := hch
      rw [List.head?_cons] at h9
      injection h9
    rw [← hcc]
    exact hc2
  · intro ch hch
    rw [hsplit2, List.map_append] at hch
    rw [show [ln ++ [d]].map rewriteLine = [rewriteLine (ln ++ [d])] from rfl] at hch
    rw [joinNl_last2 (rewriteLine (ln ++ [d])) (by rw [hrw2]; simp)
      (Y.map rewriteLine), hrw2] at hch
    rw [List.getLast?_append_of_ne_nil m (by simp)] at hch
    have hcc : d2 = ch := by
      have h9 := hch
      rw [List.getLast?_singleton] at h9
      injection h9
    rw [← hcc]
    exact hd2

theorem goodNum_no_nl (n : List Char) (hn : goodNum n = true) : '\n' ∉ n := by
  intro hm
  have := goodNum_mem_num n hn '\n' hm
  simp [isNumCh, isDigitCh] at this

theorem goodNum_no_slash (n : List Char) (hn : goodNum n = true) : '/' ∉ n := by
  intro hm
  have := goodNum_mem_num n hn '/' hm
  simp [isNumCh, isDigitCh] at this

theorem rebuild_split (isBuy : Bool) (e p q : List Char)
    (he : goodNum e = true) (hp : goodNum p = true) (hq : goodNum q = true) :
    splitNl (joinNl [(if isBuy then "Buy".data else "Sell".data),
        "E: ".data ++ e, "TP: ".data ++ p, "SL: ".data ++ q])
      = [(if isBuy then "Buy".data else "Sell".data),
        "E: ".data ++ e, "TP: ".data ++ p, "SL: ".data ++ q] := by
  refine splitNl_joinNl _ (by simp) ?_
  intro l hl
  simp only [List.mem_cons, List.not_mem_nil, or_false] at hl
  rcases hl with rfl | rfl | rfl | rfl
  · cases isBuy <;> decide
  all_goals
    intro hm
    rcases List.mem_append.mp hm with hm2 | hm2
  · revert hm2; decide
  · exact goodNum_no_nl e he hm2
  · revert hm2; decide
  · exact goodNum_no_nl p hp hm2
  · revert hm2; decide
  · exact goodNum_no_nl q hq hm2

theorem rebuild_map (isBuy : Bool) (e p q : List Char)
    (he : goodNum e = true) (hp : goodNum p = true) (hq : goodNum q = true) :
    ([(if isBuy then "Buy".data else "Sell".data),
        "E: ".data ++ e, "TP: ".data ++ p, "SL: ".data ++ q]).map rewriteLine
      = [(if isBuy then "Buy".data else "Sell".data),
        "E: ".data ++ e, "TP: ".data ++ p, "SL: ".data ++ q] := by
  show [rewriteLine _, rewriteLine _, rewriteLine _, rewriteLine _] = _
  rw [rewriteLine_dirFix _ (by cases isBuy <;> simp),
    rewriteLine_E e he, rewriteLine_TP p hp, rewriteLine_SL q hq]

theorem rebuild_strip (isBuy : Bool) (e p q : List Char)
    (hq : goodNum q = true) :
    stripL (joinNl [(if isBuy then "Buy".data else "Sell".data),
        "E: ".data ++ e, "TP: ".data ++ p, "SL: ".data ++ q])
      = joinNl [(if isBuy then "Buy".data else "Sell".data),
        "E: ".data ++ e, "TP: ".data ++ p, "SL: ".data ++ q] := by
  obtain ⟨m0, a, hma, ha⟩ := goodNum_concat q hq
  refine stripL_no_ws_edges _ ?_ ?_
  · intro ch hch
    rw [joinNl_head2 _ _ (by cases isBuy <;> simp)] at hch
    cases isBuy
    · rw [show (if (false = true) then "Buy".data else "Sell".data)
          = "Sell".data from rfl] at hch
      have h2 : ch = 'S' := by
        have h9 := hch
        rw [show ("Sell".data).head? = some 'S' from rfl] at h9
        injection h9 with h10
        exact h10.symm
      rw [h2]
      decide
    · rw [show (if (true = true) then "Buy".data else "Sell".data)
          = "Buy".data from rfl] at hch
      have h2 : ch = 'B' := by
        have h9 := hch
        rw [show ("Buy".data).head? = some 'B' from rfl] at h9
        injection h9 with h10
        exact h10.symm
      rw [h2]
      decide
  · intro ch hch
    rw [show [(if isBuy then "Buy".data else "Sell".data),
        "E: ".data ++ e, "TP: ".data ++ p, "SL: ".data ++ q]
      = [(if isBuy then "Buy".data else "Sell".data),
        "E: ".data ++ e, "TP: ".data ++ p] ++ ["SL: ".data ++ q] from rfl,
      joinNl_last2 ("SL: ".data ++ q) (by simp) _] at hch
    rw [hma, ← List.append_assoc] at hch
    rw [List.getLast?_append_of_ne_nil _ (by simp)] at hch
    have hcc : a = ch := by
      have h9 := hch
      rw [List.getLast?_singleton] at h9
      injection h9
    rw [← hcc]
    exact ha

theorem rebuild_dir (isBuy : Bool) (e p q : List Char) :
    dirScan none (joinNl [(if isBuy then "Buy".data else "Sell".data),
        "E: ".data ++ e, "TP: ".data ++ p, "SL: ".data ++ q]) = some isBuy := by
  cases isBuy
  · rw [show joinNl [(if (false = true) then "Buy".data else "Sell".data),
        "E: ".data ++ e, "TP: ".data ++ p, "SL: ".data ++ q]
      = 'S' :: 'e' :: 'l' :: 'l' :: '\n' ::
        joinNl ["E: ".data ++ e, "TP: ".data ++ p, "SL: ".data ++ q] from rfl]
    exact dirScan_sell _
  · rw [show joinNl [(if (true = true) then "Buy".data else "Sell".data),
        "E: ".data ++ e, "TP: ".data ++ p, "SL: ".data ++ q]
      = 'B' :: 'u' :: 'y' :: '\n' ::
        joinNl ["E: ".data ++ e, "TP: ".data ++ p, "SL: ".data ++ q] from rfl]
    exact dirScan_buy _

theorem rebuild_pair (isBuy : Bool) (e p q : List Char)
    (he : goodNum e = true) (hp : goodNum p = true) (hq : goodNum q = true) :
    pairScan none (joinNl [(if isBuy then "Buy".data else "Sell".data),
        "E: ".data ++ e, "TP: ".data ++ p, "SL: ".data ++ q]) = none := by
  apply pairScan_none
  intro hm
  rcases joinNl_mem _ '/' hm with h | ⟨l, hl, hcl⟩
  · cases h
  · simp only [List.mem_cons, List.not_mem_nil, or_false] at hl
    rcases hl with rfl | rfl | rfl | rfl
    · revert hcl; cases isBuy <;> decide
    all_goals rcases List.mem_append.mp hcl with hm2 | hm2
    · revert hm2; decide
    · exact goodNum_no_slash e he hm2
    · revert hm2; decide
    · exact goodNum_no_slash p hp hm2
    · revert hm2; decide
    · exact goodNum_no_slash q hq hm2

theorem rebuild_colon (isBuy : Bool) (e p q : List Char)
    (he : goodNum e = true) (hp : goodNum p = true) (hq : goodNum q = true) :
    (splitNl (joinNl [(if isBuy then "Buy".data else "Sell".data),
        "E: ".data ++ e, "TP: ".data ++ p, "SL: ".data ++ q])).any eColonLine = true := by
  rw [rebuild_split isBuy e p q he hp hq]
  refine List.any_eq_true.mpr ⟨"E: ".data ++ e, ?_, eColonLine_E e⟩
  simp

theorem rebuild_colon2 (b : Bool) (e p q : List Char) :
    ([(if b then "Buy".data else "Sell".data), "E: ".data ++ e,
      "TP: ".data ++ p, "SL: ".data ++ q]).any eColonLine = true := by
  refine List.any_eq_true.mpr ⟨"E: ".data ++ e, ?_, eColonLine_E e⟩
  simp

/-! ## Agreement of the whole-text engine with the per-line matchers on
newline-free text -/

theorem pyWs_eq_lineWs (c : Char) (hc : ¬ c = '\n') : isPyWs c = isLineWs c := by
  unfold isLineWs
  simp [hc]

theorem no_nl_suffix {t s : List Char} (h : t <:+ s) (hc : '\n' ∉ s) : '\n' ∉ t :=
  fun hx => hc (h.subset hx)

theorem no_nl_dropWhile (p : Char → Bool) (s : List Char) (hc : '\n' ∉ s) :
    '\n' ∉ s.dropWhile p :=
  no_nl_suffix (List.dropWhile_suffix p) hc

theorem no_nl_append (a b : List Char) (ha : '\n' ∉ a) (hb : '\n' ∉ b) :
    '\n' ∉ a ++ b := by
  intro h
  rcases List.mem_append.mp h with h1 | h2
  · exact ha h1
  · exact hb h2

theorem no_nl_ite (b : Bool) (a l : List Char) (ha : '\n' ∉ a) (hl : '\n' ∉ l) :
    '\n' ∉ (if b = true then a else l) := by
  cases b
  · simpa using hl
  · simpa using ha

theorem takeWhile_mem_pred (p : Char → Bool) :
    ∀ (s : List Char) (c : Char), c ∈ s.takeWhile p → c ∈ s ∧ p c = true := by
  intro s
  induction s with
  | nil =>
    intro c h
    exact absurd h (List.not_mem_nil c)
  | cons a t ih =>
    intro c h
    rw [List.takeWhile_cons] at h
    by_cases hp : p a = true
    · rw [if_pos hp] at h
      rcases List.mem_cons.mp h with hca | h2
      · refine ⟨?_, ?_⟩
        · rw [hca]
          exact List.mem_cons_self a t
        · rw [hca]
          exact hp
      · exact ⟨List.mem_cons_of_mem a (ih c h2).1, (ih c h2).2⟩
    · rw [if_neg hp] at h
      exact absurd h (List.not_mem_nil c)

theorem dropWhile_congr_nl (s : List Char) (hc : '\n' ∉ s) :
    s.dropWhile isPyWs = s.dropWhile isLineWs := by
  induction s with
  | nil => rfl
  | cons a t ih =>
    have ha : ¬ a = '\n' := fun h => hc (h ▸ List.mem_cons_self a t)
    have ht : '\n' ∉ t := fun h => hc (List.mem_cons_of_mem a h)
    rw [List.dropWhile_cons, List.dropWhile_cons, pyWs_eq_lineWs a ha]
    cases h : isLineWs a <;> simp [h, ih ht]

theorem takeWhile_congr_nl (s : List Char) (hc : '\n' ∉ s) :
    s.takeWhile isPyWs = s.takeWhile isLineWs := by
  induction s with
  | nil => rfl
  | cons a t ih =>
    have ha : ¬ a = '\n' := fun h => hc (h ▸ List.mem_cons_self a t)
    have ht : '\n' ∉ t := fun h => hc (List.mem_cons_of_mem a h)
    rw [List.takeWhile_cons, List.takeWhile_cons, pyWs_eq_lineWs a ha]
    cases h : isLineWs a <;> simp [h, ih ht]

theorem splitLastNl_clean (r : List Char) (hc : '\n' ∉ r) : splitLastNl r = none := by
  unfold splitLastNl
  have h1 : r.reverse.dropWhile (fun c => !(c = '\n')) = [] := by
    rw [List.dropWhile_eq_nil_iff]
    intro x hx
    have hxr : x ∈ r := List.mem_reverse.mp hx
    have : ¬ x = '\n' := fun he => hc (he ▸ hxr)
    simp [this]
  rw [h1]

theorem wsDollar_clean (s : List Char) (hc : '\n' ∉ s) :
    wsDollar s = if s.all isLineWs then some [] else none := by
  have h3 : splitLastNl (s.takeWhile isPyWs) = none :=
    splitLastNl_clean _ (fun h => hc ((takeWhile_mem_pred isPyWs s '\n' h).1))
  by_cases hall : s.all isLineWs = true
  · have h1 : s.dropWhile isPyWs = [] := by
      rw [dropWhile_congr_nl s hc, List.dropWhile_eq_nil_iff]
      intro x hx
      exact List.all_eq_true.mp hall x hx
    simp only [wsDollar, h1, h3, List.isEmpty_nil, if_true, hall]
  · have h1 : (s.dropWhile isPyWs).isEmpty = false := by
      rw [dropWhile_congr_nl s hc]
      cases h2 : s.dropWhile isLineWs with
      | nil =>
        rw [List.dropWhile_eq_nil_iff] at h2
        exact absurd (List.all_eq_true.mpr h2) hall
      | cons a t => rfl
    simp only [wsDollar, h1, h3, Bool.false_eq_true, if_false, hall]

theorem dirLimitTextM_clean (w s : List Char) (hc : '\n' ∉ s) :
    dirLimitTextM w s = if matchDirLimitLine w s then some [] else none := by
  unfold dirLimitTextM matchDirLimitLine
  simp only [skipWs]
  rw [dropWhile_congr_nl s hc]
  cases hdl : dropLit w (s.dropWhile isLineWs) with
  | none => rfl
  | some r =>
    have hr : '\n' ∉ r :=
      no_nl_suffix (dropLit_sfx w _ r hdl) (no_nl_dropWhile isLineWs s hc)
    cases r with
    | nil => rfl
    | cons c r4 =>
      have hcnl : ¬ c = '\n' := fun h => hr (h ▸ List.mem_cons_self c r4)
      have hr4 : '\n' ∉ r4 := fun h => hr (List.mem_cons_of_mem c h)
      dsimp only
      rw [pyWs_eq_lineWs c hcnl]
      cases hwc : isLineWs c with
      | false => rfl
      | true =>
        rw [dropWhile_congr_nl r4 hr4]
        cases hdl2 : dropLit "limit".data (r4.dropWhile isLineWs) with
        | none => rfl
        | some r2 =>
          have hr2 : '\n' ∉ r2 :=
            no_nl_suffix (dropLit_sfx _ _ r2 hdl2) (no_nl_dropWhile isLineWs r4 hr4)
          dsimp only
          rw [wsDollar_clean r2 hr2]
          cases hall : r2.all isLineWs <;> rfl

theorem bangTextM_stuck (w s : List Char) (c : Char) (r4 : List Char)
    (hdl : dropLit w (s.dropWhile isPyWs) = some (c :: r4)) (hcb : ¬ c = '!') :
    bangTextM w s = none := by
  unfold bangTextM
  rw [hdl]
  split
  · rename_i rest heq
    injection heq with h1
    injection h1 with h2 h3
    exact absurd h2 hcb
  · rfl

theorem matchBangLine_stuck (w l : List Char) (c : Char) (r4 : List Char)
    (hdl : dropLit w (skipWs l) = some (c :: r4)) (hcb : ¬ c = '!') :
    matchBangLine w l = false := by
  unfold matchBangLine
  rw [hdl]
  split
  · rename_i rest h1
    injection h1 with h1b
    rw [← h1b]
    split
    · rename_i rest2 heq
      injection heq with h2 h3
      exact absurd h2 hcb
    · rfl
  · rfl

theorem bangTextM_clean (w s : List Char) (hc : '\n' ∉ s) :
    bangTextM w s = if matchBangLine w s then some [] else none := by
  have hskip : s.dropWhile isPyWs = skipWs s := by
    rw [skipWs]
    exact dropWhile_congr_nl s hc
  cases hdl : dropLit w (skipWs s) with
  | none =>
    unfold bangTextM matchBangLine
    rw [hskip, hdl]
    rfl
  | some r =>
    have hr : '\n' ∉ r :=
      no_nl_suffix (dropLit_sfx w _ r hdl)
        (by rw [← hskip]; exact no_nl_dropWhile isPyWs s hc)
    cases r with
    | nil =>
      unfold bangTextM matchBangLine
      rw [hskip, hdl]
      rfl
    | cons c r4 =>
      have hr4 : '\n' ∉ r4 := fun h => hr (List.mem_cons_of_mem c h)
      by_cases hcb : c = '!'
      · subst hcb
        have hdr : '\n' ∉ r4.dropWhile (fun x => x = '!') :=
          no_nl_dropWhile _ r4 hr4
        have hL : bangTextM w s = wsDollar (r4.dropWhile (fun x => x = '!')) := by
          unfold bangTextM
          rw [hskip, hdl]
          rfl
        have hR : matchBangLine w s = (r4.dropWhile (fun x => x = '!')).all isLineWs := by
          unfold matchBangLine
          rw [hdl]
          rfl
        rw [hL, hR, wsDollar_clean _ hdr]
      · rw [bangTextM_stuck w s c r4 (by rw [hskip]; exact hdl) hcb,
          matchBangLine_stuck w s c r4 hdl hcb]
        rfl

theorem dropLabelP_clean (lab : List (List Char)) : ∀ (s : List Char), '\n' ∉ s →
    dropLabelP lab s = dropLabel lab s := by
  induction lab with
  | nil =>
    intro s _
    rfl
  | cons w ws ih =>
    intro s hc
    cases ws with
    | nil => rfl
    | cons w2 ws2 =>
      cases hdl : dropLit w s with
      | none =>
        rw [dropLabel_cons2_none w w2 ws2 s hdl]
        unfold dropLabelP
        rw [hdl]
      | some r =>
        have hr : '\n' ∉ r := no_nl_suffix (dropLit_sfx w s r hdl) hc
        rw [dropLabel_cons2_some w w2 ws2 s r hdl]
        unfold dropLabelP
        rw [hdl]
        dsimp only
        rw [show skipWsP r = skipWs r from by
          unfold skipWsP skipWs
          exact dropWhile_congr_nl r hr]
        exact ih (skipWs r) (no_nl_dropWhile isLineWs r hr)

theorem dropSepP_clean (s : List Char) (hc : '\n' ∉ s) : dropSepP s = dropSep s := by
  simp only [dropSepP, dropSep, skipWsP, skipWs]
  rw [dropWhile_congr_nl s hc]
  cases h1 : s.dropWhile isLineWs with
  | nil => rfl
  | cons c rest =>
    have hrest : '\n' ∉ rest := by
      have h2 : '\n' ∉ s.dropWhile isLineWs := no_nl_dropWhile isLineWs s hc
      rw [h1] at h2
      exact fun h => h2 (List.mem_cons_of_mem c h)
    dsimp only
    by_cases hsep : (c = ':' || c = '=') = true
    · rw [if_pos hsep, if_pos hsep, dropWhile_congr_nl rest hrest]
    · rw [if_neg hsep, if_neg hsep]

theorem numBack_sfx : ∀ (rev : List Char) (nxt : Option Char) (out : List Char),
    numBack rev nxt = some out → out <:+ rev := by
  intro rev
  induction rev with
  | nil =>
    intro nxt out h
    cases h
  | cons c rest ih =>
    intro nxt out h
    unfold numBack at h
    dsimp only at h
    split at h
    · injection h with h2
      rw [← h2]
    · exact (ih (some c) out h).trans (List.suffix_cons c rest)

theorem parseNum_no_nl (s n : List Char) (h : parseNum s = some n) : '\n' ∉ n := by
  unfold parseNum at h
  cases s with
  | nil => cases h
  | cons c s2 =>
    dsimp only at h
    split at h
    · split at h
      · rename_i revCand hnb
        injection h with h2
        intro hmem
        rw [← h2] at hmem
        have h3 : '\n' ∈ revCand := List.mem_reverse.mp hmem
        have h4 := (numBack_sfx _ _ _ hnb).subset h3
        have h5 : '\n' ∈ (c :: s2).takeWhile isNumCh := List.mem_reverse.mp h4
        have h6 : isNumCh '\n' = true := (takeWhile_mem_pred isNumCh _ '\n' h5).2
        exact absurd h6 (by decide)
      · cases h
    · cases h

theorem tryLabels_no_nl (labs : List (List (List Char))) :
    ∀ (s n : List Char), tryLabels labs s = some n → '\n' ∉ n := by
  induction labs with
  | nil =>
    intro s n h
    cases h
  | cons lab more ih =>
    intro s n h
    unfold tryLabels at h
    split at h
    · rename_i r hdl
      split at h
      · split at h
        · rename_i num hp
          injection h with h2
          rw [← h2]
          exact parseNum_no_nl _ num hp
        · exact ih s n h
      · exact ih s n h
    · exact ih s n h

theorem tryLabelsText_clean (labs : List (List (List Char))) :
    ∀ (s : List Char), '\n' ∉ s →
    tryLabelsText labs s = (tryLabels labs s).map (fun n => (n, ([] : List Char))) := by
  induction labs with
  | nil =>
    intro s _
    rfl
  | cons lab more ih =>
    intro s hc
    unfold tryLabelsText tryLabels
    rw [dropLabelP_clean lab s hc]
    cases hdl : dropLabel lab s with
    | none =>
      dsimp only
      exact ih s hc
    | some r =>
      have hr : '\n' ∉ r := no_nl_suffix (dropLabel_sfx lab s r hdl) hc
      dsimp only
      cases hb : bdryAfterWord r with
      | false =>
        exact ih s hc
      | true =>
        rw [dropSepP_clean r hr]
        cases hp : parseNum (dropSep r) with
        | none =>
          dsimp only
          exact ih s hc
        | some num =>
          dsimp only
          have hrest : ((dropSep r).drop num.length).dropWhile (fun c => !(c = '\n')) = [] := by
            rw [List.dropWhile_eq_nil_iff]
            intro x hx
            have hx2 : x ∈ dropSep r := (List.drop_suffix num.length (dropSep r)).subset hx
            have hx3 : x ∈ r := (dropSep_sfx r).subset hx2
            have hxnl : ¬ x = '\n' := fun he => hr (he ▸ hx3)
            simp [hxnl]
          rw [hrest]
          rfl

theorem labelTextM_clean (labs : List (List (List Char))) (pre : List Char)
    (s : List Char) (hc : '\n' ∉ s) :
    labelTextM labs pre s
      = (tryLabels labs (skipWs s)).map (fun n => (pre ++ n, ([] : List Char))) := by
  unfold labelTextM
  rw [show s.dropWhile isPyWs = skipWs s from by
    rw [skipWs]
    exact dropWhile_congr_nl s hc]
  rw [tryLabelsText_clean labs (skipWs s) (no_nl_dropWhile isLineWs s hc)]
  rw [Option.map_map]
  rfl

theorem subLS_nil (m : List Char → Option (List Char × List Char)) :
    ∀ (fuel : Nat) (b : Bool), subLS m fuel b [] = [] := by
  intro fuel b
  cases fuel <;> rfl

theorem subLS_noLS (m : List Char → Option (List Char × List Char)) :
    ∀ (fuel : Nat) (s : List Char), '\n' ∉ s → subLS m fuel false s = s := by
  intro fuel
  induction fuel with
  | zero =>
    intro s _
    rfl
  | succ f ih =>
    intro s hc
    cases s with
    | nil => rfl
    | cons c rest =>
      have hcnl : ¬ c = '\n' := fun h => hc (h ▸ List.mem_cons_self c rest)
      have hrest : '\n' ∉ rest := fun h => hc (List.mem_cons_of_mem c h)
      unfold subLS
      dsimp only
      rw [show (decide (c = '\n')) = false from by simp [hcnl]]
      rw [ih rest hrest, if_neg (by decide)]

theorem subText_clean_none (m : List Char → Option (List Char × List Char))
    (s : List Char) (hc : '\n' ∉ s) (hm : m s = none) : subText m s = s := by
  cases s with
  | nil => rfl
  | cons c rest =>
    have hcnl : ¬ c = '\n' := fun h => hc (h ▸ List.mem_cons_self c rest)
    have hrest : '\n' ∉ rest := fun h => hc (List.mem_cons_of_mem c h)
    show subLS m (Nat.succ (rest.length + 1)) true (c :: rest) = c :: rest
    unfold subLS
    dsimp only
    rw [hm]
    dsimp only
    rw [show (decide (c = '\n')) = false from by simp [hcnl]]
    rw [subLS_noLS m (rest.length + 1) rest hrest, if_pos rfl]

theorem subText_m_all (m : List Char → Option (List Char × List Char))
    (s rep : List Char) (hne : s ≠ []) (hm : m s = some (rep, [])) :
    subText m s = rep := by
  cases s with
  | nil => exact absurd rfl hne
  | cons c rest =>
    show subLS m (Nat.succ (rest.length + 1)) true (c :: rest) = rep
    unfold subLS
    dsimp only
    rw [hm]
    dsimp only
    rw [subLS_nil m (rest.length + 1), List.append_nil, if_pos rfl]

theorem matchDirLimitLine_nil (w : List Char) (hw : w ≠ []) :
    matchDirLimitLine w [] = false := by
  cases w with
  | nil => exact absurd rfl hw
  | cons a as => rfl

theorem matchBangLine_nil (w : List Char) (hw : w ≠ []) :
    matchBangLine w [] = false := by
  cases w with
  | nil => exact absurd rfl hw
  | cons a as => rfl

theorem subText_dir_clean (w rep : List Char) (hw : w ≠ []) (l : List Char)
    (hc : '\n' ∉ l) :
    subText (dirRule w rep) l = if matchDirLimitLine w l then rep else l := by
  cases hm : matchDirLimitLine w l with
  | false =>
    have h1 : dirRule w rep l = none := by
      unfold dirRule
      rw [dirLimitTextM_clean w l hc, hm]
      rfl
    rw [subText_clean_none (dirRule w rep) l hc h1]
    rfl
  | true =>
    have hlne : l ≠ [] := by
      intro h
      rw [h, matchDirLimitLine_nil w hw] at hm
      cases hm
    have h1 : dirRule w rep l = some (rep, []) := by
      unfold dirRule
      rw [dirLimitTextM_clean w l hc, hm]
      rfl
    rw [subText_m_all (dirRule w rep) l rep hlne h1]
    rfl

theorem subText_bang_clean (w rep : List Char) (hw : w ≠ []) (l : List Char)
    (hc : '\n' ∉ l) :
    subText (bangRule w rep) l = if matchBangLine w l then rep else l := by
  cases hm : matchBangLine w l with
  | false =>
    have h1 : bangRule w rep l = none := by
      unfold bangRule
      rw [bangTextM_clean w l hc, hm]
      rfl
    rw [subText_clean_none (bangRule w rep) l hc h1]
    rfl
  | true =>
    have hlne : l ≠ [] := by
      intro h
      rw [h, matchBangLine_nil w hw] at hm
      cases hm
    have h1 : bangRule w rep l = some (rep, []) := by
      unfold bangRule
      rw [bangTextM_clean w l hc, hm]
      rfl
    rw [subText_m_all (bangRule w rep) l rep hlne h1]
    rfl

theorem searchLS_noLS (m : List Char → Option (List Char)) :
    ∀ (fuel : Nat) (s : List Char), '\n' ∉ s → searchLS m fuel false s = none := by
  intro fuel
  induction fuel with
  | zero =>
    intro s _
    rfl
  | succ f ih =>
    intro s hc
    cases s with
    | nil => rfl
    | cons c rest =>
      have hcnl : ¬ c = '\n' := fun h => hc (h ▸ List.mem_cons_self c rest)
      have hrest : '\n' ∉ rest := fun h => hc (List.mem_cons_of_mem c h)
      unfold searchLS
      dsimp only
      rw [if_neg (by decide)]
      dsimp only
      rw [show (decide (c = '\n')) = false from by simp [hcnl]]
      exact ih rest hrest

theorem searchText_nil (m : List Char → Option (List Char)) :
    searchText m [] = none := rfl

theorem searchText_clean (m : List Char → Option (List Char)) (s : List Char)
    (hc : '\n' ∉ s) (hne : s ≠ []) : searchText m s = m s := by
  cases s with
  | nil => exact absurd rfl hne
  | cons c rest =>
    have hcnl : ¬ c = '\n' := fun h => hc (h ▸ List.mem_cons_self c rest)
    have hrest : '\n' ∉ rest := fun h => hc (List.mem_cons_of_mem c h)
    show searchLS m (Nat.succ (rest.length + 1)) true (c :: rest) = m (c :: rest)
    unfold searchLS
    dsimp only
    rw [if_pos rfl]
    cases hm : m (c :: rest) with
    | some cap => rfl
    | none =>
      dsimp only
      rw [show (decide (c = '\n')) = false from by simp [hcnl]]
      exact searchLS_noLS m (rest.length + 1) rest hrest

theorem strictCapText_nocolon (lab t : List Char) (d : Char) (r2 r : List Char)
    (hdl : dropLit lab (t.dropWhile isPyWs) = some r)
    (hsw : r.dropWhile isPyWs = d :: r2) (hd : ¬ d = ':') :
    strictCapText lab t = none := by
  unfold strictCapText
  rw [hdl]
  dsimp only
  rw [hsw]
  split
  · rename_i r2x heq
    injection heq with h1 h2
    exact absurd h1 hd
  · rfl

theorem strictLineCapture_nocolon (lab l : List Char) (d : Char) (r2 r : List Char)
    (hdl : dropLit lab (skipWs l) = some r)
    (hsw : skipWs r = d :: r2) (hd : ¬ d = ':') :
    strictLineCapture lab l = none := by
  unfold strictLineCapture
  rw [hdl]
  dsimp only
  rw [hsw]
  split
  · rename_i r2x heq
    injection heq with h1 h2
    exact absurd h1 hd
  · rfl

theorem strictCapText_colon (lab t r r2 : List Char)
    (hdl : dropLit lab (t.dropWhile isPyWs) = some r)
    (hsw : r.dropWhile isPyWs = ':' :: r2) :
    strictCapText lab t =
      match r2.dropWhile isPyWs with
      | c :: r3x =>
        if isDigitCh c then
          match wsDollar ((c :: r3x).dropWhile isNumCh) with
          | some _ => some ((c :: r3x).takeWhile isNumCh)
          | none => none
        else none
      | [] => none := by
  unfold strictCapText
  rw [hdl]
  dsimp only
  rw [hsw]
  rfl

theorem strictLineCapture_colon (lab l r r2 : List Char)
    (hdl : dropLit lab (skipWs l) = some r)
    (hsw : skipWs r = ':' :: r2) :
    strictLineCapture lab l =
      match skipWs r2 with
      | c :: r3x =>
        if isDigitCh c then
          if ((skipWs r2).dropWhile isNumCh).all isLineWs then
            some ((skipWs r2).takeWhile isNumCh)
          else none
        else none
      | [] => none := by
  unfold strictLineCapture
  rw [hdl]
  dsimp only
  rw [hsw]
  rfl

theorem strictCapText_clean (lab t : List Char) (hc : '\n' ∉ t) :
    strictCapText lab t = strictLineCapture lab t := by
  have hskip : t.dropWhile isPyWs = skipWs t := by
    rw [skipWs]
    exact dropWhile_congr_nl t hc
  cases hdl : dropLit lab (skipWs t) with
  | none =>
    unfold strictCapText strictLineCapture
    rw [hskip, hdl]
  | some r =>
    have hr : '\n' ∉ r :=
      no_nl_suffix (dropLit_sfx lab _ r hdl) (no_nl_dropWhile isLineWs t hc)
    have hskr : r.dropWhile isPyWs = skipWs r := by
      rw [skipWs]
      exact dropWhile_congr_nl r hr
    cases hsw : skipWs r with
    | nil =>
      unfold strictCapText strictLineCapture
      rw [hskip, hdl]
      dsimp only
      rw [hskr, hsw]
    | cons d r2 =>
      have hdr2 : '\n' ∉ d :: r2 := by
        rw [← hsw]
        exact no_nl_dropWhile isLineWs r hr
      have hr2 : '\n' ∉ r2 := fun h => hdr2 (List.mem_cons_of_mem d h)
      by_cases hd : d = ':'
      · subst hd
        have hskr2 : r2.dropWhile isPyWs = skipWs r2 := by
          rw [skipWs]
          exact dropWhile_congr_nl r2 hr2
        rw [strictCapText_colon lab t r r2 (by rw [hskip]; exact hdl)
          (by rw [hskr]; exact hsw)]
        rw [strictLineCapture_colon lab t r r2 hdl hsw]
        rw [hskr2]
        cases hr3 : skipWs r2 with
        | nil => rfl
        | cons e r3x =>
          have hr3c : '\n' ∉ e :: r3x := by
            rw [← hr3]
            exact no_nl_dropWhile isLineWs r2 hr2
          dsimp only
          cases hde : isDigitCh e with
          | false => rfl
          | true =>
            have hcl : '\n' ∉ (e :: r3x).dropWhile isNumCh :=
              no_nl_dropWhile isNumCh _ hr3c
            rw [wsDollar_clean _ hcl]
            cases hall : ((e :: r3x).dropWhile isNumCh).all isLineWs <;> rfl
      · rw [strictCapText_nocolon lab t d r2 r (by rw [hskip]; exact hdl)
          (by rw [hskr]; exact hsw) hd]
        rw [strictLineCapture_nocolon lab t d r2 r hdl hsw hd]

theorem eColonM_clean (t : List Char) (hc : '\n' ∉ t) :
    eColonM t = if eColonLine t then some [] else none := by
  have hskip : t.dropWhile isPyWs = skipWs t := by
    rw [skipWs]
    exact dropWhile_congr_nl t hc
  unfold eColonM eColonLine
  rw [hskip]
  cases hdl : dropLit "e".data (skipWs t) with
  | none => rfl
  | some r =>
    have hr : '\n' ∉ r :=
      no_nl_suffix (dropLit_sfx _ _ r hdl) (no_nl_dropWhile isLineWs t hc)
    have hskr : r.dropWhile isPyWs = skipWs r := by
      rw [skipWs]
      exact dropWhile_congr_nl r hr
    dsimp only
    rw [hskr]
    by_cases hh : (skipWs r).head? = some ':'
    · simp [hh]
    · simp [hh]

theorem dropLit_head (w0 : Char) (w' : List Char) (s r : List Char)
    (h : dropLit (w0 :: w') s = some r) :
    ∃ c s2, s = c :: s2 ∧ asciiLower c = w0 := by
  cases s with
  | nil => cases h
  | cons c s2 =>
    unfold dropLit at h
    by_cases hcl : asciiLower c = w0
    · exact ⟨c, s2, rfl, hcl⟩
    · rw [if_neg hcl] at h
      cases h

theorem strict_e_tp_excl (l a b : List Char)
    (ha : strictLineCapture "e".data l = some a)
    (hb : strictLineCapture "tp".data l = some b) : False := by
  unfold strictLineCapture at ha hb
  split at ha
  · rename_i r hdle
    split at hb
    · rename_i r2 hdlt
      obtain ⟨c, s1, hs1, hce⟩ := dropLit_head 'e' [] (skipWs l) r hdle
      obtain ⟨c2, s2x, hs2, hct⟩ := dropLit_head 't' ['p'] (skipWs l) r2 hdlt
      rw [hs1] at hs2
      injection hs2 with h1 h2
      rw [← h1] at hct
      rw [hce] at hct
      exact absurd hct (by decide)
    · exact Option.noConfusion hb
  · exact Option.noConfusion ha

theorem labelStep_sub (labs : List (List (List Char))) (pre u : List Char)
    (hcu : '\n' ∉ u) (hnil : tryLabels labs [] = none) :
    subText (labelTextM labs pre) u =
      match tryLabels labs (skipWs u) with
      | some n => pre ++ n
      | none => u := by
  cases htl : tryLabels labs (skipWs u) with
  | none =>
    have h1 : labelTextM labs pre u = none := by
      rw [labelTextM_clean labs pre u hcu, htl]
      rfl
    rw [subText_clean_none _ u hcu h1]
  | some n =>
    have hune : u ≠ [] := by
      intro h
      rw [h, show skipWs ([] : List Char) = [] from rfl, hnil] at htl
      exact Option.noConfusion htl
    have h1 : labelTextM labs pre u = some (pre ++ n, []) := by
      rw [labelTextM_clean labs pre u hcu, htl]
      rfl
    exact subText_m_all _ u (pre ++ n) hune h1

theorem labelChain_clean (u : List Char) (hcu : '\n' ∉ u) :
    subText (labelTextM slLabels "SL: ".data)
      (subText (labelTextM tpLabels "TP: ".data)
        (subText (labelTextM entryLabels "E: ".data) u)) = labelSteps u := by
  unfold labelSteps
  dsimp only
  rw [labelStep_sub entryLabels "E: ".data u hcu rfl]
  cases he : tryLabels entryLabels (skipWs u) with
  | none =>
    dsimp only
    rw [labelStep_sub tpLabels "TP: ".data u hcu rfl]
    cases htp : tryLabels tpLabels (skipWs u) with
    | none =>
      dsimp only
      rw [labelStep_sub slLabels "SL: ".data u hcu rfl]
    | some n2 =>
      dsimp only
      have hc2 : '\n' ∉ "TP: ".data ++ n2 :=
        no_nl_append _ _ (by decide) (tryLabels_no_nl tpLabels (skipWs u) n2 htp)
      rw [labelStep_sub slLabels "SL: ".data ("TP: ".data ++ n2) hc2 rfl]
  | some n1 =>
    dsimp only
    have hc1 : '\n' ∉ "E: ".data ++ n1 :=
      no_nl_append _ _ (by decide) (tryLabels_no_nl entryLabels (skipWs u) n1 he)
    rw [labelStep_sub tpLabels "TP: ".data ("E: ".data ++ n1) hc1 rfl]
    cases htp : tryLabels tpLabels (skipWs ("E: ".data ++ n1)) with
    | none =>
      dsimp only
      rw [labelStep_sub slLabels "SL: ".data ("E: ".data ++ n1) hc1 rfl]
    | some n2 =>
      dsimp only
      have hc2 : '\n' ∉ "TP: ".data ++ n2 :=
        no_nl_append _ _ (by decide)
          (tryLabels_no_nl tpLabels (skipWs ("E: ".data ++ n1)) n2 htp)
      rw [labelStep_sub slLabels "SL: ".data ("TP: ".data ++ n2) hc2 rfl]

theorem subChain_clean (l : List Char) (hc : '\n' ∉ l) :
    subText (labelTextM slLabels "SL: ".data)
      (subText (labelTextM tpLabels "TP: ".data)
        (subText (labelTextM entryLabels "E: ".data)
          (subText (bangRule "buy".data "Buy".data)
            (subText (bangRule "sell".data "Sell".data)
              (subText (dirRule "buy".data "Buy".data)
                (subText (dirRule "sell".data "Sell".data) l)))))) = rewriteLine l := by
  rw [subText_dir_clean "sell".data "Sell".data (by decide) l hc]
  have hc1 : '\n' ∉ (if matchDirLimitLine "sell".data l then "Sell".data else l) :=
    no_nl_ite _ _ _ (by decide) hc
  rw [subText_dir_clean "buy".data "Buy".data (by decide) (if matchDirLimitLine "sell".data l then "Sell".data else l) hc1]
  have hc2 : '\n' ∉ (if matchDirLimitLine "buy".data (if matchDirLimitLine "sell".data l then "Sell".data else l) then "Buy".data else (if matchDirLimitLine "sell".data l then "Sell".data else l)) :=
    no_nl_ite _ _ _ (by decide) hc1
  rw [subText_bang_clean "sell".data "Sell".data (by decide) (if matchDirLimitLine "buy".data (if matchDirLimitLine "sell".data l then "Sell".data else l) then "Buy".data else (if matchDirLimitLine "sell".data l then "Sell".data else l)) hc2]
  have hc3 : '\n' ∉ (if matchBangLine "sell".data (if matchDirLimitLine "buy".data (if matchDirLimitLine "sell".data l then "Sell".data else l) then "Buy".data else (if matchDirLimitLine "sell".data l then "Sell".data else l)) then "Sell".data else (if matchDirLimitLine "buy".data (if matchDirLimitLine "sell".data l then "Sell".data else l) then "Buy".data else (if matchDirLimitLine "sell".data l then "Sell".data else l))) :=
    no_nl_ite _ _ _ (by decide) hc2
  rw [subText_bang_clean "buy".data "Buy".data (by decide) (if matchBangLine "sell".data (if matchDirLimitLine "buy".data (if matchDirLimitLine "sell".data l then "Sell".data else l) then "Buy".data else (if matchDirLimitLine "sell".data l then "Sell".data else l)) then "Sell".data else (if matchDirLimitLine "buy".data (if matchDirLimitLine "sell".data l then "Sell".data else l) then "Buy".data else (if matchDirLimitLine "sell".data l then "Sell".data else l))) hc3]
  have hc4 : '\n' ∉ (if matchBangLine "buy".data (if matchBangLine "sell".data (if matchDirLimitLine "buy".data (if matchDirLimitLine "sell".data l then "Sell".data else l) then "Buy".data else (if matchDirLimitLine "sell".data l then "Sell".data else l)) then "Sell".data else (if matchDirLimitLine "buy".data (if matchDirLimitLine "sell".data l then "Sell".data else l) then "Buy".data else (if matchDirLimitLine "sell".data l then "Sell".data else l))) then "Buy".data else (if matchBangLine "sell".data (if matchDirLimitLine "buy".data (if matchDirLimitLine "sell".data l then "Sell".data else l) then "Buy".data else (if matchDirLimitLine "sell".data l then "Sell".data else l)) then "Sell".data else (if matchDirLimitLine "buy".data (if matchDirLimitLine "sell".data l then "Sell".data else l) then "Buy".data else (if matchDirLimitLine "sell".data l then "Sell".data else l)))) :=
    no_nl_ite _ _ _ (by decide) hc3
  rw [labelChain_clean (if matchBangLine "buy".data (if matchBangLine "sell".data (if matchDirLimitLine "buy".data (if matchDirLimitLine "sell".data l then "Sell".data else l) then "Buy".data else (if matchDirLimitLine "sell".data l then "Sell".data else l)) then "Sell".data else (if matchDirLimitLine "buy".data (if matchDirLimitLine "sell".data l then "Sell".data else l) then "Buy".data else (if matchDirLimitLine "sell".data l then "Sell".data else l))) then "Buy".data else (if matchBangLine "sell".data (if matchDirLimitLine "buy".data (if matchDirLimitLine "sell".data l then "Sell".data else l) then "Buy".data else (if matchDirLimitLine "sell".data l then "Sell".data else l)) then "Sell".data else (if matchDirLimitLine "buy".data (if matchDirLimitLine "sell".data l then "Sell".data else l) then "Buy".data else (if matchDirLimitLine "sell".data l then "Sell".data else l)))) hc4]
  rfl

theorem normalize_clean_line (u : List Char) (hcu : '\n' ∉ u)
    (hct : '\n' ∉ rewriteLine u) (hat : '@' ∉ rewriteLine u)
    (hne : rewriteLine u ≠ [])
    (hstrip : stripL (rewriteLine u) = rewriteLine u) :
    normalize_for_converter (String.mk u) = String.mk (rewriteLine u) := by
  unfold normalize_for_converter
  dsimp only
  rw [subChain_clean u hcu]
  rw [searchText_clean (strictCapText "e".data) (rewriteLine u) hct hne,
    strictCapText_clean "e".data (rewriteLine u) hct]
  rw [searchText_clean (strictCapText "tp".data) (rewriteLine u) hct hne,
    strictCapText_clean "tp".data (rewriteLine u) hct]
  rw [searchText_clean (strictCapText "sl".data) (rewriteLine u) hct hne,
    strictCapText_clean "sl".data (rewriteLine u) hct]
  have hnone : dirScan none (rewriteLine u) = none ∨
      strictLineCapture "e".data (rewriteLine u) = none ∨
      strictLineCapture "tp".data (rewriteLine u) = none ∨
      strictLineCapture "sl".data (rewriteLine u) = none := by
    cases hee : strictLineCapture "e".data (rewriteLine u) with
    | none => exact Or.inr (Or.inl rfl)
    | some a =>
      cases htp : strictLineCapture "tp".data (rewriteLine u) with
      | none => exact Or.inr (Or.inr (Or.inl rfl))
      | some b => exact (strict_e_tp_excl (rewriteLine u) a b hee htp).elim
  rw [match4_fallback (dirScan none (rewriteLine u))
    (strictLineCapture "e".data (rewriteLine u))
    (strictLineCapture "tp".data (rewriteLine u))
    (strictLineCapture "sl".data (rewriteLine u)) _ (rewriteLine u) hnone]
  rw [searchText_clean eColonM (rewriteLine u) hct hne,
    eColonM_clean (rewriteLine u) hct]
  cases hec : eColonLine (rewriteLine u) with
  | true =>
    rw [if_pos (by decide)]
    rw [hstrip]
  | false =>
    rw [if_neg (by decide)]
    rw [atScan_none (rewriteLine u) hat]
    rw [hstrip]

/-- C2: the spec's unconditional idempotence claim is false of the source.
On an input containing a currency-pair marker such as `EUR/CHF` together
with a direction token and entry, take-profit and stop-loss lines, the
first pass of `normalize_for_converter` prepends the concatenated pair as a
new first line; on the second pass that line no longer contains a slash, so
the rebuilt text differs and
`canonicalize (canonicalize x) ≠ canonicalize x`. -/
theorem C2_counterexample :
    normalize_for_converter
        (normalize_for_converter "EUR/CHF sell\ne: 1\ntp: 2\nsl: 3")
      ≠ normalize_for_converter "EUR/CHF sell\ne: 1\ntp: 2\nsl: 3" := by
  decide

set_option maxHeartbeats 1600000 in
/-- C2 (amended): the canonicalizer is idempotent on single-line inputs —
no newline, no at-sign, already stripped of surrounding whitespace, and
with well-formed numeric text.  On such inputs the seven whole-text
substitution rules coincide with a single per-line rewrite, the strict
entry and take-profit searches cannot both hit the unique line (so the
rebuild step never fires), no `E:` line is prepended, and the per-line
rewrite is idempotent. -/
theorem C2_canonicalizer_conditional_idem (x : String)
    (h0 : '\n' ∉ x.data) (h2 : '@' ∉ x.data)
    (h3 : stripL x.data = x.data) (h4 : goodNums x.data = true) :
    normalize_for_converter (normalize_for_converter x)
      = normalize_for_converter x := by
  cases hxe : x.data with
  | nil =>
    rw [show x = String.mk x.data from rfl, hxe]
    rfl
  | cons c rest =>
    have hcw : isPyWs c = false := stripped_head x.data h3 c rest hxe
    obtain ⟨c2, l3, hrw1, hc2⟩ := rewriteLine_head_ok x.data h4 c rest hxe hcw
    have hne : rewriteLine x.data ≠ [] := by
      rw [hrw1]
      exact List.cons_ne_nil c2 l3
    obtain ⟨A, d, hAd⟩ : ∃ A d, x.data = A ++ [d] := by
      rcases List.eq_nil_or_concat x.data with h | ⟨A, d, h⟩
      · rw [hxe] at h
        exact (List.cons_ne_nil c rest h).elim
      · exact ⟨A, d, by rw [h, List.concat_eq_append]⟩
    have hdw : isPyWs d = false := stripped_last x.data h3 d A hAd
    obtain ⟨m, d2, hrw2, hd2⟩ := rewriteLine_last_ok x.data h4 d A hAd hdw
    have hstrip : stripL (rewriteLine x.data) = rewriteLine x.data := by
      refine stripL_no_ws_edges _ ?_ ?_
      · intro ch hch
        rw [hrw1] at hch
        have hcc : c2 = ch := by
          have h9 := hch
          rw [List.head?_cons] at h9
          injection h9
        rw [← hcc]
        exact hc2
      · intro ch hch
        rw [hrw2] at hch
        rw [List.getLast?_append_of_ne_nil m (by simp)] at hch
        have hcc : d2 = ch := by
          have h9 := hch
          rw [List.getLast?_singleton] at h9
          injection h9
        rw [← hcc]
        exact hd2
    have hct : '\n' ∉ rewriteLine x.data :=
      rewriteLine_excl x.data h4 '\n' (by decide) (by decide) (by decide)
        (by decide) (by decide) (by decide) h0
    have hat : '@' ∉ rewriteLine x.data :=
      rewriteLine_excl x.data h4 '@' (by decide) (by decide) (by decide)
        (by decide) (by decide) (by decide) h2
    have hidem := rewriteLine_idem x.data h4
    have hp1 : normalize_for_converter x = String.mk (rewriteLine x.data) :=
      normalize_clean_line x.data h0 hct hat hne hstrip
    have hp2 : normalize_for_converter (String.mk (rewriteLine x.data))
        = String.mk (rewriteLine (rewriteLine x.data)) :=
      normalize_clean_line (rewriteLine x.data) hct
        (by rw [hidem]; exact hct) (by rw [hidem]; exact hat)
        (by rw [hidem]; exact hne) (by rw [hidem]; exact hstrip)
    rw [hp1, hp2, hidem]

theorem C2_canonicalizer_conditional_idem_witness :
    ('\n' ∉ "e: 1.25".data ∧ '@' ∉ "e: 1.25".data ∧
      stripL "e: 1.25".data = "e: 1.25".data ∧
      goodNums "e: 1.25".data = true) ∧
    normalize_for_converter (normalize_for_converter "e: 1.25")
      = normalize_for_converter "e: 1.25" :=
  ⟨⟨by decide, by decide, by decide, by decide⟩,
    C2_canonicalizer_conditional_idem "e: 1.25" (by decide) (by decide)
      (by decide) (by decide)⟩

end TgBridge
